import Mathlib

/-!
# The module manager of `runtime/v2`

A shallow embedding of `src/runtime/v2/manager.go` (the module manager `MM`, its phase
functions, `RunMigrations`, the configuration validation and the service configurator).

Conventions of the embedding

* Go's `error` is `Option GoError`; `none` is `nil`.
* Module code is side-effecting. Everything a module can reach through `context.Context`
  is a value of an arbitrary type `σ`; a hook is a function from the state before the call
  to the state after it together with the values it returns.
* Every call the manager makes into a module (or into the migration registrar) is appended,
  at the call site, to a log of `Invocation`s carried next to the state. The log is the
  observable "sequence of module invocations".
* A Go `map[string]V` is an association list. The order of its entries stands for the order
  in which a `range` loop (or `maps.Keys`) happens to enumerate the map, which Go leaves
  unspecified; lookups return the first entry of a key, and a well-formed map has no
  repeated key.
-/

namespace runtime

/-! ## Errors -/

/-- Go error values: `New` is an error made by `errors.New` or by `fmt.Errorf` without
the verb `%w`; `Wrap` is an error made by `fmt.Errorf` with `%w`, which keeps the wrapped
error. -/
inductive GoError where
  | New (msg : String)
  | Wrap (msg : String) (inner : GoError)
  deriving DecidableEq, Repr

/-- The method `Error()` of a Go error: its message. -/
def GoError.Error : GoError → String
  | .New msg => msg
  | .Wrap msg _ => msg

/-- The function `errors.Unwrap`. -/
def GoError.Unwrap : GoError → Option GoError
  | .New _ => none
  | .Wrap _ inner => some inner

/-- The call `fmt.Errorf(format ++ "%s: %w", moduleName, err)`, the shape of every
wrapping in the phase functions: the message is the format text, the module name, a colon
and the message of the wrapped error. -/
def fmtErrorfW (format : String) (moduleName : String) (err : GoError) : GoError :=
  .Wrap (format ++ moduleName ++ ": " ++ err.Error) err

/-- Substring test on strings (`strings.Contains`). -/
def containsStr (s sub : String) : Prop := sub.data <:+: s.data

/-! ## Modules and their capabilities -/

/-- An encoded transaction (`transaction.Tx`). -/
abbrev Tx := List Nat

/-- A genesis payload (`json.RawMessage`). -/
abbrev RawMessage := String

/-- A validator-set change record (`appmodulev2.ValidatorUpdate`). -/
structure ValidatorUpdate where
  PubKey : List Nat
  PubKeyType : String
  Power : Int
  deriving DecidableEq, Repr

/-- A hook of signature `func(ctx) error`. -/
abbrev Hook (σ : Type) := σ → σ × Option GoError

/-- A hook of signature `func(ctx) ([]ValidatorUpdate, error)`. -/
abbrev UpdatesHook (σ : Type) := σ → σ × (List ValidatorUpdate × Option GoError)

/-- The end-block capability of a module. A Go type has one method named `EndBlock` at
most, so it implements `appmodulev2.HasEndBlocker` (`EndBlock(ctx) error`) or
`sdkmodule.HasABCIEndBlock` (`EndBlock(ctx) ([]ValidatorUpdate, error)`) or neither. -/
inductive EndBlockCap (σ : Type) where
  | absent
  | HasEndBlocker (EndBlock : Hook σ)
  | HasABCIEndBlock (EndBlock : UpdatesHook σ)

/-- The genesis capability of a module. A Go type has one method named `InitGenesis` at
most, so it implements at most one of `appmodulev2.HasGenesis`
(`InitGenesis(ctx, data) error`), `sdkmodule.HasGenesis` (`InitGenesis(ctx, cdc, data)`)
and `sdkmodule.HasABCIGenesis` (`InitGenesis(ctx, cdc, data) []ValidatorUpdate`). Each
comes with the module's `DefaultGenesis` payload. -/
inductive GenesisCap (σ : Type) where
  | absent
  | HasGenesis (DefaultGenesis : RawMessage) (InitGenesis : σ → RawMessage → σ × Option GoError)
  | SdkHasGenesis (DefaultGenesis : RawMessage) (InitGenesis : σ → RawMessage → σ)
  | HasABCIGenesis (DefaultGenesis : RawMessage)
      (InitGenesis : σ → RawMessage → σ × List ValidatorUpdate)

/-- The migration registrar held by the manager. Its code (`newMigrationRegistrar`,
`RunModuleMigrations`) is not part of the sources at hand, so the one method the manager
calls is a field: `RunModuleMigrations(ctx, moduleName, fromVersion, toVersion) error`. -/
structure MigrationRegistrar (σ : Type) where
  RunModuleMigrations : σ → String → Nat → Nat → σ × Option GoError

/-- A gRPC method descriptor (`grpc.MethodDesc`), as far as the configurator reads it. -/
structure MethodDesc where
  MethodName : String
  deriving DecidableEq, Repr

/-- A gRPC service descriptor (`grpc.ServiceDesc`), as far as the configurator reads it. -/
structure ServiceDesc where
  ServiceName : String
  Methods : List MethodDesc
  deriving DecidableEq, Repr

/-- A service implementation (the argument `ss interface{}` of `RegisterService`). The
manager never looks into it and only passes it on, so it is a name here. -/
abbrev ServerImpl := String

/-- What a module's `RegisterServices(registrar) error` does: the registrar is only a
`grpc.ServiceRegistrar`, so the method can call `RegisterService` some number of times, and
it returns an error or nil. -/
structure ServicesCap where
  registers : List (ServiceDesc × ServerImpl)
  result : Option GoError

/-- A module (`appmodulev2.AppModule`) with the answer of every type assertion the manager
and the builder perform on it: a capability is `none` (or `absent`, or `false`) when the
assertion fails. `Name` is the result of the method `Name()` of a module that has one;
`RegisterInterfaces` and `RegisterLegacyAminoCodec` tell whether the module implements
`appmodulev2.HasRegisterInterfaces` and `appmodule.HasAminoCodec`. -/
structure AppModule (σ : Type) where
  PreBlock : Option (Hook σ) := none
  BeginBlock : Option (Hook σ) := none
  EndBlock : EndBlockCap σ := .absent
  TxValidator : Option (σ → Tx → σ × Option GoError) := none
  UpdateValidators : Option (UpdatesHook σ) := none
  ConsensusVersion : Option Nat := none
  Genesis : GenesisCap σ := .absent
  RegisterServices : Option ServicesCap := none
  RegisterMigrations :
    Option (MigrationRegistrar σ → MigrationRegistrar σ × Option GoError) := none
  Name : Option String := none
  RegisterInterfaces : Bool := false
  RegisterLegacyAminoCodec : Bool := false

/-- The ordering configuration (`runtimev2.Module`). -/
structure Config where
  PreBlockers : List String := []
  BeginBlockers : List String := []
  EndBlockers : List String := []
  TxValidation : List String := []
  InitGenesis : List String := []
  ExportGenesis : List String := []
  OrderMigrations : List String := []
  deriving DecidableEq, Repr

/-- The module manager (`MM`); logger and codec carry no behaviour of their own here. -/
structure MM (σ : Type) where
  config : Config
  modules : List (String × AppModule σ)
  migrationRegistrar : MigrationRegistrar σ

/-- The map access `m.modules[moduleName]`: `none` is the nil module of an absent key, on
which every type assertion fails. -/
def MM.module (m : MM σ) (moduleName : String) : Option (AppModule σ) :=
  m.modules.lookup moduleName

/-- The assertion `m.modules[moduleName].(appmodule.HasPreBlocker)` succeeds. -/
def MM.hasPreBlocker (m : MM σ) (moduleName : String) : Bool :=
  ((m.module moduleName).bind AppModule.PreBlock).isSome

/-- The assertion `m.modules[moduleName].(appmodulev2.HasBeginBlocker)` succeeds. -/
def MM.hasBeginBlocker (m : MM σ) (moduleName : String) : Bool :=
  ((m.module moduleName).bind AppModule.BeginBlock).isSome

/-- The module under the name implements `appmodulev2.HasEndBlocker` or
`sdkmodule.HasABCIEndBlock`. -/
def MM.hasEndBlocker (m : MM σ) (moduleName : String) : Bool :=
  match (m.module moduleName).map AppModule.EndBlock with
  | some (.HasEndBlocker _) => true
  | some (.HasABCIEndBlock _) => true
  | _ => false

/-- The assertion `m.modules[moduleName].(appmodulev2.HasTxValidation[transaction.Tx])`
succeeds. -/
def MM.hasTxValidation (m : MM σ) (moduleName : String) : Bool :=
  ((m.module moduleName).bind AppModule.TxValidator).isSome

/-- The module under the name implements `appmodulev2.HasGenesis`,
`sdkmodule.HasABCIGenesis` or `sdkmodule.HasGenesis`. -/
def MM.hasGenesis (m : MM σ) (moduleName : String) : Bool :=
  match (m.module moduleName).map AppModule.Genesis with
  | some (.HasGenesis _ _) => true
  | some (.HasABCIGenesis _ _) => true
  | some (.SdkHasGenesis _ _) => true
  | _ => false

/-! ## The invocation log -/

/-- The module methods the manager calls, with the arguments that are not the context. -/
inductive Method where
  | PreBlock
  | BeginBlock
  | EndBlock
  | ABCIEndBlock
  | TxValidator (tx : Tx)
  | UpdateValidators
  | InitGenesis (data : RawMessage)
  | SdkInitGenesis (data : RawMessage)
  | ABCIInitGenesis (data : RawMessage)
  | RunModuleMigrations (fromVersion toVersion : Nat)
  deriving DecidableEq, Repr

/-- One call made by the manager: the module it concerns, the method, and what the call
returned (the validator updates are `[]` for methods that return none). -/
structure Invocation where
  moduleName : String
  method : Method
  updates : List ValidatorUpdate
  err : Option GoError
  deriving DecidableEq, Repr

/-- The state an execution threads: what the context gives access to, and the log. -/
structure Exec (σ : Type) where
  ctx : σ
  calls : List Invocation

/-- Records a call and the state it left. -/
def Exec.record (w : Exec σ) (ctx : σ) (c : Invocation) : Exec σ :=
  { ctx := ctx, calls := w.calls ++ [c] }

/-- A Go loop `for _, x := range xs` whose body can leave the function with `return r`:
the body yields `some r` to return and `none` to go on with the next element. -/
def forRange (body : α → S → S × Option R) : List α → S → S × Option R
  | [], s => (s, none)
  | x :: xs, s =>
    match body x s with
    | (s, some r) => (s, some r)
    | (s, none) => forRange body xs s

/-! ## Phase functions -/

/-- The function returned by `MM.PreBlocker` (the transactions it receives are unused). -/
def MM.PreBlocker (m : MM σ) (w : Exec σ) : Exec σ × Option GoError :=
  forRange (fun moduleName w =>
    match (m.module moduleName).bind AppModule.PreBlock with
    | some PreBlock =>
      let r := PreBlock w.ctx
      let w := w.record r.1 ⟨moduleName, .PreBlock, [], r.2⟩
      match r.2 with
      | some err => (w, some (fmtErrorfW "failed to run preblock for " moduleName err))
      | none => (w, none)
    | none => (w, none)) m.config.PreBlockers w

/-- The function returned by `MM.BeginBlock`. -/
def MM.BeginBlock (m : MM σ) (w : Exec σ) : Exec σ × Option GoError :=
  forRange (fun moduleName w =>
    match (m.module moduleName).bind AppModule.BeginBlock with
    | some BeginBlock =>
      let r := BeginBlock w.ctx
      let w := w.record r.1 ⟨moduleName, .BeginBlock, [], r.2⟩
      match r.2 with
      | some err => (w, some (fmtErrorfW "failed to run beginblocker for " moduleName err))
      | none => (w, none)
    | none => (w, none)) m.config.BeginBlockers w

/-- The function returned by `MM.TxValidation`. -/
def MM.TxValidation (m : MM σ) (tx : Tx) (w : Exec σ) : Exec σ × Option GoError :=
  forRange (fun moduleName w =>
    match (m.module moduleName).bind AppModule.TxValidator with
    | some TxValidator =>
      let r := TxValidator w.ctx tx
      let w := w.record r.1 ⟨moduleName, .TxValidator tx, [], r.2⟩
      match r.2 with
      | some err => (w, some (fmtErrorfW "failed to run txvalidator for " moduleName err))
      | none => (w, none)
    | none => (w, none)) m.config.TxValidation w

/-- The text of the accumulator-conflict error of `MM.EndBlock`. -/
def errValUpdatesAlreadySet : GoError :=
  .New "validator end block updates already set by a previous module"

/-- The variable `validatorUpdates` of `MM.EndBlock` as the call creates it. Both returned
closures capture it, so they read and write the same variable; the embedding passes its
value in and out of each closure call. -/
def MM.EndBlock.validatorUpdates : List ValidatorUpdate := []

/-- The closure `endBlockFunc` of `MM.EndBlock`; the first component of the state is the
captured variable `validatorUpdates`. The `if` and `else if` of the loop body are the cases
`HasEndBlocker` and `HasABCIEndBlock` of the `match`. -/
def MM.endBlockFunc (m : MM σ) (s : List ValidatorUpdate × Exec σ) :
    (List ValidatorUpdate × Exec σ) × Option GoError :=
  forRange (fun moduleName (s : List ValidatorUpdate × Exec σ) =>
    let validatorUpdates := s.1
    let w := s.2
    match (m.module moduleName).map AppModule.EndBlock with
    | some (.HasEndBlocker EndBlock) =>
      let r := EndBlock w.ctx
      let w := w.record r.1 ⟨moduleName, .EndBlock, [], r.2⟩
      match r.2 with
      | some err =>
        ((validatorUpdates, w), some (fmtErrorfW "failed to run endblock for " moduleName err))
      | none => ((validatorUpdates, w), none)
    | some (.HasABCIEndBlock EndBlock) =>
      let r := EndBlock w.ctx
      let moduleValUpdates := r.2.1
      let w := w.record r.1 ⟨moduleName, .ABCIEndBlock, moduleValUpdates, r.2.2⟩
      match r.2.2 with
      | some err =>
        ((validatorUpdates, w), some (fmtErrorfW "failed to run enblock for " moduleName err))
      | none =>
        if moduleValUpdates.length > 0 then
          if validatorUpdates.length > 0 then
            ((validatorUpdates, w), some errValUpdatesAlreadySet)
          else ((validatorUpdates ++ moduleValUpdates, w), none)
        else ((validatorUpdates, w), none)
    | _ => ((validatorUpdates, w), none)) m.config.EndBlockers s

/-- The loop of the closure `valUpdateFunc` of `MM.EndBlock`, which ranges over the module
map and can leave the closure with an error. -/
def MM.valUpdateFunc.loop (m : MM σ) (s : List ValidatorUpdate × Exec σ) :
    (List ValidatorUpdate × Exec σ) × Option GoError :=
  forRange (fun (entry : String × AppModule σ) (s : List ValidatorUpdate × Exec σ) =>
    let validatorUpdates := s.1
    let w := s.2
    match entry.2.UpdateValidators with
    | some UpdateValidators =>
      let r := UpdateValidators w.ctx
      let moduleValUpdates := r.2.1
      let w := w.record r.1 ⟨entry.1, .UpdateValidators, moduleValUpdates, r.2.2⟩
      match r.2.2 with
      | some err => ((validatorUpdates, w), some err)
      | none =>
        if moduleValUpdates.length > 0 then
          if validatorUpdates.length > 0 then
            ((validatorUpdates, w), some errValUpdatesAlreadySet)
          else ((validatorUpdates ++ moduleValUpdates, w), none)
        else ((validatorUpdates, w), none)
    | none => ((validatorUpdates, w), none)) m.modules s

/-- The closure `valUpdateFunc` of `MM.EndBlock`: it returns `(nil, err)` when its loop
returns an error and `(validatorUpdates, nil)` after the loop, a nil slice being `none`. -/
def MM.valUpdateFunc (m : MM σ) (s : List ValidatorUpdate × Exec σ) :
    (List ValidatorUpdate × Exec σ) × (Option (List ValidatorUpdate) × Option GoError) :=
  let r := MM.valUpdateFunc.loop m s
  match r.2 with
  | some err => (r.1, (none, some err))
  | none => (r.1, (some r.1.1, none))

/-! ## Migrations -/

/-- A version map (`appmodulev2.VersionMap`, a `map[string]uint64`). -/
abbrev VersionMap := List (String × Nat)

/-- The assignment `vm[k] = v` on a map. -/
def VersionMap.set : VersionMap → String → Nat → VersionMap
  | [], k, v => [(k, v)]
  | (k', v') :: vm, k, v => if k' = k then (k, v) :: vm else (k', v') :: set vm k v

/-- The version `toVersion` that `RunMigrations` computes for a name: the module's
`ConsensusVersion()`, and `uint64(0)` when the type assertion fails. -/
def MM.toVersion (m : MM σ) (moduleName : String) : Nat :=
  match (m.module moduleName).bind AppModule.ConsensusVersion with
  | some v => v
  | none => 0

/-- The error of `RunMigrations` for a new module that returns validator updates. -/
def errInitGenesisValUpdates : GoError :=
  .New "validator InitGenesis update is already set by another module"

/-- The body of the loop of `MM.RunMigrations` for one name of the migration order. The
three `if` statements of the genesis path assert three interfaces of which a module
implements one at most (see `GenesisCap`), so they are the cases of one `match`. -/
def MM.runMigration (m : MM σ) (fromVM : VersionMap) (moduleName : String)
    (s : VersionMap × Exec σ) : (VersionMap × Exec σ) × Option GoError :=
  let updatedVM := s.1
  let w := s.2
  let toVersion := m.toVersion moduleName
  match fromVM.lookup moduleName with
  | some fromVersion =>
    let r := m.migrationRegistrar.RunModuleMigrations w.ctx moduleName fromVersion toVersion
    let w := w.record r.1 ⟨moduleName, .RunModuleMigrations fromVersion toVersion, [], r.2⟩
    match r.2 with
    | some err => ((updatedVM, w), some err)
    | none => ((updatedVM.set moduleName toVersion, w), none)
  | none =>
    match (m.module moduleName).map AppModule.Genesis with
    | some (.HasGenesis DefaultGenesis InitGenesis) =>
      let r := InitGenesis w.ctx DefaultGenesis
      let w := w.record r.1 ⟨moduleName, .InitGenesis DefaultGenesis, [], r.2⟩
      match r.2 with
      | some err =>
        ((updatedVM, w), some (fmtErrorfW "failed to run InitGenesis for " moduleName err))
      | none => ((updatedVM.set moduleName toVersion, w), none)
    | some (.SdkHasGenesis DefaultGenesis InitGenesis) =>
      let ctx := InitGenesis w.ctx DefaultGenesis
      let w := w.record ctx ⟨moduleName, .SdkInitGenesis DefaultGenesis, [], none⟩
      ((updatedVM.set moduleName toVersion, w), none)
    | some (.HasABCIGenesis DefaultGenesis InitGenesis) =>
      let r := InitGenesis w.ctx DefaultGenesis
      let moduleValUpdates := r.2
      let w := w.record r.1 ⟨moduleName, .ABCIInitGenesis DefaultGenesis, moduleValUpdates, none⟩
      if moduleValUpdates.length > 0 then ((updatedVM, w), some errInitGenesisValUpdates)
      else ((updatedVM.set moduleName toVersion, w), none)
    | _ => ((updatedVM.set moduleName toVersion, w), none)

/-- The method `MM.RunMigrations`: it returns `(nil, err)` or `(updatedVM, nil)`, a nil map
being `none`. -/
def MM.RunMigrations (m : MM σ) (fromVM : VersionMap) (w : Exec σ) :
    Exec σ × (Option VersionMap × Option GoError) :=
  let r := forRange (m.runMigration fromVM) m.config.OrderMigrations ([], w)
  match r.2 with
  | some err => (r.1.2, (none, some err))
  | none => (r.1.2, (some r.1.1, none))

/-! ## Construction and validation -/

/-- Byte-wise lexicographic order on strings, the order of `sort.Strings` (UTF-8 keeps the
order of code points). -/
def lexLe : List Char → List Char → Bool
  | [], _ => true
  | _ :: _, [] => false
  | a :: as, b :: bs => if a.toNat < b.toNat then true else if b.toNat < a.toNat then false
    else lexLe as bs

/-- The call `sort.Strings`. -/
def sortStrings (xs : List String) : List String :=
  List.insertionSort (fun a b => lexLe a.data b.data = true) xs

/-- The format `%v` of a `[]string`. -/
def fmtStrings (xs : List String) : String := "[" ++ " ".intercalate xs ++ "]"

/-- The error `assertNoForgottenModules` makes from the (sorted) missing names. -/
def errForgotten (setOrderFnName : String) (missing : List String) : GoError :=
  .New ("all modules must be defined when setting " ++ setOrderFnName ++ ", missing: "
    ++ fmtStrings missing)

/-- The slice `missing` of `assertNoForgottenModules` when its loop over the module map
ends: the registered names that `pass` does not exempt and that are not in `moduleNames`,
in the order the map was enumerated. -/
def MM.missing (m : MM σ) (moduleNames : List String) (pass : Option (String → Bool)) :
    List String :=
  (m.modules.map Prod.fst).filter fun name =>
    !(match pass with
      | some pass => pass name
      | none => false) && !moduleNames.contains name

/-- The method `MM.assertNoForgottenModules`. -/
def MM.assertNoForgottenModules (m : MM σ) (setOrderFnName : String)
    (moduleNames : List String) (pass : Option (String → Bool)) : Option GoError :=
  let missing := m.missing moduleNames pass
  if missing.length ≠ 0 then some (errForgotten setOrderFnName (sortStrings missing)) else none

/-- The closure `pass` for `PreBlockers`. -/
def MM.passPreBlockers (m : MM σ) (moduleName : String) : Bool :=
  !m.hasPreBlocker moduleName

/-- The closure `pass` for `BeginBlockers`. -/
def MM.passBeginBlockers (m : MM σ) (moduleName : String) : Bool :=
  !m.hasBeginBlocker moduleName

/-- The closure `pass` for `EndBlockers`: false for a `HasEndBlocker`, else the negation of
the assertion to `HasABCIEndBlock`. -/
def MM.passEndBlockers (m : MM σ) (moduleName : String) : Bool :=
  !m.hasEndBlocker moduleName

/-- The closure `pass` for `TxValidation`. -/
def MM.passTxValidation (m : MM σ) (moduleName : String) : Bool :=
  !m.hasTxValidation moduleName

/-- The closure `pass` for `InitGenesis` and, with the same text, for `ExportGenesis`: false
for a `HasGenesis` of `appmodulev2`, false for a `HasABCIGenesis`, else the negation of the
assertion to `sdkmodule.HasGenesis`. -/
def MM.passGenesis (m : MM σ) (moduleName : String) : Bool :=
  !m.hasGenesis moduleName

/-- The method `MM.validateConfig`: the first failing assertion is returned. -/
def MM.validateConfig (m : MM σ) : Option GoError :=
  match m.assertNoForgottenModules "PreBlockers" m.config.PreBlockers (some m.passPreBlockers) with
  | some err => some err
  | none =>
  match m.assertNoForgottenModules "BeginBlockers" m.config.BeginBlockers
    (some m.passBeginBlockers) with
  | some err => some err
  | none =>
  match m.assertNoForgottenModules "EndBlockers" m.config.EndBlockers (some m.passEndBlockers) with
  | some err => some err
  | none =>
  match m.assertNoForgottenModules "TxValidation" m.config.TxValidation
    (some m.passTxValidation) with
  | some err => some err
  | none =>
  match m.assertNoForgottenModules "InitGenesis" m.config.InitGenesis (some m.passGenesis) with
  | some err => some err
  | none =>
  match m.assertNoForgottenModules "ExportGenesis" m.config.ExportGenesis (some m.passGenesis) with
  | some err => some err
  | none => m.assertNoForgottenModules "OrderMigrations" m.config.OrderMigrations none

/-- The defaults `NewModuleManager` writes into the configuration: every empty list becomes
`modulesName`, the migration order becomes `DefaultMigrationsOrder(modulesName)`. -/
def defaultConfig (DefaultMigrationsOrder : List String → List String)
    (modulesName : List String) (config : Config) : Config :=
  { PreBlockers := if config.PreBlockers.length = 0 then modulesName else config.PreBlockers
    BeginBlockers :=
      if config.BeginBlockers.length = 0 then modulesName else config.BeginBlockers
    EndBlockers := if config.EndBlockers.length = 0 then modulesName else config.EndBlockers
    TxValidation := if config.TxValidation.length = 0 then modulesName else config.TxValidation
    InitGenesis := if config.InitGenesis.length = 0 then modulesName else config.InitGenesis
    ExportGenesis :=
      if config.ExportGenesis.length = 0 then modulesName else config.ExportGenesis
    OrderMigrations :=
      if config.OrderMigrations.length = 0 then DefaultMigrationsOrder modulesName
      else config.OrderMigrations }

/-- The constructor `NewModuleManager`; `.error err` is `panic(err)`. The functions
`sdkmodule.DefaultMigrationsOrder` and `newMigrationRegistrar` are not part of the sources
at hand and are arguments. `maps.Keys(modules)` is the list of keys in the order of the
entries. -/
def NewModuleManager (DefaultMigrationsOrder : List String → List String)
    (newMigrationRegistrar : MigrationRegistrar σ) (config : Config)
    (modules : List (String × AppModule σ)) : Except GoError (MM σ) :=
  let modulesName := modules.map Prod.fst
  let mm : MM σ :=
    { config := defaultConfig DefaultMigrationsOrder modulesName config
      modules := modules
      migrationRegistrar := newMigrationRegistrar }
  match mm.validateConfig with
  | some err => .error err
  | none => .ok mm

/-! ## Services -/

/-- A protobuf message (`transaction.Type`): its full type name and its content. -/
structure Message where
  typeName : String
  content : List Nat
  deriving DecidableEq, Repr

/-- A handler of a route table: `func(ctx, msg) (resp, err)`. -/
abbrev Handler (σ : Type) := σ → Message → σ × (Message × Option GoError)

/-- A hybrid handler of `protocompat`: `func(ctx, request, response) error`; it fills the
response it is given, so the filled response is part of the result. -/
abbrev HybridHandler (σ : Type) := σ → Message → Message → σ × (Message × Option GoError)

/-- Modelled from the spec: the route table builder `stf.MsgRouterBuilder`, whose code is
not part of the sources at hand. The spec gives a route table at most one handler per
identifier and lets a conflicting identifier fail router construction. -/
structure MsgRouterBuilder (σ : Type) where
  handlers : List (String × Handler σ)

/-- Modelled from the spec: the method `RegisterHandler` of `stf.MsgRouterBuilder`, whose
code is not part of the sources at hand: an identifier that is already registered is an
error and leaves the table as it was, any other is added. -/
def MsgRouterBuilder.RegisterHandler (b : MsgRouterBuilder σ) (msgType : String)
    (handler : Handler σ) : MsgRouterBuilder σ × Option GoError :=
  if (b.handlers.lookup msgType).isSome then
    (b, some (.New ("handler already registered: " ++ msgType)))
  else ({ handlers := b.handlers ++ [(msgType, handler)] }, none)

/-- The functions of `protocompat` and of the global protobuf type registry that
`registerMethod` calls; their code is not part of the sources at hand, so they are
arguments. `FindMessageByName` yields the name of a message type, of which `New` makes the
empty message. -/
structure Protocompat (σ : Type) where
  RequestFullNameFromMethodDesc : ServiceDesc → MethodDesc → Except GoError String
  ResponseFullNameFromMethodDesc : ServiceDesc → MethodDesc → Except GoError String
  MakeHybridHandler : ServiceDesc → MethodDesc → ServerImpl → Except GoError (HybridHandler σ)
  FindMessageByName : String → Except GoError String

/-- The entry `registerMethod` installs: it makes a new message of the response type, runs
the hybrid handler on the request and that message, and returns the message with the
handler's error. -/
def dispatchEntry (responseV2Type : String) (hybridHandler : HybridHandler σ) : Handler σ :=
  fun ctx msg =>
    let resp : Message := { typeName := responseV2Type, content := [] }
    hybridHandler ctx msg resp

/-- The function `registerMethod`. -/
def registerMethod (pc : Protocompat σ) (stfRouter : MsgRouterBuilder σ) (sd : ServiceDesc)
    (md : MethodDesc) (ss : ServerImpl) : MsgRouterBuilder σ × Option GoError :=
  match pc.RequestFullNameFromMethodDesc sd md with
  | .error err => (stfRouter, some err)
  | .ok requestName =>
  match pc.ResponseFullNameFromMethodDesc sd md with
  | .error err => (stfRouter, some err)
  | .ok responseName =>
  match pc.MakeHybridHandler sd md ss with
  | .error err => (stfRouter, some err)
  | .ok hybridHandler =>
  match pc.FindMessageByName responseName with
  | .error err => (stfRouter, some err)
  | .ok responseV2Type =>
    stfRouter.RegisterHandler requestName (dispatchEntry responseV2Type hybridHandler)

/-- The registry `protoregistry.Files` as the configurator reads it: the full names of the
services it can resolve, each with the answer of
`protobuf.HasExtension(options, cosmosmsg.E_Service)`. -/
abbrev Files := List (String × Bool)

/-- The type `configurator`. -/
structure configurator (σ : Type) where
  stfQueryRouter : MsgRouterBuilder σ
  stfMsgRouter : MsgRouterBuilder σ
  registry : Files
  err : Option GoError

/-- The method `configurator.registerQueryHandlers`. -/
def configurator.registerQueryHandlers (pc : Protocompat σ) (c : configurator σ)
    (sd : ServiceDesc) (ss : ServerImpl) : configurator σ × Option GoError :=
  forRange (fun md (c : configurator σ) =>
    let r := registerMethod pc c.stfQueryRouter sd md ss
    let c := { c with stfQueryRouter := r.1 }
    match r.2 with
    | some err => (c, some (fmtErrorfW "unable to register query handler " md.MethodName err))
    | none => (c, none)) sd.Methods c

/-- The method `configurator.registerMsgHandlers`. -/
def configurator.registerMsgHandlers (pc : Protocompat σ) (c : configurator σ)
    (sd : ServiceDesc) (ss : ServerImpl) : configurator σ × Option GoError :=
  forRange (fun md (c : configurator σ) =>
    let r := registerMethod pc c.stfMsgRouter sd md ss
    let c := { c with stfMsgRouter := r.1 }
    match r.2 with
    | some err => (c, some (fmtErrorfW "unable to register msg handler " md.MethodName err))
    | none => (c, none)) sd.Methods c

/-- The error of `RegisterService` for a service the registry cannot resolve. -/
def errNoDescriptor (serviceName : String) : GoError :=
  .New ("register service: unable to find protov2 service descriptor: "
    ++ "please make sure protov2 API counterparty is imported: " ++ serviceName)

/-- The method `configurator.RegisterService`; it returns nothing and leaves a failure in
the field `err`. -/
def configurator.RegisterService (pc : Protocompat σ) (c : configurator σ)
    (sd : ServiceDesc) (ss : ServerImpl) : configurator σ :=
  match c.registry.lookup sd.ServiceName with
  | none => { c with err := some (errNoDescriptor sd.ServiceName) }
  | some hasExtension =>
    if !hasExtension then
      let r := c.registerQueryHandlers pc sd ss
      match r.2 with
      | some err => { r.1 with err := some err }
      | none => r.1
    else
      let r := c.registerMsgHandlers pc sd ss
      match r.2 with
      | some err => { r.1 with err := some err }
      | none => r.1

/-- The part of `App` the service registration touches. -/
structure App (σ : Type) where
  msgRouterBuilder : MsgRouterBuilder σ
  queryRouterBuilder : MsgRouterBuilder σ

/-- The configurator `c` of `registerServices` after the call `s.RegisterServices(c)`: the
module has made its `RegisterService` calls on it. -/
def registerServices.c (pc : Protocompat σ) (s : ServicesCap) (app : App σ)
    (registry : Files) : configurator σ :=
  s.registers.foldl (fun c reg => c.RegisterService pc reg.1 reg.2)
    { stfQueryRouter := app.queryRouterBuilder
      stfMsgRouter := app.msgRouterBuilder
      registry := registry
      err := none }

/-- The function `registerServices`: it returns what `s.RegisterServices(c)` returns; the
routers of the app, which the configurator points to, hold what was registered. -/
def registerServices (pc : Protocompat σ) (s : ServicesCap) (app : App σ)
    (registry : Files) : App σ × Option GoError :=
  let c := registerServices.c pc s app registry
  ({ msgRouterBuilder := c.stfMsgRouter, queryRouterBuilder := c.stfQueryRouter }, s.result)

/-- The method `MM.RegisterServices`; `GlobalFiles` is `protoregistry.GlobalFiles`. It
ranges over the module map, and changes the routers of the app and the migration registrar
of the manager. -/
def MM.RegisterServices (pc : Protocompat σ) (GlobalFiles : Files) (m : MM σ) (app : App σ) :
    (MM σ × App σ) × Option GoError :=
  forRange (fun (entry : String × AppModule σ) (s : MM σ × App σ) =>
    let module := entry.2
    let r :=
      match module.RegisterServices with
      | some services => registerServices pc services s.2 GlobalFiles
      | none => (s.2, none)
    match r.2 with
    | some err => ((s.1, r.1), some err)
    | none =>
      match module.RegisterMigrations with
      | some RegisterMigrations =>
        let r' := RegisterMigrations s.1.migrationRegistrar
        (({ s.1 with migrationRegistrar := r'.1 }, r.1), r'.2)
      | none => ((s.1, r.1), none)) m.modules (m, app)

/-! ## The application builder -/

/-- A branch function (`func(state store.ReaderMap) store.WriterMap`); the builder only
stores it and hands it on, so it is a name here. -/
abbrev Branch := String

/-- A store (`a.app.db`); the builder only stores it and hands it on, so it is a name. -/
abbrev Store := String

/-- A transaction validator: `func(ctx, tx) error`. -/
abbrev TxValidatorFn (σ : Type) := Tx → Exec σ → Exec σ × Option GoError

/-- A hook run after each transaction: `func(ctx, tx, success) error`. -/
abbrev PostTxExecFn (σ : Type) := Tx → Bool → Exec σ → Exec σ × Option GoError

/-- The method the builder calls as `moduleManager.TxValidators()`. The manager at hand
declares it under the name `TxValidation`, with the comment "TxValidators validates incoming
transactions". -/
def MM.TxValidators (m : MM σ) : TxValidatorFn σ := m.TxValidation

/-- The arguments `Build` hands to `stf.NewSTF`, in the order of the call (the logger
apart). -/
structure STFArgs (σ : Type) where
  msgRouterBuilder : MsgRouterBuilder σ
  queryRouterBuilder : MsgRouterBuilder σ
  preBlocker : Exec σ → Exec σ × Option GoError
  beginBlock : Exec σ → Exec σ × Option GoError
  endBlocker : List ValidatorUpdate × Exec σ → (List ValidatorUpdate × Exec σ) × Option GoError
  txValidator : TxValidatorFn σ
  valUpdate : List ValidatorUpdate × Exec σ →
    (List ValidatorUpdate × Exec σ) × (Option (List ValidatorUpdate) × Option GoError)
  postTxExec : PostTxExecFn σ
  branch : Branch

/-- The type `App` as far as the builder reads and writes it. The state-transition function
and the app manager, whose code is not part of the sources at hand, are represented by the
arguments they were made from. The fields `logger`, `interfaceRegistrar` and `amino` record
what was sent to them: the warnings, and the names of the modules whose `RegisterInterfaces`
and `RegisterLegacyAminoCodec` were called. -/
structure RuntimeApp (σ : Type) where
  moduleManager : MM σ
  msgRouterBuilder : MsgRouterBuilder σ
  queryRouterBuilder : MsgRouterBuilder σ
  logger : List String := []
  interfaceRegistrar : List String := []
  amino : List String := []
  branch : Option Branch := none
  db : Option Store := none
  stf : Option (STFArgs σ) := none
  appm : Option (Store × STFArgs σ) := none

/-- The type `AppBuilder`; `storeBuilder` is what `storeBuilder.Get()` returns, nil being
`none`; a nil function is `none`. -/
structure AppBuilder (σ : Type) where
  app : RuntimeApp σ
  storeBuilder : Option Store := none
  txValidator : Option (TxValidatorFn σ) := none
  postTxExec : Option (PostTxExecFn σ) := none

/-- The digit of `lowerhex` ("0123456789abcdef") for the four low bits of `n`. -/
def lowerhex (n : Nat) : Char := "0123456789abcdef".data.getD (n % 16) '0'

/-- The `k` hexadecimal digits of `r`, the highest first: the digits that `strconv` appends
after the letter x (two), u (four) and U (eight). -/
def hexDigits (k r : Nat) : List Char :=
  (List.range k).reverse.map fun i => lowerhex (r / 16 ^ i)

/-- The function `appendEscapedRune` of `strconv`, as `strconv.Quote` calls it (quote
character 34, neither ASCII-only nor graphic-only): the quote and the backslash (92) get a
backslash; a printable rune is kept; the seven control characters with a letter get it; any
other rune is written in hexadecimal after x, u or U. `IsPrint` is `strconv.IsPrint`, whose
Unicode tables are not part of the sources at hand, so it is an argument. A name is a string
of Unicode characters, so the branches for invalid UTF-8 are not reached. -/
def appendEscapedRune (IsPrint : Char → Bool) (r : Char) : List Char :=
  if r.toNat = 34 ∨ r.toNat = 92 then [Char.ofNat 92, r]
  else if IsPrint r then [r]
  else if r.toNat = 7 then [Char.ofNat 92, 'a']
  else if r.toNat = 8 then [Char.ofNat 92, 'b']
  else if r.toNat = 12 then [Char.ofNat 92, 'f']
  else if r.toNat = 10 then [Char.ofNat 92, 'n']
  else if r.toNat = 13 then [Char.ofNat 92, 'r']
  else if r.toNat = 9 then [Char.ofNat 92, 't']
  else if r.toNat = 11 then [Char.ofNat 92, 'v']
  else if r.toNat < 32 ∨ r.toNat = 127 then Char.ofNat 92 :: 'x' :: hexDigits 2 r.toNat
  else if r.toNat < 65536 then Char.ofNat 92 :: 'u' :: hexDigits 4 r.toNat
  else Char.ofNat 92 :: 'U' :: hexDigits 8 r.toNat

/-- The format `%q` of a string, which is `strconv.Quote`: the escaped runes of the string
between two double quotes. -/
def fmtQ (IsPrint : Char → Bool) (name : String) : String :=
  String.mk (Char.ofNat 34 :: (name.data.flatMap (appendEscapedRune IsPrint) ++ [Char.ofNat 34]))

/-- The error of `RegisterModules` for a name that is registered already. -/
def errModuleExists (IsPrint : Char → Bool) (name : String) : GoError :=
  .New ("module named " ++ fmtQ IsPrint name ++ " already exists")

/-- The map assignment `modules[name] = appModule`. -/
def setModule : List (String × AppModule σ) → String → AppModule σ → List (String × AppModule σ)
  | [], name, appModule => [(name, appModule)]
  | (k, v) :: modules, name, appModule =>
    if k = name then (name, appModule) :: modules else (k, v) :: setModule modules name appModule

/-- The first statement of the loop body of `AppBuilder.RegisterModules`: a module that
has a method `Name()` whose result differs from its key gets a warning in the log. -/
def AppBuilder.warnName (IsPrint : Char → Bool) (a : AppBuilder σ) (name : String)
    (appModule : AppModule σ) : AppBuilder σ :=
  match appModule.Name with
  | some modName =>
    if name ≠ modName then
      { a with app := { a.app with logger := a.app.logger ++
          ["module name " ++ fmtQ IsPrint name ++ " does not match name returned by HasName: "
            ++ fmtQ IsPrint modName] } }
    else a
  | none => a

/-- The body of the loop of `AppBuilder.RegisterModules` for one entry of the input map. -/
def AppBuilder.registerModule (IsPrint : Char → Bool) (entry : String × AppModule σ)
    (a : AppBuilder σ) : AppBuilder σ × Option GoError :=
  let name := entry.1
  let appModule := entry.2
  let a : AppBuilder σ := a.warnName IsPrint name appModule
  if (a.app.moduleManager.modules.lookup name).isSome then
    (a, some (errModuleExists IsPrint name))
  else
    let a : AppBuilder σ :=
      { a with app := { a.app with moduleManager :=
          { a.app.moduleManager with
            modules := setModule a.app.moduleManager.modules name appModule } } }
    let a : AppBuilder σ :=
      if appModule.RegisterInterfaces then
        { a with app := { a.app with interfaceRegistrar := a.app.interfaceRegistrar ++ [name] } }
      else a
    let a : AppBuilder σ :=
      if appModule.RegisterLegacyAminoCodec then
        { a with app := { a.app with amino := a.app.amino ++ [name] } }
      else a
    (a, none)

/-- The method `AppBuilder.RegisterModules`: it ranges over the input map. `IsPrint` is the
function of `strconv` that the format `%q` of its messages calls. -/
def AppBuilder.RegisterModules (IsPrint : Char → Bool) (a : AppBuilder σ)
    (modules : List (String × AppModule σ)) : AppBuilder σ × Option GoError :=
  forRange (AppBuilder.registerModule IsPrint) modules a

/-- The type `AppBuilderOption`: `func(*AppBuilder)`. -/
abbrev AppBuilderOption (σ : Type) := AppBuilder σ → AppBuilder σ

/-- The function `AppBuilderWithBranch`. -/
def AppBuilderWithBranch (branch : Option Branch) : AppBuilderOption σ :=
  fun a => { a with app := { a.app with branch := branch } }

/-- The function `AppBuilderWithTxValidator`. -/
def AppBuilderWithTxValidator (txValidators : Option (TxValidatorFn σ)) : AppBuilderOption σ :=
  fun a => { a with txValidator := txValidators }

/-- The function `AppBuilderWithPostTxExec`. -/
def AppBuilderWithPostTxExec (postTxExec : Option (PostTxExecFn σ)) : AppBuilderOption σ :=
  fun a => { a with postTxExec := postTxExec }

/-- What `Build` calls outside the sources at hand: the functions of `protocompat`, the
global registry of protobuf files, and the constructors `stf.NewSTF` and
`appmanager.NewAppManager`, of which only the returned error matters here. -/
structure BuildEnv (σ : Type) where
  pc : Protocompat σ
  GlobalFiles : Files
  NewSTF : STFArgs σ → Option GoError
  NewAppManager : Store → STFArgs σ → Option GoError

/-- The builder after the loop `for _, opt := range opts` of `Build`. -/
def AppBuilder.applyOpts (a : AppBuilder σ) (opts : List (AppBuilderOption σ)) : AppBuilder σ :=
  opts.foldl (fun a opt => opt a) a

/-- The post-tx-exec hook `Build` installs when none was given. -/
def defaultPostTxExec : PostTxExecFn σ := fun _ _ w => (w, none)

/-- The builder after the defaults of `Build`: a nil branch becomes
`branch.DefaultNewWriterMap`, a nil tx validator becomes `moduleManager.TxValidators()`, a nil
post-tx-exec hook becomes the hook that returns nil, and `db` is `storeBuilder.Get()`. -/
def AppBuilder.withDefaults (a : AppBuilder σ) : AppBuilder σ :=
  let a : AppBuilder σ :=
    if a.app.branch.isNone then
      { a with app := { a.app with branch := some "DefaultNewWriterMap" } }
    else a
  let a : AppBuilder σ :=
    if a.txValidator.isNone then { a with txValidator := some a.app.moduleManager.TxValidators }
    else a
  let a : AppBuilder σ :=
    if a.postTxExec.isNone then { a with postTxExec := some defaultPostTxExec } else a
  { a with app := { a.app with db := a.storeBuilder } }

/-- The arguments of the call `stf.NewSTF` in `Build`, for the manager `m` whose closures
are handed on; a field that is still nil does not occur after `withDefaults`. -/
def AppBuilder.stfArgs (a : AppBuilder σ) (m : MM σ) : STFArgs σ :=
  { msgRouterBuilder := a.app.msgRouterBuilder
    queryRouterBuilder := a.app.queryRouterBuilder
    preBlocker := m.PreBlocker
    beginBlock := m.BeginBlock
    endBlocker := m.endBlockFunc
    txValidator :=
      match a.txValidator with
      | some txValidator => txValidator
      | none => m.TxValidators
    valUpdate := m.valUpdateFunc
    postTxExec :=
      match a.postTxExec with
      | some postTxExec => postTxExec
      | none => defaultPostTxExec
    branch :=
      match a.app.branch with
      | some branch => branch
      | none => "DefaultNewWriterMap" }

/-- The method `AppBuilder.Build`: the builder it leaves, and the app or the error it
returns. -/
def AppBuilder.Build (env : BuildEnv σ) (a : AppBuilder σ) (opts : List (AppBuilderOption σ)) :
    AppBuilder σ × Except GoError (RuntimeApp σ) :=
  let a := (a.applyOpts opts).withDefaults
  match a.app.db with
  | none => (a, .error (.New "storeBuilder did not return a db"))
  | some db =>
    let r := MM.RegisterServices env.pc env.GlobalFiles a.app.moduleManager
      { msgRouterBuilder := a.app.msgRouterBuilder
        queryRouterBuilder := a.app.queryRouterBuilder }
    let a : AppBuilder σ :=
      { a with app := { a.app with
          moduleManager := r.1.1
          msgRouterBuilder := r.1.2.msgRouterBuilder
          queryRouterBuilder := r.1.2.queryRouterBuilder } }
    match r.2 with
    | some err => (a, .error err)
    | none =>
      let args := a.stfArgs a.app.moduleManager
      match env.NewSTF args with
      | some err => (a, .error (.Wrap ("failed to create STF: " ++ err.Error) err))
      | none =>
        let a : AppBuilder σ := { a with app := { a.app with stf := some args } }
        match env.NewAppManager db args with
        | some err => (a, .error (.Wrap ("failed to create AppManager: " ++ err.Error) err))
        | none =>
          let a : AppBuilder σ := { a with app := { a.app with appm := some (db, args) } }
          (a, .ok a.app)

/-! ## Vocabulary of the statements -/

/-- The calls logged between the state `before` and the later state `after`. -/
def Exec.newCalls (before after : Exec σ) : List Invocation :=
  after.calls.drop before.calls.length

/-- The stop condition of `PreBlocker`, `BeginBlock` and `TxValidation`: the call `c`
returned an error and the phase returns that error wrapped with the module name. -/
def StopWrapped (format : String) (n : String) (c : Invocation) (r : GoError) : Prop :=
  ∃ e, c.err = some e ∧ r = fmtErrorfW format n e

/-- The stop conditions of `endBlockFunc`: the call `c` returned an error, which is
returned wrapped; or it returned no error and a non-empty list of validator updates while
the accumulator was not empty. -/
def StopEndBlock (n : String) (c : Invocation) (r : GoError) : Prop :=
  (∃ e, c.err = some e ∧ (r = fmtErrorfW "failed to run endblock for " n e ∨
      r = fmtErrorfW "failed to run enblock for " n e)) ∨
  (c.err = none ∧ c.updates ≠ [] ∧ r = errValUpdatesAlreadySet)

/-- A run over `names` that went through the whole list: it returns nil, the calls `new`
it made are those of the names with the capability, in order, and none returned an error. -/
def Completed (cap : String → Bool) (names : List String) (new : List Invocation)
    (result : Option GoError) : Prop :=
  result = none ∧ new.map Invocation.moduleName = names.filter cap ∧ ∀ c ∈ new, c.err = none

/-- A run over `names` that stopped at the entry `n`: the calls before the last are those
of the entries before `n` that have the capability, none of them returned an error, the
last call `c` is the one of `n`, and the run returns an error `r` with `Stop n c r`. -/
def Aborted (cap : String → Bool) (names : List String) (new : List Invocation)
    (result : Option GoError) (Stop : String → Invocation → GoError → Prop) : Prop :=
  ∃ pre n post init c r, names = pre ++ n :: post ∧ cap n = true ∧ new = init ++ [c] ∧
    c.moduleName = n ∧ init.map Invocation.moduleName = pre.filter cap ∧
    (∀ d ∈ init, d.err = none) ∧ result = some r ∧ Stop n c r

/-- What a phase run over `names` has done when its call `c` returned the error `e`: the
phase returns an error that wraps `e` and whose message contains the module name; `c` is
the last call; the calls before it are those of the entries before it that have the
capability, once per occurrence, and none of them returned an error; no later entry was
called. When no name is repeated in `names`, every capable module before the entry was
called exactly once and no module after it was called. -/
def StoppedOnError (cap : String → Bool) (names : List String) (new : List Invocation)
    (result : Option GoError) (c : Invocation) (e : GoError) : Prop :=
  (∃ r, result = some r ∧ r.Unwrap = some e ∧ containsStr r.Error c.moduleName) ∧
  ∃ pre post init, names = pre ++ c.moduleName :: post ∧ cap c.moduleName = true ∧
    new = init ++ [c] ∧ init.map Invocation.moduleName = pre.filter cap ∧
    (∀ d ∈ init, d.err = none) ∧
    (names.Nodup →
      (∀ n ∈ pre, cap n = true → (new.map Invocation.moduleName).count n = 1) ∧
      (new.map Invocation.moduleName).count c.moduleName = 1 ∧
      ∀ n ∈ post, (new.map Invocation.moduleName).count n = 0)

/-- The execution and genesis phases whose ordering lists `validateConfig` checks against a
capability, in the order it checks them. -/
inductive Phase where
  | PreBlockers
  | BeginBlockers
  | EndBlockers
  | TxValidation
  | InitGenesis
  | ExportGenesis
  deriving DecidableEq, Repr

/-- The position of the phase in the order of the checks of `validateConfig`. -/
def Phase.index : Phase → Nat
  | .PreBlockers => 0
  | .BeginBlockers => 1
  | .EndBlockers => 2
  | .TxValidation => 3
  | .InitGenesis => 4
  | .ExportGenesis => 5

/-- The name `validateConfig` passes to `assertNoForgottenModules` for the phase. -/
def Phase.fnName : Phase → String
  | .PreBlockers => "PreBlockers"
  | .BeginBlockers => "BeginBlockers"
  | .EndBlockers => "EndBlockers"
  | .TxValidation => "TxValidation"
  | .InitGenesis => "InitGenesis"
  | .ExportGenesis => "ExportGenesis"

/-- The ordering list of the phase. -/
def Phase.list : Phase → Config → List String
  | .PreBlockers, c => c.PreBlockers
  | .BeginBlockers, c => c.BeginBlockers
  | .EndBlockers, c => c.EndBlockers
  | .TxValidation, c => c.TxValidation
  | .InitGenesis, c => c.InitGenesis
  | .ExportGenesis, c => c.ExportGenesis

/-- The module under the name implements the capability of the phase. -/
def Phase.has (m : MM σ) : Phase → String → Bool
  | .PreBlockers => m.hasPreBlocker
  | .BeginBlockers => m.hasBeginBlocker
  | .EndBlockers => m.hasEndBlocker
  | .TxValidation => m.hasTxValidation
  | .InitGenesis => m.hasGenesis
  | .ExportGenesis => m.hasGenesis

/-- The closure `pass` that `validateConfig` uses for the phase. -/
def Phase.pass (m : MM σ) : Phase → String → Bool
  | .PreBlockers => m.passPreBlockers
  | .BeginBlockers => m.passBeginBlockers
  | .EndBlockers => m.passEndBlockers
  | .TxValidation => m.passTxValidation
  | .InitGenesis => m.passGenesis
  | .ExportGenesis => m.passGenesis

/-- The missing names that `assertNoForgottenModules` collects for the phase. -/
def MM.missingOf (m : MM σ) (p : Phase) : List String :=
  m.missing (p.list m.config) (some (p.pass m))

/-- The manager `NewModuleManager` validates: the given modules under the configuration
with its defaults. -/
def managerOf (DefaultMigrationsOrder : List String → List String)
    (newMigrationRegistrar : MigrationRegistrar σ) (config : Config)
    (modules : List (String × AppModule σ)) : MM σ :=
  { config := defaultConfig DefaultMigrationsOrder (modules.map Prod.fst) config
    modules := modules
    migrationRegistrar := newMigrationRegistrar }

/-- The call reports validator updates: it returned no error and a non-empty list. -/
def Invocation.reports (c : Invocation) : Bool := c.err.isNone && !c.updates.isEmpty

/-- The number of non-empty update lists an accumulator holds: none when it is empty, one
otherwise. -/
def held (acc : List ValidatorUpdate) : Nat := if acc = [] then 0 else 1

/-- Modelled from the spec: one End-Phase execution. The caller of the two closures (the
state-transition function, whose code is not part of the sources at hand) runs the ordered
end-block pass and, after it, asks the modules for validator updates; an error of the pass
ends the execution. -/
def endPhase (m : MM σ) (s : List ValidatorUpdate × Exec σ) :
    (List ValidatorUpdate × Exec σ) × (Option (List ValidatorUpdate) × Option GoError) :=
  let r := m.endBlockFunc s
  match r.2 with
  | some err => (r.1, (none, some err))
  | none => m.valUpdateFunc r.1

/-- What one turn of an accumulating loop does: nothing; or one logged call that does not
report and leaves the accumulator; or a reporting call on a non-empty accumulator, which is
the conflict; or a reporting call on an empty accumulator, which fills it. -/
def AccStep (s : List ValidatorUpdate × Exec σ)
    (t : (List ValidatorUpdate × Exec σ) × Option GoError) : Prop :=
  t = (s, none) ∨
  ∃ c, t.1.2.calls = s.2.calls ++ [c] ∧
    ((c.reports = false ∧ t.1.1 = s.1) ∨
     (c.reports = true ∧ s.1 ≠ [] ∧ t.2 = some errValUpdatesAlreadySet ∧ t.1.1 = s.1) ∨
     (c.reports = true ∧ s.1 = [] ∧ t.2 = none ∧ t.1.1 ≠ []))

/-- The method, with its arguments, that the turn of `RunMigrations` for a name calls: the
migration from the recorded version to the declared one when the name is a key of
`fromVM`; else the `InitGenesis` of the genesis capability of the module on its
`DefaultGenesis` payload; nothing for a new module without genesis capability. -/
def MM.migrationMethod (m : MM σ) (fromVM : VersionMap) (moduleName : String) :
    Option Method :=
  match fromVM.lookup moduleName with
  | some fromVersion => some (.RunModuleMigrations fromVersion (m.toVersion moduleName))
  | none =>
    match (m.module moduleName).map AppModule.Genesis with
    | some (.HasGenesis DefaultGenesis _) => some (.InitGenesis DefaultGenesis)
    | some (.SdkHasGenesis DefaultGenesis _) => some (.SdkInitGenesis DefaultGenesis)
    | some (.HasABCIGenesis DefaultGenesis _) => some (.ABCIInitGenesis DefaultGenesis)
    | _ => none

/-- The calls of a turn of `RunMigrations` that goes on to the next name: the one method of
the turn, if any, which returned no error and no validator update. -/
def MM.turnCalls (m : MM σ) (fromVM : VersionMap) (moduleName : String) : List Invocation :=
  match m.migrationMethod fromVM moduleName with
  | some method => [⟨moduleName, method, [], none⟩]
  | none => []

/-- The calls of a log that concern the module of the given name. -/
def callsOf (moduleName : String) (calls : List Invocation) : List Invocation :=
  calls.filter fun c => c.moduleName = moduleName

/-- The turn of `RunMigrations` for the name makes a call. -/
def MM.migrates (m : MM σ) (fromVM : VersionMap) (moduleName : String) : Bool :=
  (m.migrationMethod fromVM moduleName).isSome

/-- The order of `sort.Strings` as a relation on strings. -/
abbrev strLe (a b : String) : Prop := lexLe a.data b.data = true

/-- Modelled from the spec: the method `RunModuleMigrations` of the migration registrar,
whose code is not part of the sources at hand. The spec lets the migration engine look up
the registered migration handler keyed by the module name and the recorded from-version; it
runs the handler when there is one, and the lack of one is a configuration error. -/
def registrarOfHandlers (handlers : List ((String × Nat) × Hook σ)) : MigrationRegistrar σ :=
  ⟨fun ctx moduleName fromVersion _ =>
    match handlers.lookup (moduleName, fromVersion) with
    | some handler => handler ctx
    | none => (ctx, some (.New ("no migration handler for module " ++ moduleName)))⟩

/-- The validator updates the `UpdateValidators` of an entry of the module map returns when
called in the state `s0`; none for a module without the capability. -/
def updatesAt (s0 : σ) (e : String × AppModule σ) : List ValidatorUpdate :=
  match e.2.UpdateValidators with
  | some UpdateValidators => (UpdateValidators s0).2.1
  | none => []

/-- The `UpdateValidators` of an entry of the module map returns an error when called in
the state `s0`. -/
def failsAt (s0 : σ) (e : String × AppModule σ) : Bool :=
  match e.2.UpdateValidators with
  | some UpdateValidators => (UpdateValidators s0).2.2.isSome
  | none => false

/-- The entry reports a non-empty list of validator updates when called in the state `s0`. -/
def reportsAt (s0 : σ) (e : String × AppModule σ) : Bool := !(updatesAt s0 e).isEmpty

/-- What one turn of the loop of `valUpdateFunc` does for an entry whose answers are those
in the state `s0`: it stops when the module fails; it goes on with the accumulator as it was
when the module reports nothing; it stops when the module reports and the accumulator is not
empty; it goes on with the reported list when the accumulator is empty. -/
def UpdateStep (s0 : σ) (e : String × AppModule σ) (s : List ValidatorUpdate × Exec σ)
    (t : (List ValidatorUpdate × Exec σ) × Option GoError) : Prop :=
  (failsAt s0 e = true ∧ t.2 ≠ none) ∨
  (failsAt s0 e = false ∧ reportsAt s0 e = false ∧ t.2 = none ∧ t.1.1 = s.1) ∨
  (failsAt s0 e = false ∧ reportsAt s0 e = true ∧ s.1 ≠ [] ∧ t.2 ≠ none) ∨
  (failsAt s0 e = false ∧ reportsAt s0 e = true ∧ s.1 = [] ∧ t.2 = none ∧
    t.1.1 = updatesAt s0 e)

/-- The context after the `UpdateValidators` of the entries `pre` were called one after the
other from the context `c`. -/
def ctxAfter (pre : List (String × AppModule σ)) (c : σ) : σ :=
  pre.foldl (fun s e =>
    match e.2.UpdateValidators with
    | some UpdateValidators => (UpdateValidators s).1
    | none => s) c

/-- In the visiting order `es` from the context `c0`, the `UpdateValidators` of every entry
returns, after the calls of the entries before it, the list and the error it returns in
`c0`. -/
def AnswersAsAt (c0 : σ) (es : List (String × AppModule σ)) : Prop :=
  ∀ pre e post, es = pre ++ e :: post → ∀ UpdateValidators,
    e.2.UpdateValidators = some UpdateValidators →
    (UpdateValidators (ctxAfter pre c0)).2 = (UpdateValidators c0).2

/-- The modules do not interfere from the context `c0`: in every visiting order of the
module map, what the `UpdateValidators` of a module returns is not changed by the calls of
the `UpdateValidators` of the modules visited before it. A module may read and write the
state. -/
def NonInterfering (c0 : σ) (es : List (String × AppModule σ)) : Prop :=
  ∀ es', es'.Perm es → AnswersAsAt c0 es'

/-! ## Concrete modules of the examples -/

/-- A hook that changes nothing and returns nil. -/
def hookOk : Hook Unit := fun s => (s, none)

/-- A hook that returns the error `e`. -/
def hookFail (e : GoError) : Hook Unit := fun s => (s, some e)

/-- A transaction validator that returns nil. -/
def validatorOk : Unit → Tx → Unit × Option GoError := fun s _ => (s, none)

/-- A migration registrar whose migrations all succeed. -/
def registrarOk : MigrationRegistrar Unit := ⟨fun s _ _ _ => (s, none)⟩

/-- A validator update. -/
def update1 : ValidatorUpdate := ⟨[1], "ed25519", 10⟩

/-- A legacy end-blocker that returns the updates `us` and nil. -/
def abciEndBlock (us : List ValidatorUpdate) : UpdatesHook Unit := fun s => (s, (us, none))

/-- The start of an execution with an empty log. -/
def exec0 : Exec Unit := ⟨(), []⟩

/-- The scenario of the spec: modules X, Y, Z, every ordering list is Y, X, Z, and only X
and Y implement the hooks. -/
def scenarioXYZ : MM Unit :=
  { config :=
      { PreBlockers := ["Y", "X", "Z"], BeginBlockers := ["Y", "X", "Z"],
        EndBlockers := ["Y", "X", "Z"], TxValidation := ["Y", "X", "Z"],
        InitGenesis := ["Y", "X", "Z"], ExportGenesis := ["Y", "X", "Z"],
        OrderMigrations := ["Y", "X", "Z"] }
    modules :=
      [("X", { PreBlock := some hookOk, BeginBlock := some hookOk,
               EndBlock := .HasEndBlocker hookOk, TxValidator := some validatorOk }),
       ("Y", { PreBlock := some hookOk, BeginBlock := some hookOk,
               EndBlock := .HasEndBlocker hookOk, TxValidator := some validatorOk }),
       ("Z", {})]
    migrationRegistrar := registrarOk }

/-- Modules a and b are legacy end-blockers that each return one validator update, module
c is an end-blocker. -/
def modulesABC : List (String × AppModule Unit) :=
  [("a", { EndBlock := .HasABCIEndBlock (abciEndBlock [update1]) }),
   ("b", { EndBlock := .HasABCIEndBlock (abciEndBlock [update1]) }),
   ("c", { EndBlock := .HasEndBlocker hookOk })]

/-- The manager of `modulesABC` with every ordering list a, b, c. -/
def managerABC : MM Unit :=
  { config :=
      { PreBlockers := ["a", "b", "c"], BeginBlockers := ["a", "b", "c"],
        EndBlockers := ["a", "b", "c"], TxValidation := ["a", "b", "c"],
        InitGenesis := ["a", "b", "c"], ExportGenesis := ["a", "b", "c"],
        OrderMigrations := ["a", "b", "c"] }
    modules := modulesABC
    migrationRegistrar := registrarOk }

/-- Begin-blockers a and b, which both succeed. -/
def modulesDup : List (String × AppModule Unit) :=
  [("a", { BeginBlock := some hookOk }),
   ("b", { BeginBlock := some hookOk })]

/-- The manager of `modulesDup` whose begin-block order names a twice: a, a, b. -/
def managerDup : MM Unit :=
  { config :=
      { PreBlockers := ["a", "b"], BeginBlockers := ["a", "a", "b"],
        EndBlockers := ["a", "b"], TxValidation := ["a", "b"],
        InitGenesis := ["a", "b"], ExportGenesis := ["a", "b"],
        OrderMigrations := ["a", "b"] }
    modules := modulesDup
    migrationRegistrar := registrarOk }

/-- The error the failing module of the examples returns. -/
def boom : GoError := .New "boom"

/-- A module whose four hooks succeed. -/
def moduleOk : AppModule Unit :=
  { PreBlock := some hookOk, BeginBlock := some hookOk, EndBlock := .HasEndBlocker hookOk,
    TxValidator := some validatorOk }

/-- A module whose four hooks return the error `boom`. -/
def moduleFail : AppModule Unit :=
  { PreBlock := some (hookFail boom), BeginBlock := some (hookFail boom),
    EndBlock := .HasEndBlocker (hookFail boom), TxValidator := some fun s _ => (s, some boom) }

/-- The manager of a, b, c, in this order in every list, where the hooks of a and c succeed
and those of b fail. -/
def managerFail : MM Unit :=
  { config :=
      { PreBlockers := ["a", "b", "c"], BeginBlockers := ["a", "b", "c"],
        EndBlockers := ["a", "b", "c"], TxValidation := ["a", "b", "c"],
        InitGenesis := ["a", "b", "c"], ExportGenesis := ["a", "b", "c"],
        OrderMigrations := ["a", "b", "c"] }
    modules := [("a", moduleOk), ("b", moduleFail), ("c", moduleOk)]
    migrationRegistrar := registrarOk }

/-- The manager of a, whose hooks succeed, and b, whose hooks fail, with the begin-block
order a, a, b, a: the name a is repeated before and after b. -/
def managerRepeat : MM Unit :=
  { config :=
      { PreBlockers := ["a", "b"], BeginBlockers := ["a", "a", "b", "a"],
        EndBlockers := ["a", "b"], TxValidation := ["a", "b"],
        InitGenesis := ["a", "b"], ExportGenesis := ["a", "b"],
        OrderMigrations := ["a", "b"] }
    modules := [("a", moduleOk), ("b", moduleFail)]
    migrationRegistrar := registrarOk }

/-- Module a implements `PreBlock` only, module b implements `BeginBlock` only. -/
def modulesOmit : List (String × AppModule Unit) :=
  [("a", { PreBlock := some hookOk }),
   ("b", { BeginBlock := some hookOk })]

/-- A configuration whose pre-block order omits a and whose begin-block order omits b. -/
def configOmit : Config :=
  { PreBlockers := ["b"], BeginBlockers := ["a"] }

/-- A second validator update. -/
def update2 : ValidatorUpdate := ⟨[2], "ed25519", 5⟩

/-- The manager of a legacy end-blocker a that returns one validator update and of a
module b whose `UpdateValidators` returns one validator update. -/
def managerVal : MM Unit :=
  { config :=
      { PreBlockers := ["a", "b"], BeginBlockers := ["a", "b"],
        EndBlockers := ["a", "b"], TxValidation := ["a", "b"],
        InitGenesis := ["a", "b"], ExportGenesis := ["a", "b"],
        OrderMigrations := ["a", "b"] }
    modules :=
      [("a", { EndBlock := .HasABCIEndBlock (abciEndBlock [update1]) }),
       ("b", { UpdateValidators := some (abciEndBlock [update2]) })]
    migrationRegistrar := registrarOk }

/-- The one module of `managerOne`: its `UpdateValidators` returns one validator update in
every block. -/
def modulesOne : List (String × AppModule Unit) :=
  [("staking", { UpdateValidators := some (abciEndBlock [update1]) })]

/-- The manager of `modulesOne`. -/
def managerOne : MM Unit :=
  { config :=
      { PreBlockers := ["staking"], BeginBlockers := ["staking"], EndBlockers := ["staking"],
        TxValidation := ["staking"], InitGenesis := ["staking"],
        ExportGenesis := ["staking"], OrderMigrations := ["staking"] }
    modules := modulesOne
    migrationRegistrar := registrarOk }

/-- A module whose `UpdateValidators` reads the block height in the context: it returns
`update1` at height 0 and `update2` later. -/
def modulesHeight : List (String × AppModule Nat) :=
  [("staking", { UpdateValidators := some fun h =>
      (h, (if h = 0 then [update1] else [update2], none)) })]

/-- The manager of `modulesHeight`. -/
def managerHeight : MM Nat :=
  { config :=
      { PreBlockers := ["staking"], BeginBlockers := ["staking"], EndBlockers := ["staking"],
        TxValidation := ["staking"], InitGenesis := ["staking"],
        ExportGenesis := ["staking"], OrderMigrations := ["staking"] }
    modules := modulesHeight
    migrationRegistrar := ⟨fun s _ _ _ => (s, none)⟩ }

/-- A registrar whose migration of the module A fails with `boom`. -/
def registrarFailA : MigrationRegistrar Unit :=
  ⟨fun s n _ _ => (s, if n = "A" then some boom else none)⟩

/-- A genesis initialization that succeeds. -/
def initGenesisOk : Unit → RawMessage → Unit × Option GoError := fun s _ => (s, none)

/-- The migration scenario of the spec: module A declares version 2, module B is new,
declares version 1 and has the genesis capability with the default payload "{}"; module C
is new, declares no version and has no genesis capability. -/
def managerAB (reg : MigrationRegistrar Unit) (order : List String) : MM Unit :=
  { config :=
      { PreBlockers := ["A", "B", "C"], BeginBlockers := ["A", "B", "C"],
        EndBlockers := ["A", "B", "C"], TxValidation := ["A", "B", "C"],
        InitGenesis := ["A", "B", "C"], ExportGenesis := ["A", "B", "C"],
        OrderMigrations := order }
    modules :=
      [("A", { ConsensusVersion := some 2 }),
       ("B", { ConsensusVersion := some 1, Genesis := .HasGenesis "{}" initGenesisOk }),
       ("C", {})]
    migrationRegistrar := reg }

/-- A genesis initialization that fails with `boom`. -/
def initGenesisFail : Unit → RawMessage → Unit × Option GoError := fun s _ => (s, some boom)

/-- Two new modules with the genesis capability: the initialization of G fails, that of H
succeeds; the migration order is G, H. -/
def managerGH : MM Unit :=
  { config :=
      { PreBlockers := ["G", "H"], BeginBlockers := ["G", "H"], EndBlockers := ["G", "H"],
        TxValidation := ["G", "H"], InitGenesis := ["G", "H"], ExportGenesis := ["G", "H"],
        OrderMigrations := ["G", "H"] }
    modules :=
      [("G", { Genesis := .HasGenesis "{}" initGenesisFail }),
       ("H", { Genesis := .HasGenesis "{}" initGenesisOk })]
    migrationRegistrar := registrarOk }

/-- Concrete functions of `protocompat` for the examples: the request name of a method is
the service name, a dot and the method name; every lookup succeeds; the hybrid handler
returns the response it is given. -/
def pcExample : Protocompat Unit :=
  { RequestFullNameFromMethodDesc := fun sd md => .ok (sd.ServiceName ++ "." ++ md.MethodName)
    ResponseFullNameFromMethodDesc := fun sd md =>
      .ok (sd.ServiceName ++ "." ++ md.MethodName ++ "Response")
    MakeHybridHandler := fun _ _ _ => .ok fun s _ resp => (s, (resp, none))
    FindMessageByName := fun name => .ok name }

/-- The message service `pkg.Msg` with the one method `Send`. -/
def sdMsg : ServiceDesc := { ServiceName := "pkg.Msg", Methods := [⟨"Send"⟩] }

/-- A module's `RegisterServices` that registers `pkg.Msg` and returns nil. -/
def servicesMsg : ServicesCap := { registers := [(sdMsg, "server")], result := none }

/-- A registry that resolves `pkg.Msg` as a message service. -/
def filesMsg : Files := [("pkg.Msg", true)]

/-- An app whose routers are empty. -/
def appEmpty : App Unit := { msgRouterBuilder := ⟨[]⟩, queryRouterBuilder := ⟨[]⟩ }

/-- Two modules that both register the service `pkg.Msg`, hence the same request type. -/
def managerSvc : MM Unit :=
  { config :=
      { PreBlockers := ["m1", "m2"], BeginBlockers := ["m1", "m2"], EndBlockers := ["m1", "m2"],
        TxValidation := ["m1", "m2"], InitGenesis := ["m1", "m2"],
        ExportGenesis := ["m1", "m2"], OrderMigrations := ["m1", "m2"] }
    modules :=
      [("m1", { RegisterServices := some servicesMsg }),
       ("m2", { RegisterServices := some servicesMsg })]
    migrationRegistrar := registrarOk }

/-- A builder whose app holds the manager of the scenario X, Y, Z and empty routers. -/
def builderXYZ : AppBuilder Unit :=
  { app := { moduleManager := scenarioXYZ, msgRouterBuilder := ⟨[]⟩, queryRouterBuilder := ⟨[]⟩ } }

/-- The function `strconv.IsPrint` on Latin-1, where it is computed without tables: the
runes 0x20 to 0x7e and 0xa1 to 0xff without 0xad. The names of the examples are in this
range; no other rune is given to it. -/
def isPrintLatin1 (r : Char) : Bool :=
  (32 ≤ r.toNat && r.toNat ≤ 126) || (161 ≤ r.toNat && r.toNat ≤ 255 && r.toNat != 173)

/-- A module W that implements `BeginBlock` and whose `Name()` is "other". -/
def moduleW : AppModule Unit := { BeginBlock := some hookOk, Name := some "other" }

/-- Three pre-blockers, of which the pre-block order names mid only. -/
def modulesSort : List (String × AppModule Unit) :=
  [("zeta", { PreBlock := some hookOk }), ("alpha", { PreBlock := some hookOk }),
   ("mid", { PreBlock := some hookOk })]

/-- The manager of `modulesSort`. -/
def managerSort : MM Unit :=
  { config := { PreBlockers := ["mid"] }
    modules := modulesSort
    migrationRegistrar := registrarOk }

/-- A legacy genesis initialization that returns the updates `us`. -/
def abciInitGenesis (us : List ValidatorUpdate) : Unit → RawMessage → Unit × List ValidatorUpdate :=
  fun s _ => (s, us)

/-- Two new modules with the legacy ABCI genesis capability: the initialization of N returns
the updates `us`, that of P returns none; the migration order is N, P. -/
def managerNP (us : List ValidatorUpdate) : MM Unit :=
  { config :=
      { PreBlockers := ["N", "P"], BeginBlockers := ["N", "P"], EndBlockers := ["N", "P"],
        TxValidation := ["N", "P"], InitGenesis := ["N", "P"], ExportGenesis := ["N", "P"],
        OrderMigrations := ["N", "P"] }
    modules :=
      [("N", { ConsensusVersion := some 3, Genesis := .HasABCIGenesis "{}" (abciInitGenesis us) }),
       ("P", { ConsensusVersion := some 1, Genesis := .HasABCIGenesis "{}" (abciInitGenesis []) })]
    migrationRegistrar := registrarOk }
/-- A hybrid handler that counts its calls in the context and fills the response with the
content of the request; it fails on an empty request. -/
def hybridEcho : HybridHandler Nat :=
  fun ctx msg resp =>
    (ctx + 1, ({ resp with content := msg.content },
      if msg.content = [] then some boom else none))

/-- Functions of `protocompat` whose hybrid handler is `hybridEcho`. -/
def pcEcho : Protocompat Nat :=
  { RequestFullNameFromMethodDesc := fun sd md => .ok (sd.ServiceName ++ "." ++ md.MethodName)
    ResponseFullNameFromMethodDesc := fun sd md =>
      .ok (sd.ServiceName ++ "." ++ md.MethodName ++ "Response")
    MakeHybridHandler := fun _ _ _ => .ok hybridEcho
    FindMessageByName := fun name => .ok name }

/-- A tx validator given by an option: it returns nil. -/
def customValidator : TxValidatorFn Unit := fun _ w => (w, none)

/-- Another tx validator given by an option: it returns `boom`. -/
def customValidator2 : TxValidatorFn Unit := fun _ w => (w, some boom)

/-- A post-tx-exec hook given by an option: it returns `boom`. -/
def customPostTxExec : PostTxExecFn Unit := fun _ _ w => (w, some boom)

/-- An environment in which the state-transition function and the app manager are made
without error. -/
def envOk : BuildEnv Unit :=
  { pc := pcExample, GlobalFiles := filesMsg, NewSTF := fun _ => none,
    NewAppManager := fun _ _ => none }

/-- A new builder on the manager of X, Y, Z whose store builder returns a db. -/
def builderDb : AppBuilder Unit :=
  { app := { moduleManager := scenarioXYZ, msgRouterBuilder := ⟨[]⟩, queryRouterBuilder := ⟨[]⟩ }
    storeBuilder := some "db" }

/-- Module a counts its calls in the context; module b fails when a was called before it.
Both return no validator update. -/
def modulesOrder : List (String × AppModule Nat) :=
  [("a", { UpdateValidators := some fun s => (s + 1, ([], none)) }),
   ("b", { UpdateValidators := some fun s => (s, ([], if s = 0 then none else some boom)) })]

/-- The manager of the given enumeration of a module map of a and b. -/
def managerOrder (modules : List (String × AppModule Nat)) : MM Nat :=
  { config :=
      { PreBlockers := ["a", "b"], BeginBlockers := ["a", "b"], EndBlockers := ["a", "b"],
        TxValidation := ["a", "b"], InitGenesis := ["a", "b"], ExportGenesis := ["a", "b"],
        OrderMigrations := ["a", "b"] }
    modules := modules
    migrationRegistrar := ⟨fun s _ _ _ => (s, none)⟩ }

/-- The configuration of `managerGhost`: the migration order names the three modules and
"ghost", under which no module is registered. -/
def configGhost : Config :=
  { PreBlockers := ["A", "B", "C"], BeginBlockers := ["A", "B", "C"],
    EndBlockers := ["A", "B", "C"], TxValidation := ["A", "B", "C"],
    InitGenesis := ["A", "B", "C"], ExportGenesis := ["A", "B", "C"],
    OrderMigrations := ["A", "B", "C", "ghost"] }

/-- The manager of A, B, C whose migration order is A, B, C, ghost. -/
def managerGhost : MM Unit := managerAB registrarOk ["A", "B", "C", "ghost"]
/-- Module a keeps a counter in the first component of the context and reports `update1`
while it is 0; module b keeps one in the second component and fails when it is not 0. Each
reads and writes its own component only. -/
def modulesApart : List (String × AppModule (Nat × Nat)) :=
  [("a", { UpdateValidators := some fun s =>
      ((s.1 + 1, s.2), (if s.1 = 0 then [update1] else [update2], none)) }),
   ("b", { UpdateValidators := some fun s =>
      ((s.1, s.2 + 1), ([], if s.2 = 0 then none else some boom)) })]

/-- The manager of the given enumeration of the module map of `modulesApart`. -/
def managerApart (modules : List (String × AppModule (Nat × Nat))) : MM (Nat × Nat) :=
  { config :=
      { PreBlockers := ["a", "b"], BeginBlockers := ["a", "b"], EndBlockers := ["a", "b"],
        TxValidation := ["a", "b"], InitGenesis := ["a", "b"], ExportGenesis := ["a", "b"],
        OrderMigrations := ["a", "b"] }
    modules := modules
    migrationRegistrar := ⟨fun s _ _ _ => (s, none)⟩ }

/-! # Theorems -/

section Proofs

variable {σ : Type}

/-- The shape of every run of a loop over names whose body skips the names without the
capability and makes one logged call for a name with it. -/
theorem forRange_trace {S R : Type} (calls : S → List Invocation) (cap : String → Bool)
    (Stop : String → Invocation → R → Prop) (body : String → S → S × Option R)
    (hskip : ∀ n s, cap n = false → (body n s).2 = none ∧ calls (body n s).1 = calls s)
    (hcall : ∀ n s, cap n = true → ∃ c, calls (body n s).1 = calls s ++ [c] ∧
        c.moduleName = n ∧ ((body n s).2 = none → c.err = none) ∧
        (∀ r, (body n s).2 = some r → Stop n c r))
    (names : List String) (s : S) :
    ∃ new, calls (forRange body names s).1 = calls s ++ new ∧
      (((forRange body names s).2 = none ∧
          new.map Invocation.moduleName = names.filter cap ∧ ∀ c ∈ new, c.err = none) ∨
       (∃ pre n post init c r, names = pre ++ n :: post ∧ cap n = true ∧ new = init ++ [c] ∧
          c.moduleName = n ∧ init.map Invocation.moduleName = pre.filter cap ∧
          (∀ d ∈ init, d.err = none) ∧ (forRange body names s).2 = some r ∧ Stop n c r)) := by
  induction names generalizing s with
  | nil => exact ⟨[], by simp [forRange]⟩
  | cons n ns ih =>
    cases hc : cap n with
    | false =>
      obtain ⟨hb2, hb1⟩ := hskip n s hc
      cases hb : body n s with
      | mk s1 r1 =>
      rw [hb] at hb1 hb2
      simp only at hb1 hb2
      subst hb2
      obtain ⟨new, h1, h2⟩ := ih s1
      refine ⟨new, ?_, ?_⟩
      · simp only [forRange, hb]; rw [h1, hb1]
      · simp only [forRange, hb]
        rcases h2 with ⟨hr, hn, he⟩ | ⟨pre, k, post, init, c, r, hn, hk, hnew, hcn, hi, he, hr, hs⟩
        · left; exact ⟨hr, by simp [List.filter_cons, hc, hn], he⟩
        · right
          exact ⟨n :: pre, k, post, init, c, r, by simp [hn], hk, hnew, hcn,
            by simp [List.filter_cons, hc, hi], he, hr, hs⟩
    | true =>
      obtain ⟨c, hcalls, hcn, hnone, hsome⟩ := hcall n s hc
      cases hb : (body n s) with
      | mk s1 r1 =>
        rw [hb] at hcalls hnone hsome
        cases r1 with
        | some r =>
          refine ⟨[c], ?_, ?_⟩
          · simp only [forRange, hb]; exact hcalls
          · right
            exact ⟨[], n, ns, [], c, r, by simp, hc, by simp, hcn, by simp, by simp,
              by simp [forRange, hb], hsome r rfl⟩
        | none =>
          obtain ⟨new, h1, h2⟩ := ih s1
          have hce : c.err = none := hnone rfl
          refine ⟨c :: new, ?_, ?_⟩
          · simp only [forRange, hb]; rw [h1, hcalls]; simp
          · simp only [forRange, hb]
            rcases h2 with ⟨hr, hn, he⟩ |
              ⟨pre, k, post, init, c2, r, hn, hk, hnew, hcn2, hi, he, hr, hs⟩
            · left
              refine ⟨hr, by simp [List.filter_cons, hc, hn, hcn], ?_⟩
              intro d hd
              rcases List.mem_cons.1 hd with h | h
              · rw [h]; exact hce
              · exact he d h
            · right
              refine ⟨n :: pre, k, post, c :: init, c2, r, by simp [hn], hk, by simp [hnew], hcn2,
                by simp [List.filter_cons, hc, hi, hcn], ?_, hr, hs⟩
              intro d hd
              rcases List.mem_cons.1 hd with h | h
              · rw [h]; exact hce
              · exact he d h

/-- Every run of `PreBlocker` goes through its whole list or stops at one entry. -/
theorem PreBlocker_trace (m : MM σ) (w : Exec σ) :
    ∃ new, (m.PreBlocker w).1.calls = w.calls ++ new ∧
      (Completed m.hasPreBlocker m.config.PreBlockers new (m.PreBlocker w).2 ∨
       Aborted m.hasPreBlocker m.config.PreBlockers new (m.PreBlocker w).2
         (StopWrapped "failed to run preblock for ")) := by
  apply forRange_trace Exec.calls m.hasPreBlocker (StopWrapped "failed to run preblock for ")
  · intro n s h
    simp only [MM.hasPreBlocker] at h
    cases hc : (m.module n).bind AppModule.PreBlock with
    | none => exact ⟨rfl, rfl⟩
    | some hook => rw [hc] at h; simp at h
  · intro n s h
    simp only [MM.hasPreBlocker] at h
    cases hc : (m.module n).bind AppModule.PreBlock with
    | none => rw [hc] at h; simp at h
    | some hook =>
      refine ⟨⟨n, .PreBlock, [], (hook s.ctx).2⟩, ?_, rfl, ?_, ?_⟩
      · cases hr : (hook s.ctx).2 <;> simp [Exec.record, hr]
      · cases hr : (hook s.ctx).2 <;> simp [hr]
      · intro r
        cases hr : (hook s.ctx).2 with
        | none => simp [hr]
        | some e => simp [hr]; intro h; exact ⟨e, rfl, h.symm⟩

/-- Every run of `BeginBlock` goes through its whole list or stops at one entry. -/
theorem BeginBlock_trace (m : MM σ) (w : Exec σ) :
    ∃ new, (m.BeginBlock w).1.calls = w.calls ++ new ∧
      (Completed m.hasBeginBlocker m.config.BeginBlockers new (m.BeginBlock w).2 ∨
       Aborted m.hasBeginBlocker m.config.BeginBlockers new (m.BeginBlock w).2
         (StopWrapped "failed to run beginblocker for ")) := by
  apply forRange_trace Exec.calls m.hasBeginBlocker
    (StopWrapped "failed to run beginblocker for ")
  · intro n s h
    simp only [MM.hasBeginBlocker] at h
    cases hc : (m.module n).bind AppModule.BeginBlock with
    | none => exact ⟨rfl, rfl⟩
    | some hook => rw [hc] at h; simp at h
  · intro n s h
    simp only [MM.hasBeginBlocker] at h
    cases hc : (m.module n).bind AppModule.BeginBlock with
    | none => rw [hc] at h; simp at h
    | some hook =>
      refine ⟨⟨n, .BeginBlock, [], (hook s.ctx).2⟩, ?_, rfl, ?_, ?_⟩
      · cases hr : (hook s.ctx).2 <;> simp [Exec.record, hr]
      · cases hr : (hook s.ctx).2 <;> simp [hr]
      · intro r
        cases hr : (hook s.ctx).2 with
        | none => simp [hr]
        | some e => simp [hr]; intro h; exact ⟨e, rfl, h.symm⟩

/-- Every run of `TxValidation` goes through its whole list or stops at one entry. -/
theorem TxValidation_trace (m : MM σ) (tx : Tx) (w : Exec σ) :
    ∃ new, (m.TxValidation tx w).1.calls = w.calls ++ new ∧
      (Completed m.hasTxValidation m.config.TxValidation new (m.TxValidation tx w).2 ∨
       Aborted m.hasTxValidation m.config.TxValidation new (m.TxValidation tx w).2
         (StopWrapped "failed to run txvalidator for ")) := by
  apply forRange_trace Exec.calls m.hasTxValidation
    (StopWrapped "failed to run txvalidator for ")
  · intro n s h
    simp only [MM.hasTxValidation] at h
    cases hc : (m.module n).bind AppModule.TxValidator with
    | none => exact ⟨rfl, rfl⟩
    | some hook => rw [hc] at h; simp at h
  · intro n s h
    simp only [MM.hasTxValidation] at h
    cases hc : (m.module n).bind AppModule.TxValidator with
    | none => rw [hc] at h; simp at h
    | some hook =>
      refine ⟨⟨n, .TxValidator tx, [], (hook s.ctx tx).2⟩, ?_, rfl, ?_, ?_⟩
      · cases hr : (hook s.ctx tx).2 <;> simp [Exec.record, hr]
      · cases hr : (hook s.ctx tx).2 <;> simp [hr]
      · intro r
        cases hr : (hook s.ctx tx).2 with
        | none => simp [hr]
        | some e => simp [hr]; intro h; exact ⟨e, rfl, h.symm⟩

/-- Every run of `endBlockFunc` goes through its whole list or stops at one entry. -/
theorem endBlockFunc_trace (m : MM σ) (s : List ValidatorUpdate × Exec σ) :
    ∃ new, (m.endBlockFunc s).1.2.calls = s.2.calls ++ new ∧
      (Completed m.hasEndBlocker m.config.EndBlockers new (m.endBlockFunc s).2 ∨
       Aborted m.hasEndBlocker m.config.EndBlockers new (m.endBlockFunc s).2 StopEndBlock) := by
  apply forRange_trace (fun s : List ValidatorUpdate × Exec σ => s.2.calls) m.hasEndBlocker
    StopEndBlock
  · intro n s h
    simp only [MM.hasEndBlocker] at h
    cases hc : (m.module n).map AppModule.EndBlock with
    | none => exact ⟨rfl, rfl⟩
    | some cap =>
      cases cap with
      | absent => exact ⟨rfl, rfl⟩
      | HasEndBlocker f => rw [hc] at h; simp at h
      | HasABCIEndBlock f => rw [hc] at h; simp at h
  · intro n s h
    simp only [MM.hasEndBlocker] at h
    cases hc : (m.module n).map AppModule.EndBlock with
    | none => rw [hc] at h; simp at h
    | some cap =>
      cases cap with
      | absent => rw [hc] at h; simp at h
      | HasEndBlocker hook =>
        refine ⟨⟨n, .EndBlock, [], (hook s.2.ctx).2⟩, ?_, rfl, ?_, ?_⟩
        · cases hr : (hook s.2.ctx).2 <;> simp [Exec.record, hr]
        · cases hr : (hook s.2.ctx).2 <;> simp [hr]
        · intro r
          cases hr : (hook s.2.ctx).2 with
          | none => simp [hr]
          | some e => simp [hr]; intro h; exact Or.inl ⟨e, rfl, Or.inl h.symm⟩
      | HasABCIEndBlock hook =>
        refine ⟨⟨n, .ABCIEndBlock, (hook s.2.ctx).2.1, (hook s.2.ctx).2.2⟩, ?_, rfl, ?_, ?_⟩
        · cases hr : (hook s.2.ctx).2.2 with
          | some e => simp [Exec.record, hr]
          | none =>
            simp only [hr]
            split_ifs <;> simp [Exec.record]
        · cases hr : (hook s.2.ctx).2.2 <;> simp [hr]
        · intro r
          cases hr : (hook s.2.ctx).2.2 with
          | some e => simp [hr]; intro h; exact Or.inl ⟨e, rfl, Or.inr h.symm⟩
          | none =>
            simp only [hr]
            split_ifs with h1 h2
            · intro h
              refine Or.inr ⟨rfl, ?_, ?_⟩
              · intro h0
                have h3 : (hook s.2.ctx).2.1 = [] := h0
                rw [h3] at h1; simp at h1
              · simpa using h.symm
            · simp
            · simp

/-- The new calls of a run whose log is the old log followed by `new` are `new`. -/
theorem newCalls_of_append {w w' : Exec σ} {new : List Invocation}
    (h : w'.calls = w.calls ++ new) : w.newCalls w' = new := by
  simp [Exec.newCalls, h]

/-- A completed or aborted plain phase in which no call returned an error is completed. -/
theorem completed_of_no_error {cap : String → Bool} {names : List String}
    {new : List Invocation} {result : Option GoError} {format : String}
    (h : Completed cap names new result ∨ Aborted cap names new result (StopWrapped format))
    (hne : ∀ c ∈ new, c.err = none) : Completed cap names new result := by
  rcases h with h | ⟨pre, n, post, init, c, r, _, _, hnew, _, _, _, _, e, he, _⟩
  · exact h
  · have := hne c (by simp [hnew])
    rw [this] at he
    cases he

/-- A completed or aborted run that returned nil is completed. -/
theorem completed_of_nil {cap : String → Bool} {names : List String}
    {new : List Invocation} {result : Option GoError}
    {Stop : String → Invocation → GoError → Prop}
    (h : Completed cap names new result ∨ Aborted cap names new result Stop)
    (hr : result = none) : Completed cap names new result := by
  rcases h with h | ⟨pre, n, post, init, c, r, _, _, _, _, _, _, hres, _⟩
  · exact h
  · rw [hr] at hres
    cases hres

/-- C1 (amended). For every module manager, so for every successfully constructed one:
in a run of `PreBlocker`, of `BeginBlock` or of `TxValidation` in which no invoked module
returns an error, the phase returns nil and the sequence of module invocations is the
phase's configured name list, in list order, restricted to the names whose module
implements the phase's capability. For `EndBlock` the same holds of every run of
`endBlockFunc` that returns nil, that is, in which no invoked module returns an error and
no accumulator conflict arises. -/
theorem phase_invocation_order (m : MM σ) (w : Exec σ) (tx : Tx)
    (acc : List ValidatorUpdate) :
    ((∀ c ∈ w.newCalls (m.PreBlocker w).1, c.err = none) →
      (m.PreBlocker w).2 = none ∧
      (w.newCalls (m.PreBlocker w).1).map Invocation.moduleName =
        m.config.PreBlockers.filter m.hasPreBlocker) ∧
    ((∀ c ∈ w.newCalls (m.BeginBlock w).1, c.err = none) →
      (m.BeginBlock w).2 = none ∧
      (w.newCalls (m.BeginBlock w).1).map Invocation.moduleName =
        m.config.BeginBlockers.filter m.hasBeginBlocker) ∧
    ((∀ c ∈ w.newCalls (m.TxValidation tx w).1, c.err = none) →
      (m.TxValidation tx w).2 = none ∧
      (w.newCalls (m.TxValidation tx w).1).map Invocation.moduleName =
        m.config.TxValidation.filter m.hasTxValidation) ∧
    ((m.endBlockFunc (acc, w)).2 = none →
      (∀ c ∈ w.newCalls (m.endBlockFunc (acc, w)).1.2, c.err = none) ∧
      (w.newCalls (m.endBlockFunc (acc, w)).1.2).map Invocation.moduleName =
        m.config.EndBlockers.filter m.hasEndBlocker) := by
  refine ⟨?_, ?_, ?_, ?_⟩
  · obtain ⟨new, hnew, h⟩ := PreBlocker_trace m w
    rw [newCalls_of_append hnew]
    intro hne
    have hc := completed_of_no_error h hne
    exact ⟨hc.1, hc.2.1⟩
  · obtain ⟨new, hnew, h⟩ := BeginBlock_trace m w
    rw [newCalls_of_append hnew]
    intro hne
    have hc := completed_of_no_error h hne
    exact ⟨hc.1, hc.2.1⟩
  · obtain ⟨new, hnew, h⟩ := TxValidation_trace m tx w
    rw [newCalls_of_append hnew]
    intro hne
    have hc := completed_of_no_error h hne
    exact ⟨hc.1, hc.2.1⟩
  · obtain ⟨new, hnew, h⟩ := endBlockFunc_trace m (acc, w)
    have hnew' : (m.endBlockFunc (acc, w)).1.2.calls = w.calls ++ new := hnew
    rw [newCalls_of_append hnew']
    intro hr
    have hc := completed_of_nil h hr
    exact ⟨hc.2.2, hc.2.1⟩

/-- C1, witness: the scenario of the spec. With the order Y, X, Z and only X and Y
implementing the hooks, each of the four phases calls Y and then X. -/
theorem phase_invocation_order_witness :
    ((∀ c ∈ exec0.newCalls (scenarioXYZ.PreBlocker exec0).1, c.err = none) ∧
      (exec0.newCalls (scenarioXYZ.PreBlocker exec0).1).map Invocation.moduleName
        = ["Y", "X"]) ∧
    ((∀ c ∈ exec0.newCalls (scenarioXYZ.BeginBlock exec0).1, c.err = none) ∧
      (exec0.newCalls (scenarioXYZ.BeginBlock exec0).1).map Invocation.moduleName
        = ["Y", "X"]) ∧
    ((∀ c ∈ exec0.newCalls (scenarioXYZ.TxValidation [] exec0).1, c.err = none) ∧
      (exec0.newCalls (scenarioXYZ.TxValidation [] exec0).1).map Invocation.moduleName
        = ["Y", "X"]) ∧
    ((scenarioXYZ.endBlockFunc ([], exec0)).2 = none ∧
      (exec0.newCalls (scenarioXYZ.endBlockFunc ([], exec0)).1.2).map Invocation.moduleName
        = ["Y", "X"]) :=
  have h := phase_invocation_order scenarioXYZ exec0 [] []
  ⟨⟨by decide, (h.1 (by decide)).2.trans (by decide)⟩,
   ⟨by decide, (h.2.1 (by decide)).2.trans (by decide)⟩,
   ⟨by decide, (h.2.2.1 (by decide)).2.trans (by decide)⟩,
   ⟨by decide, (h.2.2.2 (by decide)).2.trans (by decide)⟩⟩

/-- C1, counterexample. The manager of the legacy end-blockers a and b, which each return
one validator update and no error, and of the end-blocker c, with the order a, b, c, is
accepted by `NewModuleManager`. In its `endBlockFunc` run from an empty accumulator no
invoked module returns an error, yet the invocations are a, b and not a, b, c: the run
stops at b with the accumulator conflict. -/
theorem phase_invocation_order_counterexample :
    (∃ m, NewModuleManager id registrarOk managerABC.config modulesABC = .ok m ∧
      m.config = managerABC.config) ∧
    (∀ c ∈ exec0.newCalls (managerABC.endBlockFunc ([], exec0)).1.2, c.err = none) ∧
    (exec0.newCalls (managerABC.endBlockFunc ([], exec0)).1.2).map Invocation.moduleName
      = ["a", "b"] ∧
    managerABC.config.EndBlockers.filter managerABC.hasEndBlocker = ["a", "b", "c"] ∧
    (managerABC.endBlockFunc ([], exec0)).2 = some errValUpdatesAlreadySet := by
  refine ⟨⟨managerABC, rfl, rfl⟩, by decide, by decide, by decide, by decide⟩

/-- The message of a wrapping made by the phase functions contains the module name. -/
theorem containsStr_fmtErrorfW (format n : String) (e : GoError) :
    containsStr (fmtErrorfW format n e).Error n := by
  refine ⟨format.data, (": " ++ e.Error).data, ?_⟩
  simp [fmtErrorfW, GoError.Error, String.data_append]

/-- In a list without repeated names, split at the entry `n`, the names of the calls up to `n`
occur once each and the names after `n` do not occur. -/
theorem counts_of_split {cap : String → Bool} {pre post : List String} {n : String}
    (hnd : (pre ++ n :: post).Nodup) :
    (∀ x ∈ pre, cap x = true → (pre.filter cap ++ [n]).count x = 1) ∧
    (pre.filter cap ++ [n]).count n = 1 ∧
    ∀ x ∈ post, (pre.filter cap ++ [n]).count x = 0 := by
  rw [List.nodup_append] at hnd
  obtain ⟨hpre, hpost, hdisj⟩ := hnd
  have hn : n ∉ pre := fun h => hdisj h (List.mem_cons_self _ _)
  rw [List.nodup_cons] at hpost
  refine ⟨?_, ?_, ?_⟩
  · intro x hx hc
    have hxn : x ≠ n := fun h => hn (h ▸ hx)
    rw [List.count_append, List.count_eq_one_of_mem (hpre.filter _)
      (List.mem_filter.2 ⟨hx, hc⟩)]
    rw [List.count_eq_zero_of_not_mem (by simpa using hxn)]
  · rw [List.count_append, List.count_eq_zero_of_not_mem
      (fun h => hn (List.mem_filter.1 h).1)]
    simp
  · intro x hx
    have hxn : x ≠ n := fun h => hpost.1 (h ▸ hx)
    have hxp : x ∉ pre := fun h => hdisj h (List.mem_cons_of_mem _ hx)
    rw [List.count_append, List.count_eq_zero_of_not_mem
      (fun h => hxp (List.mem_filter.1 h).1)]
    rw [List.count_eq_zero_of_not_mem (by simpa using hxn)]

/-- A run whose call `c0` returned the error `e` stopped at that call, provided every stop
on a failed call wraps its error. -/
theorem stoppedOnError_of_trace {cap : String → Bool} {names : List String}
    {new : List Invocation} {result : Option GoError}
    {Stop : String → Invocation → GoError → Prop}
    (hStop : ∀ n c r, Stop n c r → ∀ e, c.err = some e → ∃ format, r = fmtErrorfW format n e)
    (h : Completed cap names new result ∨ Aborted cap names new result Stop)
    (c0 : Invocation) (hc0 : c0 ∈ new) (e : GoError) (he : c0.err = some e) :
    StoppedOnError cap names new result c0 e := by
  rcases h with ⟨_, _, hne⟩ | ⟨pre, n, post, init, c, r, hnames, hcap, hnew, hcn, hinit, hne, hres, hs⟩
  · rw [hne c0 hc0] at he; cases he
  · have hcc : c0 = c := by
      rw [hnew] at hc0
      rcases List.mem_append.1 hc0 with h | h
      · rw [hne c0 h] at he; cases he
      · simpa using h
    subst hcc
    subst hcn
    obtain ⟨format, hr⟩ := hStop _ _ _ hs e he
    refine ⟨⟨r, hres, ?_, ?_⟩, pre, post, init, hnames, hcap, hnew, hinit, hne, ?_⟩
    · rw [hr]; rfl
    · rw [hr]; exact containsStr_fmtErrorfW _ _ _
    · intro hnd
      have hmap : new.map Invocation.moduleName = pre.filter cap ++ [c0.moduleName] := by
        simp [hnew, hinit]
      rw [hmap]
      rw [hnames] at hnd
      exact counts_of_split hnd

/-- A stop of a plain phase on a failed call wraps the error of the call. -/
theorem stopWrapped_wraps (format : String) :
    ∀ n c r, StopWrapped format n c r → ∀ e, c.err = some e →
      ∃ format, r = fmtErrorfW format n e := by
  rintro n c r ⟨e', he', hr⟩ e he
  rw [he'] at he
  cases he
  exact ⟨format, hr⟩

/-- A stop of `endBlockFunc` on a failed call wraps the error of the call. -/
theorem stopEndBlock_wraps :
    ∀ n c r, StopEndBlock n c r → ∀ e, c.err = some e →
      ∃ format, r = fmtErrorfW format n e := by
  rintro n c r (⟨e', he', hr⟩ | ⟨hnone, _, _⟩) e he
  · rw [he'] at he
    cases he
    rcases hr with hr | hr
    · exact ⟨_, hr⟩
    · exact ⟨_, hr⟩
  · rw [hnone] at he; cases he

/-- C3 (amended). For each of `PreBlocker`, `BeginBlock`, `EndBlock` (`endBlockFunc`) and
`TxValidation`: if a call of the run returned an error `e` (it is then the first and only
one to do so), the phase returns a non-nil error that wraps `e` and whose message contains
the name of that module; the calls before it are exactly the capability-holding entries
that precede it in the configured order, one call per entry, none of which returned an
error; it is the last call, so no later entry is invoked; and when no name is repeated in
the list every earlier capability-holding module has been called exactly once and no later
module at all (`StoppedOnError`). Moreover `TxValidation` returns nil if and only if every
configured validator was called and returned nil. -/
theorem phase_first_error (m : MM σ) (w : Exec σ) (tx : Tx) (acc : List ValidatorUpdate) :
    (∀ c ∈ w.newCalls (m.PreBlocker w).1, ∀ e, c.err = some e →
      StoppedOnError m.hasPreBlocker m.config.PreBlockers
        (w.newCalls (m.PreBlocker w).1) (m.PreBlocker w).2 c e) ∧
    (∀ c ∈ w.newCalls (m.BeginBlock w).1, ∀ e, c.err = some e →
      StoppedOnError m.hasBeginBlocker m.config.BeginBlockers
        (w.newCalls (m.BeginBlock w).1) (m.BeginBlock w).2 c e) ∧
    (∀ c ∈ w.newCalls (m.endBlockFunc (acc, w)).1.2, ∀ e, c.err = some e →
      StoppedOnError m.hasEndBlocker m.config.EndBlockers
        (w.newCalls (m.endBlockFunc (acc, w)).1.2) (m.endBlockFunc (acc, w)).2 c e) ∧
    (∀ c ∈ w.newCalls (m.TxValidation tx w).1, ∀ e, c.err = some e →
      StoppedOnError m.hasTxValidation m.config.TxValidation
        (w.newCalls (m.TxValidation tx w).1) (m.TxValidation tx w).2 c e) ∧
    ((m.TxValidation tx w).2 = none ↔
      ((w.newCalls (m.TxValidation tx w).1).map Invocation.moduleName =
          m.config.TxValidation.filter m.hasTxValidation ∧
        ∀ c ∈ w.newCalls (m.TxValidation tx w).1, c.err = none)) := by
  refine ⟨?_, ?_, ?_, ?_, ?_⟩
  · obtain ⟨new, hnew, h⟩ := PreBlocker_trace m w
    rw [newCalls_of_append hnew]
    exact stoppedOnError_of_trace (stopWrapped_wraps _) h
  · obtain ⟨new, hnew, h⟩ := BeginBlock_trace m w
    rw [newCalls_of_append hnew]
    exact stoppedOnError_of_trace (stopWrapped_wraps _) h
  · obtain ⟨new, hnew, h⟩ := endBlockFunc_trace m (acc, w)
    have hnew' : (m.endBlockFunc (acc, w)).1.2.calls = w.calls ++ new := hnew
    rw [newCalls_of_append hnew']
    exact stoppedOnError_of_trace stopEndBlock_wraps h
  · obtain ⟨new, hnew, h⟩ := TxValidation_trace m tx w
    rw [newCalls_of_append hnew]
    exact stoppedOnError_of_trace (stopWrapped_wraps _) h
  · obtain ⟨new, hnew, h⟩ := TxValidation_trace m tx w
    rw [newCalls_of_append hnew]
    constructor
    · intro hr
      have hc := completed_of_nil h hr
      exact ⟨hc.2.1, hc.2.2⟩
    · intro hne
      exact (completed_of_no_error h hne.2).1

/-- C3, witness: in the manager of a, b, c whose module b fails with `boom`, the call of b
is in the log of each phase with that error, and the theorem applies to it. -/
theorem phase_first_error_witness :
    ((⟨"b", .PreBlock, [], some boom⟩ : Invocation) ∈
        exec0.newCalls (managerFail.PreBlocker exec0).1 ∧
      StoppedOnError managerFail.hasPreBlocker managerFail.config.PreBlockers
        (exec0.newCalls (managerFail.PreBlocker exec0).1) (managerFail.PreBlocker exec0).2
        ⟨"b", .PreBlock, [], some boom⟩ boom) ∧
    ((⟨"b", .BeginBlock, [], some boom⟩ : Invocation) ∈
        exec0.newCalls (managerFail.BeginBlock exec0).1 ∧
      StoppedOnError managerFail.hasBeginBlocker managerFail.config.BeginBlockers
        (exec0.newCalls (managerFail.BeginBlock exec0).1) (managerFail.BeginBlock exec0).2
        ⟨"b", .BeginBlock, [], some boom⟩ boom) ∧
    ((⟨"b", .EndBlock, [], some boom⟩ : Invocation) ∈
        exec0.newCalls (managerFail.endBlockFunc ([], exec0)).1.2 ∧
      StoppedOnError managerFail.hasEndBlocker managerFail.config.EndBlockers
        (exec0.newCalls (managerFail.endBlockFunc ([], exec0)).1.2)
        (managerFail.endBlockFunc ([], exec0)).2 ⟨"b", .EndBlock, [], some boom⟩ boom) ∧
    ((⟨"b", .TxValidator [7], [], some boom⟩ : Invocation) ∈
        exec0.newCalls (managerFail.TxValidation [7] exec0).1 ∧
      StoppedOnError managerFail.hasTxValidation managerFail.config.TxValidation
        (exec0.newCalls (managerFail.TxValidation [7] exec0).1)
        (managerFail.TxValidation [7] exec0).2 ⟨"b", .TxValidator [7], [], some boom⟩ boom) ∧
    exec0.newCalls (managerFail.BeginBlock exec0).1 =
      [⟨"a", .BeginBlock, [], none⟩, ⟨"b", .BeginBlock, [], some boom⟩] ∧
    (managerFail.BeginBlock exec0).2 =
      some (.Wrap "failed to run beginblocker for b: boom" boom) :=
  have h := phase_first_error managerFail exec0 [7] []
  ⟨⟨by decide, h.1 _ (by decide) boom rfl⟩,
   ⟨by decide, h.2.1 _ (by decide) boom rfl⟩,
   ⟨by decide, h.2.2.1 _ (by decide) boom rfl⟩,
   ⟨by decide, h.2.2.2.1 _ (by decide) boom rfl⟩,
   by decide, by decide⟩

/-- C3, counterexample. The begin-block order a, a, b, a is accepted by `NewModuleManager`.
In `BeginBlock` the module b is the first to return an error; the module a, which is earlier
in the list, has been called twice, not once, and a is also a module later in the list than
b that has been called. -/
theorem phase_first_error_counterexample :
    ∃ m : MM Unit,
      NewModuleManager id registrarOk managerRepeat.config managerRepeat.modules = .ok m ∧
      m.config.BeginBlockers = ["a", "a", "b", "a"] ∧
      m.hasBeginBlocker "a" = true ∧
      exec0.newCalls (m.BeginBlock exec0).1 =
        [⟨"a", .BeginBlock, [], none⟩, ⟨"a", .BeginBlock, [], none⟩,
         ⟨"b", .BeginBlock, [], some boom⟩] ∧
      (m.BeginBlock exec0).2 = some (.Wrap "failed to run beginblocker for b: boom" boom) ∧
      ((exec0.newCalls (m.BeginBlock exec0).1).map Invocation.moduleName).count "a" = 2 ∧
      m.config.BeginBlockers = ["a", "a", "b"] ++ ["a"] ∧
      "a" ∈ (exec0.newCalls (m.BeginBlock exec0).1).map Invocation.moduleName :=
  ⟨managerRepeat, rfl, by decide, by decide, by decide, by decide, by decide, by decide,
    by decide⟩

/-- The closure `pass` of a phase is the negation of its capability test. -/
theorem pass_eq_not_has (m : MM σ) (p : Phase) (x : String) : p.pass m x = !p.has m x := by
  cases p <;> rfl

/-- The missing names of a phase are the registered names whose module has the capability
of the phase and which the list of the phase omits. -/
theorem mem_missingOf (m : MM σ) (p : Phase) (x : String) :
    x ∈ m.missingOf p ↔
      x ∈ m.modules.map Prod.fst ∧ p.has m x = true ∧ x ∉ p.list m.config := by
  simp only [MM.missingOf, MM.missing, List.mem_filter, pass_eq_not_has]
  simp

/-- The method `assertNoForgottenModules` fails exactly when its slice `missing` is not empty. -/
theorem assert_eq (m : MM σ) (fnName : String) (names : List String)
    (pass : Option (String → Bool)) :
    m.assertNoForgottenModules fnName names pass =
      if m.missing names pass = [] then none
      else some (errForgotten fnName (sortStrings (m.missing names pass))) := by
  unfold MM.assertNoForgottenModules
  by_cases h : m.missing names pass = []
  · simp [h]
  · simp [h]

/-- The assertion of a phase without missing names returns nil. -/
theorem assert_phase_none (m : MM σ) (p : Phase) (h : m.missingOf p = []) :
    m.assertNoForgottenModules p.fnName (p.list m.config) (some (p.pass m)) = none := by
  rw [assert_eq]; simp [MM.missingOf] at h; simp [h]

/-- The assertion of a phase with missing names returns the error made of them. -/
theorem assert_phase_some (m : MM σ) (p : Phase) (h : m.missingOf p ≠ []) :
    m.assertNoForgottenModules p.fnName (p.list m.config) (some (p.pass m)) =
      some (errForgotten p.fnName (sortStrings (m.missingOf p))) := by
  rw [assert_eq]; simp only [MM.missingOf] at h ⊢; simp [h]

/-- The error of `validateConfig` is that of the first phase with missing names. -/
theorem validateConfig_first (m : MM σ) (q : Phase) (hq : m.missingOf q ≠ [])
    (hprev : ∀ q' : Phase, q'.index < q.index → m.missingOf q' = []) :
    m.validateConfig = some (errForgotten q.fnName (sortStrings (m.missingOf q))) := by
  have e1 : ∀ p : Phase, p.index < q.index →
      m.assertNoForgottenModules p.fnName (p.list m.config) (some (p.pass m)) = none :=
    fun p hp => assert_phase_none m p (hprev p hp)
  have e2 := assert_phase_some m q hq
  cases q
  · simp only [Phase.fnName, Phase.list, Phase.pass] at e2
    simp only [MM.validateConfig, e2]
    rfl
  · have h0 := e1 .PreBlockers (by decide)
    simp only [Phase.fnName, Phase.list, Phase.pass] at e2 h0
    simp only [MM.validateConfig, h0, e2]
    rfl
  · have h0 := e1 .PreBlockers (by decide)
    have h1 := e1 .BeginBlockers (by decide)
    simp only [Phase.fnName, Phase.list, Phase.pass] at e2 h0 h1
    simp only [MM.validateConfig, h0, h1, e2]
    rfl
  · have h0 := e1 .PreBlockers (by decide)
    have h1 := e1 .BeginBlockers (by decide)
    have h2 := e1 .EndBlockers (by decide)
    simp only [Phase.fnName, Phase.list, Phase.pass] at e2 h0 h1 h2
    simp only [MM.validateConfig, h0, h1, h2, e2]
    rfl
  · have h0 := e1 .PreBlockers (by decide)
    have h1 := e1 .BeginBlockers (by decide)
    have h2 := e1 .EndBlockers (by decide)
    have h3 := e1 .TxValidation (by decide)
    simp only [Phase.fnName, Phase.list, Phase.pass] at e2 h0 h1 h2 h3
    simp only [MM.validateConfig, h0, h1, h2, h3, e2]
    rfl
  · have h0 := e1 .PreBlockers (by decide)
    have h1 := e1 .BeginBlockers (by decide)
    have h2 := e1 .EndBlockers (by decide)
    have h3 := e1 .TxValidation (by decide)
    have h4 := e1 .InitGenesis (by decide)
    simp only [Phase.fnName, Phase.list, Phase.pass] at e2 h0 h1 h2 h3 h4
    simp only [MM.validateConfig, h0, h1, h2, h3, h4, e2]
    rfl

/-- If a phase has missing names there is a first such phase. -/
theorem first_failing_phase (m : MM σ) (p : Phase) (hp : m.missingOf p ≠ []) :
    ∃ q : Phase, q.index ≤ p.index ∧ m.missingOf q ≠ [] ∧
      ∀ q' : Phase, q'.index < q.index → m.missingOf q' = [] := by
  classical
  have hex : ∃ i, ∃ q : Phase, q.index = i ∧ m.missingOf q ≠ [] := ⟨p.index, p, rfl, hp⟩
  obtain ⟨q, hqi, hq⟩ := Nat.find_spec hex
  refine ⟨q, ?_, hq, ?_⟩
  · rw [hqi]; exact Nat.find_min' hex ⟨p, rfl, hp⟩
  · intro q' hlt
    by_contra hne
    exact Nat.find_min hex (hqi ▸ hlt) ⟨q', rfl, hne⟩

/-- If `validateConfig` returns nil no phase has missing names. -/
theorem validateConfig_none (m : MM σ) (h : m.validateConfig = none) (p : Phase) :
    m.missingOf p = [] := by
  by_contra hne
  obtain ⟨q, _, hq, hprev⟩ := first_failing_phase m p hne
  rw [validateConfig_first m q hq hprev] at h
  cases h

/-- The defaults leave a non-empty list as it is. -/
theorem list_defaultConfig (D : List String → List String) (names : List String)
    (config : Config) (p : Phase) (h : p.list config ≠ []) :
    p.list (defaultConfig D names config) = p.list config := by
  cases p <;> simp only [Phase.list] at h ⊢ <;> simp [defaultConfig, h]

/-- Sorting keeps the elements. -/
theorem mem_sortStrings (x : String) (xs : List String) : x ∈ sortStrings xs ↔ x ∈ xs :=
  (List.perm_insertionSort _ xs).mem_iff

/-- The constructor validates `managerOf` and returns it or panics. -/
theorem NewModuleManager_eq (D : List String → List String) (reg : MigrationRegistrar σ)
    (config : Config) (modules : List (String × AppModule σ)) :
    NewModuleManager D reg config modules =
      match (managerOf D reg config modules).validateConfig with
      | some err => .error err
      | none => .ok (managerOf D reg config modules) := rfl

/-- C2 (amended). Let the list supplied for a phase (PreBlockers, BeginBlockers,
EndBlockers, TxValidation, InitGenesis, ExportGenesis) be non-empty and omit a registered
module `x` that implements the capability of the phase. Then `NewModuleManager` does not
return a manager: it panics with the `validateConfig` error of the first phase `q`, in the
order of the checks, whose list omits a capability-holding module. That error names `q` and
its missing-module list is the sorted list of the modules omitted from `q`. The phase `q`
is the given phase or an earlier one, and it is the given phase when no earlier phase has
an omission; `x` is in the sorted missing list of the given phase. -/
theorem construction_fails_on_omission (D : List String → List String)
    (reg : MigrationRegistrar σ) (config : Config) (modules : List (String × AppModule σ))
    (p : Phase) (x : String)
    (hne : p.list config ≠ [])
    (hreg : x ∈ modules.map Prod.fst)
    (hcap : p.has (managerOf D reg config modules) x = true)
    (hom : x ∉ p.list config) :
    x ∈ sortStrings ((managerOf D reg config modules).missingOf p) ∧
    ∃ q : Phase, q.index ≤ p.index ∧
      (∀ q' : Phase, q'.index < q.index → (managerOf D reg config modules).missingOf q' = []) ∧
      (managerOf D reg config modules).missingOf q ≠ [] ∧
      NewModuleManager D reg config modules =
        .error (errForgotten q.fnName
          (sortStrings ((managerOf D reg config modules).missingOf q))) ∧
      ((∀ q' : Phase, q'.index < p.index →
          (managerOf D reg config modules).missingOf q' = []) → q = p) := by
  have hx : x ∈ (managerOf D reg config modules).missingOf p := by
    rw [mem_missingOf]
    refine ⟨hreg, hcap, ?_⟩
    have : p.list (managerOf D reg config modules).config = p.list config :=
      list_defaultConfig D _ config p hne
    rw [this]
    exact hom
  have hp : (managerOf D reg config modules).missingOf p ≠ [] := List.ne_nil_of_mem hx
  obtain ⟨q, hle, hq, hprev⟩ := first_failing_phase _ p hp
  refine ⟨(mem_sortStrings _ _).2 hx, q, hle, hprev, hq, ?_, ?_⟩
  · rw [NewModuleManager_eq, validateConfig_first _ q hq hprev]
  · intro hall
    have hidx : q.index = p.index := by
      rcases Nat.lt_or_eq_of_le hle with hlt | heq
      · exact absurd (hall q hlt) hq
      · exact heq
    revert hidx
    cases q <;> cases p <;> simp [Phase.index]

/-- C2, witness: the pre-block order b omits the module a, which implements `PreBlock`. -/
theorem construction_fails_on_omission_witness :
    Phase.PreBlockers.list configOmit ≠ [] ∧
    "a" ∈ modulesOmit.map Prod.fst ∧
    Phase.PreBlockers.has (managerOf id registrarOk configOmit modulesOmit) "a" = true ∧
    "a" ∉ Phase.PreBlockers.list configOmit ∧
    ("a" ∈ sortStrings
        ((managerOf id registrarOk configOmit modulesOmit).missingOf .PreBlockers) ∧
      ∃ q : Phase, q.index ≤ Phase.PreBlockers.index ∧
        (∀ q' : Phase, q'.index < q.index →
          (managerOf id registrarOk configOmit modulesOmit).missingOf q' = []) ∧
        (managerOf id registrarOk configOmit modulesOmit).missingOf q ≠ [] ∧
        NewModuleManager id registrarOk configOmit modulesOmit =
          .error (errForgotten q.fnName
            (sortStrings ((managerOf id registrarOk configOmit modulesOmit).missingOf q))) ∧
        ((∀ q' : Phase, q'.index < Phase.PreBlockers.index →
          (managerOf id registrarOk configOmit modulesOmit).missingOf q' = []) →
            q = .PreBlockers)) :=
  ⟨by decide, by decide, by decide, by decide,
    construction_fails_on_omission id registrarOk configOmit modulesOmit .PreBlockers "a"
      (by decide) (by decide) (by decide) (by decide)⟩

/-- C2, counterexample. The begin-block order a is non-empty and omits the registered
module b, which implements `BeginBlock`; the pre-block order b omits a, which implements
`PreBlock`. `NewModuleManager` panics with the error of `PreBlockers`, whose missing-module
list is a alone and does not contain b. -/
theorem construction_fails_on_omission_counterexample :
    Phase.BeginBlockers.list configOmit ≠ [] ∧
    "b" ∈ modulesOmit.map Prod.fst ∧
    Phase.BeginBlockers.has (managerOf id registrarOk configOmit modulesOmit) "b" = true ∧
    "b" ∉ Phase.BeginBlockers.list configOmit ∧
    NewModuleManager id registrarOk configOmit modulesOmit =
      .error (errForgotten "PreBlockers" ["a"]) ∧
    errForgotten "PreBlockers" ["a"] =
      .New "all modules must be defined when setting PreBlockers, missing: [a]" ∧
    "b" ∉ ["a"] :=
  ⟨by decide, by decide, by decide, by decide, rfl, by decide, by decide⟩

/-- An accumulator holds one list at most. -/
theorem held_le_one (acc : List ValidatorUpdate) : held acc ≤ 1 := by
  unfold held; split_ifs <;> simp

/-- The count of reporting calls in an accumulating loop: two lists, the held one included,
end the loop in the conflict error, and a loop that returns nil holds what was reported. -/
theorem forRange_reports {α : Type}
    (body : α → List ValidatorUpdate × Exec σ → (List ValidatorUpdate × Exec σ) × Option GoError)
    (hstep : ∀ x s, AccStep s (body x s)) (xs : List α) (s : List ValidatorUpdate × Exec σ) :
    ∃ new, (forRange body xs s).1.2.calls = s.2.calls ++ new ∧
      (2 ≤ held s.1 + (new.filter Invocation.reports).length →
        (forRange body xs s).2 = some errValUpdatesAlreadySet) ∧
      ((forRange body xs s).2 = none →
        held (forRange body xs s).1.1 = held s.1 + (new.filter Invocation.reports).length) := by
  induction xs generalizing s with
  | nil =>
    refine ⟨[], by simp [forRange], ?_, by simp [forRange]⟩
    intro h
    have := held_le_one s.1
    simp at h
    omega
  | cons x xs ih =>
    have hs := hstep x s
    cases hb : body x s with
    | mk s1 r1 =>
      rw [hb] at hs
      rcases hs with h | ⟨c, hcalls, h⟩
      · injection h with h1 h2
        subst h1; subst h2
        obtain ⟨new, h1, h2, h3⟩ := ih s1
        exact ⟨new, by simpa [forRange, hb] using h1, by simpa [forRange, hb] using h2,
          by simpa [forRange, hb] using h3⟩
      · simp only at hcalls h
        cases r1 with
        | some r =>
          refine ⟨[c], by simpa [forRange, hb] using hcalls, ?_, by simp [forRange, hb]⟩
          rcases h with ⟨hrep, _⟩ | ⟨hrep, hne, hr, _⟩ | ⟨_, _, hr, _⟩
          · intro h2
            have := held_le_one s.1
            simp [hrep] at h2
            omega
          · intro _
            simpa [forRange, hb] using hr
          · cases hr
        | none =>
          obtain ⟨new, h1, h2, h3⟩ := ih s1
          refine ⟨c :: new, ?_, ?_, ?_⟩
          · simp only [forRange, hb]; rw [h1, hcalls]; simp
          · simp only [forRange, hb]
            rcases h with ⟨hrep, hacc⟩ | ⟨_, _, hr, _⟩ | ⟨hrep, he, _, hne⟩
            · rw [hacc] at h2
              simpa [List.filter_cons, hrep] using h2
            · cases hr
            · intro hge
              apply h2
              have e1 : held s1.1 = 1 := by simp [held, hne]
              have e0 : held s.1 = 0 := by simp [held, he]
              simp [List.filter_cons, hrep, e0] at hge
              omega
          · simp only [forRange, hb]
            rcases h with ⟨hrep, hacc⟩ | ⟨_, _, hr, _⟩ | ⟨hrep, he, _, hne⟩
            · rw [hacc] at h3
              simpa [List.filter_cons, hrep] using h3
            · cases hr
            · intro hr
              rw [h3 hr]
              have e1 : held s1.1 = 1 := by simp [held, hne]
              have e0 : held s.1 = 0 := by simp [held, he]
              simp [List.filter_cons, hrep, e0, e1]
              omega

/-- The loop of `endBlockFunc` is an accumulating loop. -/
theorem endBlockFunc_reports (m : MM σ) (s : List ValidatorUpdate × Exec σ) :
    ∃ new, (m.endBlockFunc s).1.2.calls = s.2.calls ++ new ∧
      (2 ≤ held s.1 + (new.filter Invocation.reports).length →
        (m.endBlockFunc s).2 = some errValUpdatesAlreadySet) ∧
      ((m.endBlockFunc s).2 = none →
        held (m.endBlockFunc s).1.1 = held s.1 + (new.filter Invocation.reports).length) := by
  apply forRange_reports
  intro n s
  cases hc : (m.module n).map AppModule.EndBlock with
  | none => left; simp only [hc]
  | some cap =>
    cases cap with
    | absent => left; simp only [hc]
    | HasEndBlocker hook =>
      right
      refine ⟨⟨n, .EndBlock, [], (hook s.2.ctx).2⟩, ?_, Or.inl ⟨?_, ?_⟩⟩
      · cases hr : (hook s.2.ctx).2 <;> simp [Exec.record, hr, hc]
      · simp [Invocation.reports]
      · cases hr : (hook s.2.ctx).2 <;> simp [hr, hc]
    | HasABCIEndBlock hook =>
      right
      refine ⟨⟨n, .ABCIEndBlock, (hook s.2.ctx).2.1, (hook s.2.ctx).2.2⟩, ?_, ?_⟩
      · cases hr : (hook s.2.ctx).2.2 with
        | some e => simp [Exec.record, hr, hc]
        | none =>
          simp only [hr, hc]
          split_ifs <;> simp [Exec.record]
      · cases hr : (hook s.2.ctx).2.2 with
        | some e => left; simp [Invocation.reports, hr, hc]
        | none =>
          simp only [hr, hc]
          by_cases h1 : (hook s.2.ctx).2.1.length > 0
          · have hne : (hook s.2.ctx).2.1 ≠ [] := by
              intro h0; rw [h0] at h1; simp at h1
            have hrep : Invocation.reports
                ⟨n, .ABCIEndBlock, (hook s.2.ctx).2.1, (none : Option GoError)⟩ = true := by
              simp [Invocation.reports, hne]
            by_cases h2 : s.1.length > 0
            · right; left
              have hs : s.1 ≠ [] := by intro h0; rw [h0] at h2; simp at h2
              simp [h1, h2, hrep, hs]
            · right; right
              have hs : s.1 = [] := by
                cases hs1 : s.1 with
                | nil => rfl
                | cons a l => rw [hs1] at h2; simp at h2
              simp [h1, h2, hrep, hs, hne]
          · left
            have he : (hook s.2.ctx).2.1 = [] := by
              cases hs1 : (hook s.2.ctx).2.1 with
              | nil => rfl
              | cons a l => rw [hs1] at h1; simp at h1
            simp [h1, Invocation.reports, he]

/-- The loop of `valUpdateFunc` is an accumulating loop. -/
theorem valUpdateFunc_loop_reports (m : MM σ) (s : List ValidatorUpdate × Exec σ) :
    ∃ new, (MM.valUpdateFunc.loop m s).1.2.calls = s.2.calls ++ new ∧
      (2 ≤ held s.1 + (new.filter Invocation.reports).length →
        (MM.valUpdateFunc.loop m s).2 = some errValUpdatesAlreadySet) ∧
      ((MM.valUpdateFunc.loop m s).2 = none →
        held (MM.valUpdateFunc.loop m s).1.1 =
          held s.1 + (new.filter Invocation.reports).length) := by
  apply forRange_reports
  intro entry s
  cases hc : entry.2.UpdateValidators with
  | none => left; simp only [hc]
  | some hook =>
      right
      refine ⟨⟨entry.1, .UpdateValidators, (hook s.2.ctx).2.1, (hook s.2.ctx).2.2⟩, ?_, ?_⟩
      · cases hr : (hook s.2.ctx).2.2 with
        | some e => simp [Exec.record, hr, hc]
        | none =>
          simp only [hr, hc]
          split_ifs <;> simp [Exec.record]
      · cases hr : (hook s.2.ctx).2.2 with
        | some e => left; simp [Invocation.reports, hr, hc]
        | none =>
          simp only [hr, hc]
          by_cases h1 : (hook s.2.ctx).2.1.length > 0
          · have hne : (hook s.2.ctx).2.1 ≠ [] := by
              intro h0; rw [h0] at h1; simp at h1
            have hrep : Invocation.reports
                ⟨entry.1, .UpdateValidators, (hook s.2.ctx).2.1, (none : Option GoError)⟩
                  = true := by
              simp [Invocation.reports, hne]
            by_cases h2 : s.1.length > 0
            · right; left
              have hs : s.1 ≠ [] := by intro h0; rw [h0] at h2; simp at h2
              simp [h1, h2, hrep, hs]
            · right; right
              have hs : s.1 = [] := by
                cases hs1 : s.1 with
                | nil => rfl
                | cons a l => rw [hs1] at h2; simp at h2
              simp [h1, h2, hrep, hs, hne]
          · left
            have he : (hook s.2.ctx).2.1 = [] := by
              cases hs1 : (hook s.2.ctx).2.1 with
              | nil => rfl
              | cons a l => rw [hs1] at h1; simp at h1
            simp [h1, Invocation.reports, he]

/-- C4. One End-Phase execution (`endBlockFunc` followed by `valUpdateFunc`) started from
the empty accumulator that `MM.EndBlock` creates: if at least two calls of the execution
report a non-empty validator-update list (a legacy end-block return value or the result of
`UpdateValidators`, returned without error), as is the case when two modules each report
one, then the execution ends in the error "validator end block updates already set by a
previous module" and returns no validator-update list. -/
theorem two_reports_conflict (m : MM σ) (w : Exec σ)
    (h : 2 ≤ ((w.newCalls (endPhase m (MM.EndBlock.validatorUpdates, w)).1.2).filter
      Invocation.reports).length) :
    (endPhase m (MM.EndBlock.validatorUpdates, w)).2 = (none, some errValUpdatesAlreadySet) := by
  obtain ⟨new1, hc1, hconf1, hnil1⟩ := endBlockFunc_reports m (MM.EndBlock.validatorUpdates, w)
  have hheld : held MM.EndBlock.validatorUpdates = 0 := rfl
  simp only [hheld, Nat.zero_add] at hconf1 hnil1
  have hc1' : (m.endBlockFunc (MM.EndBlock.validatorUpdates, w)).1.2.calls = w.calls ++ new1 :=
    hc1
  cases hr : (m.endBlockFunc (MM.EndBlock.validatorUpdates, w)).2 with
  | some err =>
    have he : endPhase m (MM.EndBlock.validatorUpdates, w) =
        ((m.endBlockFunc (MM.EndBlock.validatorUpdates, w)).1, (none, some err)) := by
      simp only [endPhase, hr]
    rw [he] at h ⊢
    rw [newCalls_of_append hc1'] at h
    have := hconf1 h
    rw [hr] at this
    rw [this]
  | none =>
    have he : endPhase m (MM.EndBlock.validatorUpdates, w) =
        m.valUpdateFunc (m.endBlockFunc (MM.EndBlock.validatorUpdates, w)).1 := by
      simp only [endPhase, hr]
    obtain ⟨new2, hc2, hconf2, _⟩ :=
      valUpdateFunc_loop_reports m (m.endBlockFunc (MM.EndBlock.validatorUpdates, w)).1
    have hcalls : (m.valUpdateFunc (m.endBlockFunc (MM.EndBlock.validatorUpdates, w)).1).1.2.calls
        = w.calls ++ (new1 ++ new2) := by
      have : (m.valUpdateFunc (m.endBlockFunc (MM.EndBlock.validatorUpdates, w)).1).1 =
          (MM.valUpdateFunc.loop m (m.endBlockFunc (MM.EndBlock.validatorUpdates, w)).1).1 := by
        simp only [MM.valUpdateFunc]
        split <;> rfl
      rw [this, hc2, hc1', List.append_assoc]
    rw [he] at h ⊢
    rw [newCalls_of_append hcalls, List.filter_append, List.length_append] at h
    rw [hnil1 hr] at hconf2
    have hl := hconf2 h
    simp only [MM.valUpdateFunc, hl]

/-- C4, witness: the legacy end-blocker a and the module b with `UpdateValidators` each
report one update, and so do the two legacy end-blockers of `managerABC`; both executions
end in the conflict error. -/
theorem two_reports_conflict_witness :
    (2 ≤ ((exec0.newCalls (endPhase managerVal (MM.EndBlock.validatorUpdates, exec0)).1.2).filter
        Invocation.reports).length ∧
      (endPhase managerVal (MM.EndBlock.validatorUpdates, exec0)).2 =
        (none, some errValUpdatesAlreadySet)) ∧
    (2 ≤ ((exec0.newCalls (endPhase managerABC (MM.EndBlock.validatorUpdates, exec0)).1.2).filter
        Invocation.reports).length ∧
      (endPhase managerABC (MM.EndBlock.validatorUpdates, exec0)).2 =
        (none, some errValUpdatesAlreadySet)) :=
  ⟨⟨by decide, two_reports_conflict managerVal exec0 (by decide)⟩,
   ⟨by decide, two_reports_conflict managerABC exec0 (by decide)⟩⟩

/-- C5, the code at the failing input. `MM.EndBlock` is called once and the pair of
closures it returns runs the end phase of two successive blocks, so the second execution
starts from the accumulator the first one left. With the single module staking, whose
`UpdateValidators` returns one update in each block: the first execution returns that
update, the second ends in the error "validator end block updates already set by a
previous module". With a module that returns `update1` in the first block and `update2` in
the second the outcome is the same, and the accumulator still holds `update1`. -/
theorem accumulator_not_reset :
    (NewModuleManager id registrarOk managerOne.config modulesOne).toOption.isSome = true ∧
    (endPhase managerOne (MM.EndBlock.validatorUpdates, exec0)).2 = (some [update1], none) ∧
    (endPhase managerOne (endPhase managerOne (MM.EndBlock.validatorUpdates, exec0)).1).2 =
      (none, some errValUpdatesAlreadySet) ∧
    (endPhase managerHeight (MM.EndBlock.validatorUpdates, ⟨0, []⟩)).2 =
      (some [update1], none) ∧
    (endPhase managerHeight
        ((endPhase managerHeight (MM.EndBlock.validatorUpdates, ⟨0, []⟩)).1.1, ⟨1, []⟩)).2 =
      (none, some errValUpdatesAlreadySet) ∧
    (endPhase managerHeight
        ((endPhase managerHeight (MM.EndBlock.validatorUpdates, ⟨0, []⟩)).1.1, ⟨1, []⟩)).1.1 =
      [update1] := by
  refine ⟨by decide, by decide, by decide, by decide, by decide, by decide⟩

/-- A map read at the key just assigned gives the assigned value. -/
theorem lookup_set_self (vm : VersionMap) (k : String) (v : Nat) :
    List.lookup k (VersionMap.set vm k v) = some v := by
  induction vm with
  | nil => simp [VersionMap.set, List.lookup]
  | cons e vm ih =>
    obtain ⟨k', v'⟩ := e
    by_cases h : k' = k
    · simp [VersionMap.set, h, List.lookup]
    · have h' : (k == k') = false := by simpa using fun e => h e.symm
      simp [VersionMap.set, h, List.lookup, h', ih]

/-- An assignment leaves the other keys of a map as they were. -/
theorem lookup_set_other (vm : VersionMap) (k x : String) (v : Nat) (hx : x ≠ k) :
    List.lookup x (VersionMap.set vm k v) = List.lookup x vm := by
  induction vm with
  | nil =>
    have h' : (x == k) = false := by simpa using hx
    simp [VersionMap.set, List.lookup, h']
  | cons e vm ih =>
    obtain ⟨k', v'⟩ := e
    by_cases h : k' = k
    · subst h
      have h' : (x == k') = false := by simpa using hx
      simp [VersionMap.set, List.lookup, h']
    · simp only [VersionMap.set, h, if_false, List.lookup]
      rw [ih]

/-- A turn of `RunMigrations` that goes on records the version of the name and has made the
calls `turnCalls`. -/
theorem runMigration_success (m : MM σ) (fromVM : VersionMap) (n : String)
    (s : VersionMap × Exec σ) (h : (m.runMigration fromVM n s).2 = none) :
    (m.runMigration fromVM n s).1.1 = s.1.set n (m.toVersion n) ∧
    (m.runMigration fromVM n s).1.2.calls = s.2.calls ++ m.turnCalls fromVM n := by
  unfold MM.runMigration at h ⊢
  unfold MM.turnCalls MM.migrationMethod
  cases hf : List.lookup n fromVM with
  | some v =>
    simp only [hf] at h ⊢
    cases hr : (m.migrationRegistrar.RunModuleMigrations s.2.ctx n v (m.toVersion n)).2 with
    | some e => simp [hr] at h
    | none => simp [hr, Exec.record]
  | none =>
    simp only [hf] at h ⊢
    cases hg : (m.module n).map AppModule.Genesis with
    | none => simp [hg]
    | some g =>
      cases g with
      | absent => simp [hg]
      | HasGenesis d f =>
        simp only [hg] at h ⊢
        cases hr : (f s.2.ctx d).2 with
        | some e => simp [hr] at h
        | none => simp [hr, Exec.record]
      | SdkHasGenesis d f => simp [hg, Exec.record]
      | HasABCIGenesis d f =>
        simp only [hg] at h ⊢
        by_cases hl : (f s.2.ctx d).2.length > 0
        · simp [hl] at h
        · have he : (f s.2.ctx d).2 = [] := by
            cases hs1 : (f s.2.ctx d).2 with
            | nil => rfl
            | cons a l => rw [hs1] at hl; simp at hl
          simp [hl, Exec.record, he]

/-- A loop of `RunMigrations` that returns nil has made the calls of every turn, has recorded
the declared version of every name of the order, and has left every other key. -/
theorem runMigrations_loop_success (m : MM σ) (fromVM : VersionMap) (names : List String)
    (s : VersionMap × Exec σ) (h : (forRange (m.runMigration fromVM) names s).2 = none) :
    (forRange (m.runMigration fromVM) names s).1.2.calls =
      s.2.calls ++ names.flatMap (m.turnCalls fromVM) ∧
    (∀ n ∈ names, List.lookup n (forRange (m.runMigration fromVM) names s).1.1 =
      some (m.toVersion n)) ∧
    (∀ n, n ∉ names → List.lookup n (forRange (m.runMigration fromVM) names s).1.1 =
      List.lookup n s.1) := by
  induction names generalizing s with
  | nil => simp [forRange]
  | cons x xs ih =>
    cases hb : m.runMigration fromVM x s with
    | mk s1 r1 =>
      cases r1 with
      | some r => simp [forRange, hb] at h
      | none =>
        have hstep := runMigration_success m fromVM x s (by rw [hb])
        rw [hb] at hstep
        simp only at hstep
        simp only [forRange, hb] at h ⊢
        obtain ⟨ih1, ih2, ih3⟩ := ih s1 h
        refine ⟨?_, ?_, ?_⟩
        · rw [ih1, hstep.2]; simp [List.flatMap_cons]
        · intro n hn
          by_cases hmem : n ∈ xs
          · exact ih2 n hmem
          · have hnx : n = x := by
              rcases List.mem_cons.1 hn with h' | h'
              · exact h'
              · exact absurd h' hmem
            rw [ih3 n hmem, hstep.1, hnx]
            exact lookup_set_self _ _ _
        · intro n hn
          have hnx : n ≠ x := fun e => hn (e ▸ List.mem_cons_self _ _)
          have hmem : n ∉ xs := fun e => hn (List.mem_cons_of_mem _ e)
          rw [ih3 n hmem, hstep.1]
          exact lookup_set_other _ _ _ _ hnx

/-- The calls of a turn concern the module of the turn. -/
theorem turnCalls_name (m : MM σ) (fromVM : VersionMap) (n : String) :
    ∀ c ∈ m.turnCalls fromVM n, c.moduleName = n := by
  intro c hc
  unfold MM.turnCalls at hc
  cases hm : m.migrationMethod fromVM n with
  | none => simp [hm] at hc
  | some meth => simp [hm] at hc; rw [hc]

/-- For a name that occurs once in the order, the calls that concern it are those of its turn. -/
theorem callsOf_flatMap (m : MM σ) (fromVM : VersionMap) (n : String) (names : List String)
    (hcount : names.count n = 1) :
    callsOf n (names.flatMap (m.turnCalls fromVM)) = m.turnCalls fromVM n := by
  induction names with
  | nil => simp at hcount
  | cons x xs ih =>
    have hself : callsOf n (m.turnCalls fromVM n) = m.turnCalls fromVM n := by
      unfold callsOf
      rw [List.filter_eq_self]
      intro c hc
      simp [turnCalls_name m fromVM n c hc]
    have hother : ∀ ys : List String, n ∉ ys →
        callsOf n (ys.flatMap (m.turnCalls fromVM)) = [] := by
      intro ys hn
      unfold callsOf
      rw [List.filter_eq_nil_iff]
      intro c hc
      obtain ⟨y, hy, hcy⟩ := List.mem_flatMap.1 hc
      have := turnCalls_name m fromVM y c hcy
      simp only [decide_eq_true_eq]
      intro e
      exact hn (e ▸ this ▸ hy)
    by_cases hx : x = n
    · subst hx
      have hn : x ∉ xs := by
        intro hmem
        have := List.count_pos_iff.2 hmem
        simp at hcount
        omega
      have e1 := hother xs hn
      unfold callsOf at e1 hself ⊢
      rw [List.flatMap_cons, List.filter_append, e1, hself]
      simp
    · have hc' : xs.count n = 1 := by
        rw [List.count_cons_of_ne (fun e => hx e.symm)] at hcount
        exact hcount
      have e1 := hother [x] (by simpa using fun e => hx e.symm)
      have e2 := ih hc'
      unfold callsOf at e1 e2 ⊢
      simp only [List.flatMap_cons, List.flatMap_nil, List.append_nil] at e1
      rw [List.flatMap_cons, List.filter_append, e1, e2]
      simp

/-- Every loop of `RunMigrations` goes through the whole order or stops at one entry. -/
theorem runMigrations_trace (m : MM σ) (fromVM : VersionMap) (names : List String)
    (s : VersionMap × Exec σ) :
    ∃ new, (forRange (m.runMigration fromVM) names s).1.2.calls = s.2.calls ++ new ∧
      (Completed (m.migrates fromVM) names new (forRange (m.runMigration fromVM) names s).2 ∨
       Aborted (m.migrates fromVM) names new (forRange (m.runMigration fromVM) names s).2
         (fun _ _ _ => True)) := by
  apply forRange_trace (fun s : VersionMap × Exec σ => s.2.calls) (m.migrates fromVM)
    (fun _ _ _ => True)
  · intro n s h
    unfold MM.migrates MM.migrationMethod at h
    unfold MM.runMigration
    cases hf : List.lookup n fromVM with
    | some v => simp [hf] at h
    | none =>
      simp only [hf] at h ⊢
      cases hg : (m.module n).map AppModule.Genesis with
      | none => simp [hg]
      | some g =>
        cases g with
        | absent => simp [hg]
        | HasGenesis d f => simp [hg] at h
        | SdkHasGenesis d f => simp [hg] at h
        | HasABCIGenesis d f => simp [hg] at h
  · intro n s _
    unfold MM.runMigration
    cases hf : List.lookup n fromVM with
    | some v =>
      refine ⟨⟨n, .RunModuleMigrations v (m.toVersion n), [],
        (m.migrationRegistrar.RunModuleMigrations s.2.ctx n v (m.toVersion n)).2⟩, ?_, rfl, ?_,
        fun _ _ => trivial⟩
      · cases hr : (m.migrationRegistrar.RunModuleMigrations s.2.ctx n v (m.toVersion n)).2 <;>
          simp [hr, Exec.record]
      · cases hr : (m.migrationRegistrar.RunModuleMigrations s.2.ctx n v (m.toVersion n)).2 <;>
          simp [hr]
    | none =>
      rename_i hcap
      unfold MM.migrates MM.migrationMethod at hcap
      simp only [hf] at hcap ⊢
      cases hg : (m.module n).map AppModule.Genesis with
      | none => simp [hg] at hcap
      | some g =>
        cases g with
        | absent => simp [hg] at hcap
        | HasGenesis d f =>
          refine ⟨⟨n, .InitGenesis d, [], (f s.2.ctx d).2⟩, ?_, rfl, ?_, fun _ _ => trivial⟩
          · cases hr : (f s.2.ctx d).2 <;> simp [hr, Exec.record]
          · cases hr : (f s.2.ctx d).2 <;> simp [hr]
        | SdkHasGenesis d f =>
          exact ⟨⟨n, .SdkInitGenesis d, [], none⟩, by simp [Exec.record], rfl, by simp,
            fun _ _ => trivial⟩
        | HasABCIGenesis d f =>
          refine ⟨⟨n, .ABCIInitGenesis d, (f s.2.ctx d).2, none⟩, ?_, rfl, by simp,
            fun _ _ => trivial⟩
          simp only []
          split_ifs <;> simp [Exec.record]

/-- The state `RunMigrations` leaves is that of its loop. -/
theorem RunMigrations_calls (m : MM σ) (fromVM : VersionMap) (w : Exec σ) :
    (m.RunMigrations fromVM w).1 =
      (forRange (m.runMigration fromVM) m.config.OrderMigrations ([], w)).1.2 := by
  unfold MM.RunMigrations
  simp only []
  split <;> rfl

/-- The values `RunMigrations` returns, from the outcome of its loop. -/
theorem RunMigrations_result (m : MM σ) (fromVM : VersionMap) (w : Exec σ) :
    (m.RunMigrations fromVM w).2 =
      match (forRange (m.runMigration fromVM) m.config.OrderMigrations ([], w)).2 with
      | some err => (none, some err)
      | none => (some (forRange (m.runMigration fromVM) m.config.OrderMigrations ([], w)).1.1,
          none) := by
  unfold MM.RunMigrations
  simp only []
  split <;> simp_all

/-- C6. For every previous version map `fromVM` for which `RunMigrations` returns without
error, a map is returned and it assigns to every module name in the configured migration
order the version `toVersion` of the name: the declared `ConsensusVersion()` of the module,
or 0 when the module does not implement `ConsensusVersion` (or no module is registered under
the name). Nothing is assumed of `fromVM`, so this holds for names present in it (migration
path) and absent from it (genesis path). -/
theorem runMigrations_versions (m : MM σ) (fromVM : VersionMap) (w : Exec σ)
    (h : (m.RunMigrations fromVM w).2.2 = none) :
    ∃ vm, (m.RunMigrations fromVM w).2.1 = some vm ∧
      ∀ n ∈ m.config.OrderMigrations,
        List.lookup n vm = some (m.toVersion n) ∧
        (∀ v, (m.module n).bind AppModule.ConsensusVersion = some v →
          List.lookup n vm = some v) ∧
        ((m.module n).bind AppModule.ConsensusVersion = none → List.lookup n vm = some 0) := by
  rw [RunMigrations_result] at h ⊢
  cases hr : (forRange (m.runMigration fromVM) m.config.OrderMigrations ([], w)).2 with
  | some err => simp [hr] at h
  | none =>
    obtain ⟨_, h2, _⟩ := runMigrations_loop_success m fromVM m.config.OrderMigrations ([], w) hr
    refine ⟨_, rfl, ?_⟩
    intro n hn
    have := h2 n hn
    refine ⟨this, ?_, ?_⟩
    · intro v hv
      rw [this]; simp [MM.toVersion, hv]
    · intro hv
      rw [this]; simp [MM.toVersion, hv]

/-- C6, witness: with `fromVM` = {A:1}, A declaring version 2 and the new module B declaring
version 1, the returned map is {A:2, B:1}. -/
theorem runMigrations_versions_witness :
    ((managerAB registrarOk ["A", "B"]).RunMigrations [("A", 1)] exec0).2.2 = none ∧
    ((managerAB registrarOk ["A", "B"]).RunMigrations [("A", 1)] exec0).2.1 =
      some [("A", 2), ("B", 1)] ∧
    ∃ vm, ((managerAB registrarOk ["A", "B"]).RunMigrations [("A", 1)] exec0).2.1 = some vm ∧
      ∀ n ∈ (managerAB registrarOk ["A", "B"]).config.OrderMigrations,
        List.lookup n vm = some ((managerAB registrarOk ["A", "B"]).toVersion n) ∧
        (∀ v, ((managerAB registrarOk ["A", "B"]).module n).bind AppModule.ConsensusVersion
            = some v → List.lookup n vm = some v) ∧
        (((managerAB registrarOk ["A", "B"]).module n).bind AppModule.ConsensusVersion = none →
          List.lookup n vm = some 0) :=
  ⟨by decide, by decide,
    runMigrations_versions (managerAB registrarOk ["A", "B"]) [("A", 1)] exec0 (by decide)⟩

/-- C7 (amended). In a run of `RunMigrations` that returns without error, for every module
name that appears once in the migration order: if the name is a key of `fromVM`, the calls
that concern it are the one call of `RunModuleMigrations` with the name, `fromVM[name]` and
the declared version, so no `InitGenesis` is called; if the name is not a key of `fromVM`,
they are the one call of the `InitGenesis` of the genesis capability of its module on its own
`DefaultGenesis` payload, none at all when the module has no genesis capability, so
`RunModuleMigrations` is never called for it. -/
theorem runMigrations_paths (m : MM σ) (fromVM : VersionMap) (w : Exec σ)
    (h : (m.RunMigrations fromVM w).2.2 = none) (n : String)
    (hn : m.config.OrderMigrations.count n = 1) :
    (∀ v, List.lookup n fromVM = some v →
      callsOf n (w.newCalls (m.RunMigrations fromVM w).1) =
        [⟨n, .RunModuleMigrations v (m.toVersion n), [], none⟩]) ∧
    (List.lookup n fromVM = none →
      callsOf n (w.newCalls (m.RunMigrations fromVM w).1) =
        match (m.module n).map AppModule.Genesis with
        | some (.HasGenesis DefaultGenesis _) => [⟨n, .InitGenesis DefaultGenesis, [], none⟩]
        | some (.SdkHasGenesis DefaultGenesis _) =>
          [⟨n, .SdkInitGenesis DefaultGenesis, [], none⟩]
        | some (.HasABCIGenesis DefaultGenesis _) =>
          [⟨n, .ABCIInitGenesis DefaultGenesis, [], none⟩]
        | _ => []) := by
  rw [RunMigrations_result] at h
  have hr : (forRange (m.runMigration fromVM) m.config.OrderMigrations ([], w)).2 = none := by
    cases hr : (forRange (m.runMigration fromVM) m.config.OrderMigrations ([], w)).2 with
    | some err => simp [hr] at h
    | none => rfl
  obtain ⟨h1, _, _⟩ := runMigrations_loop_success m fromVM m.config.OrderMigrations ([], w) hr
  have hcalls : (m.RunMigrations fromVM w).1.calls =
      w.calls ++ m.config.OrderMigrations.flatMap (m.turnCalls fromVM) := by
    rw [RunMigrations_calls]; exact h1
  rw [newCalls_of_append hcalls, callsOf_flatMap m fromVM n _ hn]
  constructor
  · intro v hv
    simp [MM.turnCalls, MM.migrationMethod, hv]
  · intro hv
    unfold MM.turnCalls MM.migrationMethod
    simp only [hv]
    cases hg : (m.module n).map AppModule.Genesis with
    | none => rfl
    | some g => cases g <;> rfl

/-- C7, witness: the scenario of the spec. With `fromVM` = {A:1}, A declaring version 2 and
the new module B declaring version 1, the run returns {A:2, B:1} after one migration call
for A and one genesis call for B. -/
theorem runMigrations_paths_witness :
    ((managerAB registrarOk ["A", "B"]).RunMigrations [("A", 1)] exec0).2 =
      (some [("A", 2), ("B", 1)], none) ∧
    exec0.newCalls ((managerAB registrarOk ["A", "B"]).RunMigrations [("A", 1)] exec0).1 =
      [⟨"A", .RunModuleMigrations 1 2, [], none⟩, ⟨"B", .InitGenesis "{}", [], none⟩] ∧
    callsOf "A"
        (exec0.newCalls ((managerAB registrarOk ["A", "B"]).RunMigrations [("A", 1)] exec0).1) =
      [⟨"A", .RunModuleMigrations 1 ((managerAB registrarOk ["A", "B"]).toVersion "A"), [],
        none⟩] ∧
    callsOf "B"
        (exec0.newCalls ((managerAB registrarOk ["A", "B"]).RunMigrations [("A", 1)] exec0).1) =
      [⟨"B", .InitGenesis "{}", [], none⟩] :=
  ⟨by decide, by decide,
    (runMigrations_paths (managerAB registrarOk ["A", "B"]) [("A", 1)] exec0 (by decide) "A"
      (by decide)).1 1 (by decide),
    (runMigrations_paths (managerAB registrarOk ["A", "B"]) [("A", 1)] exec0 (by decide) "B"
      (by decide)).2 (by decide)⟩

/-- C7, counterexample. With the order A, B and `fromVM` = {A:1, B:1}, where the migration
of A fails, B appears once in the order and is a key of `fromVM`, yet `RunModuleMigrations`
is not called for it: the run stops at A. And with the order A, C and `fromVM` = {A:1}, the
new module C, which has no genesis capability, appears once and is no key of `fromVM`, yet
no `InitGenesis` is called for it in a run that succeeds. -/
theorem runMigrations_paths_counterexample :
    ((managerAB registrarFailA ["A", "B"]).config.OrderMigrations.count "B" = 1 ∧
      List.lookup "B" [("A", 1), ("B", 1)] = some 1 ∧
      callsOf "B" (exec0.newCalls
        ((managerAB registrarFailA ["A", "B"]).RunMigrations [("A", 1), ("B", 1)] exec0).1)
        = []) ∧
    ((managerAB registrarOk ["A", "C"]).config.OrderMigrations.count "C" = 1 ∧
      List.lookup "C" [("A", 1)] = none ∧
      ((managerAB registrarOk ["A", "C"]).RunMigrations [("A", 1)] exec0).2 =
        (some [("A", 2), ("C", 0)], none) ∧
      callsOf "C" (exec0.newCalls
        ((managerAB registrarOk ["A", "C"]).RunMigrations [("A", 1)] exec0).1) = []) := by
  refine ⟨⟨by decide, by decide, by decide⟩, by decide, by decide, by decide, by decide⟩

/-- C8. If a call made by `RunMigrations`, the migration of a module
(`RunModuleMigrations`) or the genesis initialization of a new module, returns an error,
then `RunMigrations` returns a nil version map together with a non-nil error, and that call
is the last one: the calls before it are those of the entries before it in the migration
order, none of which failed, and no later entry is migrated or genesis-initialized. A nil
map is returned exactly when an error is returned, so no partially filled map is ever
returned alongside an error. -/
theorem runMigrations_abort (m : MM σ) (fromVM : VersionMap) (w : Exec σ) :
    (∀ c ∈ w.newCalls (m.RunMigrations fromVM w).1, c.err ≠ none →
      (∃ r, (m.RunMigrations fromVM w).2 = (none, some r)) ∧
      ∃ pre post init, m.config.OrderMigrations = pre ++ c.moduleName :: post ∧
        w.newCalls (m.RunMigrations fromVM w).1 = init ++ [c] ∧
        init.map Invocation.moduleName = pre.filter (m.migrates fromVM) ∧
        ∀ d ∈ init, d.err = none) ∧
    ((m.RunMigrations fromVM w).2.1 = none ↔ (m.RunMigrations fromVM w).2.2 ≠ none) := by
  constructor
  · obtain ⟨new, hnew, ht⟩ := runMigrations_trace m fromVM m.config.OrderMigrations ([], w)
    have hcalls : (m.RunMigrations fromVM w).1.calls = w.calls ++ new := by
      rw [RunMigrations_calls]; exact hnew
    rw [newCalls_of_append hcalls]
    intro c hc hce
    rcases ht with ⟨_, _, hne⟩ |
      ⟨pre, n, post, init, c', r, hnames, _, hnew', hcn, hinit, hne, hres, _⟩
    · exact absurd (hne c hc) hce
    · have hcc : c = c' := by
        rw [hnew'] at hc
        rcases List.mem_append.1 hc with h | h
        · exact absurd (hne c h) hce
        · simpa using h
      subst hcc
      subst hcn
      refine ⟨⟨r, ?_⟩, pre, post, init, hnames, hnew', hinit, hne⟩
      rw [RunMigrations_result, hres]
  · rw [RunMigrations_result]
    cases hr : (forRange (m.runMigration fromVM) m.config.OrderMigrations ([], w)).2 <;> simp

/-- C8, witness: the migration of A fails in the order A, B, and the genesis initialization
of G fails in the order G, H; each run returns a nil map and an error after that one call. -/
theorem runMigrations_abort_witness :
    ((⟨"A", .RunModuleMigrations 1 2, [], some boom⟩ : Invocation) ∈ exec0.newCalls
        ((managerAB registrarFailA ["A", "B"]).RunMigrations [("A", 1), ("B", 1)] exec0).1 ∧
      (⟨"A", .RunModuleMigrations 1 2, [], some boom⟩ : Invocation).err ≠ none ∧
      ((managerAB registrarFailA ["A", "B"]).RunMigrations [("A", 1), ("B", 1)] exec0).2 =
        (none, some boom) ∧
      exec0.newCalls
        ((managerAB registrarFailA ["A", "B"]).RunMigrations [("A", 1), ("B", 1)] exec0).1 =
        [⟨"A", .RunModuleMigrations 1 2, [], some boom⟩] ∧
      ∃ r, ((managerAB registrarFailA ["A", "B"]).RunMigrations [("A", 1), ("B", 1)] exec0).2 =
        (none, some r)) ∧
    ((⟨"G", .InitGenesis "{}", [], some boom⟩ : Invocation) ∈ exec0.newCalls
        (managerGH.RunMigrations [] exec0).1 ∧
      (⟨"G", .InitGenesis "{}", [], some boom⟩ : Invocation).err ≠ none ∧
      (managerGH.RunMigrations [] exec0).2 =
        (none, some (.Wrap "failed to run InitGenesis for G: boom" boom)) ∧
      exec0.newCalls (managerGH.RunMigrations [] exec0).1 =
        [⟨"G", .InitGenesis "{}", [], some boom⟩] ∧
      ∃ r, (managerGH.RunMigrations [] exec0).2 = (none, some r)) :=
  ⟨⟨by decide, by decide, by decide, by decide,
    ((runMigrations_abort (managerAB registrarFailA ["A", "B"]) [("A", 1), ("B", 1)] exec0).1
      ⟨"A", .RunModuleMigrations 1 2, [], some boom⟩ (by decide) (by decide)).1⟩,
   ⟨by decide, by decide, by decide, by decide,
    ((runMigrations_abort managerGH [] exec0).1 ⟨"G", .InitGenesis "{}", [], some boom⟩
      (by decide) (by decide)).1⟩⟩

/-- In a completed run a module with the capability is called once per occurrence of its
name in the list. -/
theorem count_calls_of_completed {cap : String → Bool} {names : List String}
    {new : List Invocation} {result : Option GoError} (h : Completed cap names new result)
    (x : String) (hx : cap x = true) :
    (new.map Invocation.moduleName).count x = names.count x := by
  rw [h.2.1]
  exact List.count_filter hx

/-- A manager that the constructor returns is `managerOf` and passed `validateConfig`. -/
theorem ok_of_NewModuleManager {D : List String → List String} {reg : MigrationRegistrar σ}
    {config : Config} {modules : List (String × AppModule σ)} {m : MM σ}
    (h : NewModuleManager D reg config modules = .ok m) :
    m = managerOf D reg config modules ∧ m.validateConfig = none := by
  rw [NewModuleManager_eq] at h
  cases hv : (managerOf D reg config modules).validateConfig with
  | some err => rw [hv] at h; cases h
  | none =>
    rw [hv] at h
    injection h with h
    subst h
    exact ⟨rfl, hv⟩

/-- C9 (amended). For every module manager that `NewModuleManager` returns successfully, and
for every phase, each registered module that implements the capability of the phase appears
at least once in the ordering list of the phase; a run of the phase function that returns
nil calls it once per occurrence of its name in the list, hence exactly once when the name
occurs once. Nothing rejects a list in which the name occurs twice. -/
theorem constructed_lists_cover (D : List String → List String) (reg : MigrationRegistrar σ)
    (config : Config) (modules : List (String × AppModule σ)) (m : MM σ)
    (h : NewModuleManager D reg config modules = .ok m) (p : Phase) (x : String)
    (hx : x ∈ m.modules.map Prod.fst) (hcap : p.has m x = true)
    (w : Exec σ) (tx : Tx) (acc : List ValidatorUpdate) :
    1 ≤ (p.list m.config).count x ∧
    (p = .PreBlockers → (m.PreBlocker w).2 = none →
      ((w.newCalls (m.PreBlocker w).1).map Invocation.moduleName).count x =
        m.config.PreBlockers.count x) ∧
    (p = .BeginBlockers → (m.BeginBlock w).2 = none →
      ((w.newCalls (m.BeginBlock w).1).map Invocation.moduleName).count x =
        m.config.BeginBlockers.count x) ∧
    (p = .EndBlockers → (m.endBlockFunc (acc, w)).2 = none →
      ((w.newCalls (m.endBlockFunc (acc, w)).1.2).map Invocation.moduleName).count x =
        m.config.EndBlockers.count x) ∧
    (p = .TxValidation → (m.TxValidation tx w).2 = none →
      ((w.newCalls (m.TxValidation tx w).1).map Invocation.moduleName).count x =
        m.config.TxValidation.count x) := by
  obtain ⟨_, hv⟩ := ok_of_NewModuleManager h
  refine ⟨?_, ?_, ?_, ?_, ?_⟩
  · have hmiss : x ∉ m.missingOf p := by rw [validateConfig_none m hv p]; simp
    rw [mem_missingOf] at hmiss
    have hmem : x ∈ p.list m.config := by
      by_contra hn
      exact hmiss ⟨hx, hcap, hn⟩
    exact List.count_pos_iff.2 hmem
  · intro hp hr
    subst hp
    obtain ⟨new, hnew, ht⟩ := PreBlocker_trace m w
    rw [newCalls_of_append hnew]
    exact count_calls_of_completed (completed_of_nil ht hr) x hcap
  · intro hp hr
    subst hp
    obtain ⟨new, hnew, ht⟩ := BeginBlock_trace m w
    rw [newCalls_of_append hnew]
    exact count_calls_of_completed (completed_of_nil ht hr) x hcap
  · intro hp hr
    subst hp
    obtain ⟨new, hnew, ht⟩ := endBlockFunc_trace m (acc, w)
    have hnew' : (m.endBlockFunc (acc, w)).1.2.calls = w.calls ++ new := hnew
    rw [newCalls_of_append hnew']
    exact count_calls_of_completed (completed_of_nil ht hr) x hcap
  · intro hp hr
    subst hp
    obtain ⟨new, hnew, ht⟩ := TxValidation_trace m tx w
    rw [newCalls_of_append hnew]
    exact count_calls_of_completed (completed_of_nil ht hr) x hcap

/-- C9, witness: the scenario of the spec is accepted by the constructor; X is in the
begin-block order and is called once. -/
theorem constructed_lists_cover_witness :
    NewModuleManager id registrarOk scenarioXYZ.config scenarioXYZ.modules = .ok scenarioXYZ ∧
    "X" ∈ scenarioXYZ.modules.map Prod.fst ∧
    Phase.BeginBlockers.has scenarioXYZ "X" = true ∧
    (1 ≤ (Phase.BeginBlockers.list scenarioXYZ.config).count "X" ∧
      ((exec0.newCalls (scenarioXYZ.BeginBlock exec0).1).map Invocation.moduleName).count "X" =
        scenarioXYZ.config.BeginBlockers.count "X") :=
  have h := constructed_lists_cover id registrarOk scenarioXYZ.config scenarioXYZ.modules
    scenarioXYZ rfl .BeginBlockers "X" (by decide) (by decide) exec0 [] []
  ⟨rfl, by decide, by decide, h.1, h.2.2.1 rfl (by decide)⟩

/-- C9, counterexample. The begin-block order a, a, b names the registered begin-blocker a
twice; `NewModuleManager` accepts it and returns a manager whose `BeginBlock` calls a twice
in one execution. -/
theorem constructed_lists_cover_counterexample :
    ∃ m : MM Unit, NewModuleManager id registrarOk managerDup.config modulesDup = .ok m ∧
      "a" ∈ m.modules.map Prod.fst ∧
      Phase.BeginBlockers.has m "a" = true ∧
      (Phase.BeginBlockers.list m.config).count "a" = 2 ∧
      (m.BeginBlock exec0).2 = none ∧
      (exec0.newCalls (m.BeginBlock exec0).1).map Invocation.moduleName = ["a", "a", "b"] :=
  ⟨managerDup, rfl, by decide, by decide, by decide, by decide, by decide⟩

/-- C10, the code at the failing inputs. A module registers the service `pkg.Msg`
and its `RegisterServices` returns nil. (1) With a registry that cannot resolve the service,
`RegisterService` leaves the error in the field `err` of the configurator, and
`registerServices` returns nil. (2) When the request type is already registered in the
message router, `RegisterHandler` fails, the wrapped error is left in `err`, and
`registerServices` returns nil. (3) `MM.RegisterServices` over two modules that claim the
same request type returns nil, and the router keeps the one handler of the first. -/
theorem registerServices_drops_error :
    ((registerServices.c pcExample servicesMsg appEmpty []).err =
        some (errNoDescriptor "pkg.Msg") ∧
      (registerServices pcExample servicesMsg appEmpty []).2 = none) ∧
    ((registerServices pcExample servicesMsg appEmpty filesMsg).2 = none ∧
      (registerServices pcExample servicesMsg appEmpty filesMsg).1.msgRouterBuilder.handlers.map
        Prod.fst = ["pkg.Msg.Send"] ∧
      (registerServices.c pcExample servicesMsg
        (registerServices pcExample servicesMsg appEmpty filesMsg).1 filesMsg).err =
        some (.Wrap ("unable to register msg handler Send: "
          ++ "handler already registered: pkg.Msg.Send")
          (.New "handler already registered: pkg.Msg.Send")) ∧
      (registerServices pcExample servicesMsg
        (registerServices pcExample servicesMsg appEmpty filesMsg).1 filesMsg).2 = none) ∧
    ((MM.RegisterServices pcExample filesMsg managerSvc appEmpty).2 = none ∧
      (MM.RegisterServices pcExample filesMsg managerSvc appEmpty).1.2.msgRouterBuilder.handlers.map
        Prod.fst = ["pkg.Msg.Send"]) := by
  refine ⟨⟨by decide, by decide⟩, ⟨by decide, by decide, by decide, by decide⟩,
    by decide, by decide⟩

/-- A key found in a map is found, with the same value, in the map followed by more entries. -/
theorem lookup_append_left {V : Type} (k : String) (l1 l2 : List (String × V)) (v : V)
    (h : List.lookup k l1 = some v) : List.lookup k (l1 ++ l2) = some v := by
  induction l1 with
  | nil => simp at h
  | cons e l1 ih =>
    obtain ⟨k', v'⟩ := e
    simp only [List.cons_append, List.lookup_cons] at h ⊢
    cases hk : (k == k') with
    | true => rw [hk] at h; exact h
    | false => rw [hk] at h; exact ih h

/-- A key absent from a map is looked up in the entries that follow it. -/
theorem lookup_append_none {V : Type} (k : String) (l1 l2 : List (String × V))
    (h : List.lookup k l1 = none) : List.lookup k (l1 ++ l2) = List.lookup k l2 := by
  induction l1 with
  | nil => rfl
  | cons e l1 ih =>
    obtain ⟨k', v'⟩ := e
    simp only [List.cons_append, List.lookup_cons] at h ⊢
    cases hk : (k == k') with
    | true => rw [hk] at h; cases h
    | false => rw [hk] at h; exact ih h

/-- A name that is no key of a map is not found in it. -/
theorem lookup_none_of_not_mem {V : Type} (k : String) (l : List (String × V))
    (h : k ∉ l.map Prod.fst) : List.lookup k l = none := by
  induction l with
  | nil => rfl
  | cons e l ih =>
    obtain ⟨k', v'⟩ := e
    simp only [List.map_cons, List.mem_cons, not_or] at h
    have hk : (k == k') = false := by simpa using h.1
    simp only [List.lookup_cons, hk]
    exact ih h.2

/-- A value found under a key is an entry of the map. -/
theorem mem_keys_of_lookup {V : Type} (k : String) (l : List (String × V)) (v : V)
    (h : List.lookup k l = some v) : (k, v) ∈ l := by
  induction l with
  | nil => simp at h
  | cons e l ih =>
    obtain ⟨k', v'⟩ := e
    simp only [List.lookup_cons] at h
    cases hk : (k == k') with
    | true =>
      rw [hk] at h
      have : k = k' := by simpa using hk
      injection h with h
      subst h; subst this
      exact List.mem_cons_self _ _
    | false => rw [hk] at h; exact List.mem_cons_of_mem _ (ih h)

/-- In a map without repeated key every entry is found under its key. -/
theorem lookup_of_mem_nodup {V : Type} (l : List (String × V)) (hnd : (l.map Prod.fst).Nodup)
    (e : String × V) (he : e ∈ l) : List.lookup e.1 l = some e.2 := by
  induction l with
  | nil => simp at he
  | cons x l ih =>
    obtain ⟨k', v'⟩ := x
    simp only [List.map_cons, List.nodup_cons] at hnd
    rcases List.mem_cons.1 he with h | h
    · subst h; simp [List.lookup_cons]
    · have hne : e.1 ≠ k' := by
        intro heq
        exact hnd.1 (heq ▸ List.mem_map_of_mem Prod.fst h)
      have hk : (e.1 == k') = false := by simpa using hne
      simp only [List.lookup_cons, hk]
      exact ih hnd.2 h

/-- Assigning to an absent key adds the entry at the end. -/
theorem setModule_absent (ms : List (String × AppModule σ)) (name : String) (v : AppModule σ)
    (h : List.lookup name ms = none) : setModule ms name v = ms ++ [(name, v)] := by
  induction ms with
  | nil => rfl
  | cons e ms ih =>
    obtain ⟨k', v'⟩ := e
    simp only [List.lookup_cons] at h
    cases hk : (name == k') with
    | true => rw [hk] at h; cases h
    | false =>
      rw [hk] at h
      have hne : ¬ k' = name := by
        intro heq; subst heq; simp at hk
      simp only [setModule, hne, if_false, List.cons_append, ih h]

/-- The warning on a name mismatch leaves the module manager alone. -/
theorem warnName_manager (IsPrint : Char → Bool) (a : AppBuilder σ) (name : String)
    (appModule : AppModule σ) :
    (a.warnName IsPrint name appModule).app.moduleManager = a.app.moduleManager := by
  unfold AppBuilder.warnName
  cases appModule.Name with
  | none => rfl
  | some modName => simp only []; split_ifs <;> rfl

/-- One turn of the loop of `RegisterModules`: the name is registered already and the turn
returns the error without touching the module map, or it is not and the entry is added. -/
theorem registerModule_step (IsPrint : Char → Bool) (entry : String × AppModule σ)
    (a : AppBuilder σ) :
    (AppBuilder.registerModule IsPrint entry a).1.app.moduleManager.config = a.app.moduleManager.config ∧
    (AppBuilder.registerModule IsPrint entry a).1.app.moduleManager.migrationRegistrar =
      a.app.moduleManager.migrationRegistrar ∧
    (((AppBuilder.registerModule IsPrint entry a).2 = some (errModuleExists IsPrint entry.1) ∧
        (List.lookup entry.1 a.app.moduleManager.modules).isSome = true ∧
        (AppBuilder.registerModule IsPrint entry a).1.app.moduleManager.modules =
          a.app.moduleManager.modules) ∨
     ((AppBuilder.registerModule IsPrint entry a).2 = none ∧
        List.lookup entry.1 a.app.moduleManager.modules = none ∧
        (AppBuilder.registerModule IsPrint entry a).1.app.moduleManager.modules =
          a.app.moduleManager.modules ++ [entry])) := by
  obtain ⟨name, appModule⟩ := entry
  have hw := warnName_manager IsPrint a name appModule
  unfold AppBuilder.registerModule
  simp only []
  generalize a.warnName IsPrint name appModule = a0 at hw ⊢
  rw [← hw]
  cases hl : List.lookup name a0.app.moduleManager.modules with
  | some v => simp [hl]
  | none =>
    have hset := setModule_absent a0.app.moduleManager.modules name appModule hl
    cases hi : appModule.RegisterInterfaces <;> cases ha : appModule.RegisterLegacyAminoCodec <;>
      simp [hl, hset]

/-- The loop of `RegisterModules` adds the entries it visits before the first registered
name, whose names differ from each other and were absent before the call, and then stops
with the error of that name or ends with nil. -/
theorem RegisterModules_loop (IsPrint : Char → Bool) (mods : List (String × AppModule σ))
    (a : AppBuilder σ) :
    (a.RegisterModules IsPrint mods).1.app.moduleManager.config = a.app.moduleManager.config ∧
    (a.RegisterModules IsPrint mods).1.app.moduleManager.migrationRegistrar =
      a.app.moduleManager.migrationRegistrar ∧
    ∃ added rest, mods = added ++ rest ∧
      (a.RegisterModules IsPrint mods).1.app.moduleManager.modules =
        a.app.moduleManager.modules ++ added ∧
      (∀ x ∈ added, List.lookup x.1 a.app.moduleManager.modules = none) ∧
      (added.map Prod.fst).Nodup ∧
      (((a.RegisterModules IsPrint mods).2 = none ∧ rest = []) ∨
       (∃ e rest', rest = e :: rest' ∧
          (a.RegisterModules IsPrint mods).2 = some (errModuleExists IsPrint e.1) ∧
          (List.lookup e.1 (a.app.moduleManager.modules ++ added)).isSome = true)) := by
  unfold AppBuilder.RegisterModules
  induction mods generalizing a with
  | nil =>
    exact ⟨rfl, rfl, [], [], rfl, by simp [forRange], by simp, by simp, Or.inl ⟨rfl, rfl⟩⟩
  | cons e mods ih =>
    obtain ⟨hc, hr, hstep⟩ := registerModule_step IsPrint e a
    cases hb : AppBuilder.registerModule IsPrint e a with
    | mk a1 r1 =>
      rw [hb] at hc hr hstep
      simp only at hc hr hstep
      rcases hstep with ⟨h2, hl, hm⟩ | ⟨h2, hl, hm⟩
      · subst h2
        refine ⟨by simp [forRange, hb, hc], by simp [forRange, hb, hr], [], e :: mods, rfl,
          by simp [forRange, hb, hm], by simp, by simp,
          Or.inr ⟨e, mods, rfl, by simp [forRange, hb], ?_⟩⟩
        simpa using hl
      · subst h2
        obtain ⟨ihc, ihr, added, rest, hsplit, hmods, habs, hnd, hres⟩ := ih a1
        simp only [forRange, hb]
        refine ⟨by rw [ihc, hc], by rw [ihr, hr], e :: added, rest, by simp [hsplit],
          by rw [hmods, hm]; simp, ?_, ?_, ?_⟩
        · intro x hx
          rcases List.mem_cons.1 hx with h | h
          · rw [h]; exact hl
          · have := habs x h
            rw [hm] at this
            cases hlo : List.lookup x.1 a.app.moduleManager.modules with
            | none => rfl
            | some v => rw [lookup_append_left _ _ _ _ hlo] at this; cases this
        · rw [List.map_cons, List.nodup_cons]
          refine ⟨?_, hnd⟩
          intro hmem
          obtain ⟨x, hx, hxe⟩ := List.mem_map.1 hmem
          have := habs x hx
          rw [hm, hxe, lookup_append_none _ _ _ hl] at this
          simp [List.lookup] at this
        · rcases hres with ⟨h1, h2⟩ | ⟨e', rest', h1, h2, h3⟩
          · exact Or.inl ⟨h1, h2⟩
          · refine Or.inr ⟨e', rest', h1, h2, ?_⟩
            rw [hm] at h3
            simpa using h3

/-- A property that every turn of a loop keeps holds when the loop is left. -/
theorem forRange_invariant {α S R : Type} (P : S → Prop) (body : α → S → S × Option R)
    (hbody : ∀ x s, P s → P (body x s).1) (xs : List α) (s : S) (hs : P s) :
    P (forRange body xs s).1 := by
  induction xs generalizing s with
  | nil => exact hs
  | cons x xs ih =>
    have h1 := hbody x s hs
    cases hb : body x s with
    | mk s1 r1 =>
      rw [hb] at h1
      cases r1 with
      | some r => simpa [forRange, hb] using h1
      | none => simpa [forRange, hb] using ih s1 h1

/-- The method `MM.RegisterServices` leaves the module map and the ordering lists alone. -/
theorem RegisterServices_frame (pc : Protocompat σ) (files : Files) (m : MM σ) (app : App σ) :
    (MM.RegisterServices pc files m app).1.1.modules = m.modules ∧
    (MM.RegisterServices pc files m app).1.1.config = m.config := by
  unfold MM.RegisterServices
  apply forRange_invariant (fun s : MM σ × App σ => s.1.modules = m.modules ∧ s.1.config = m.config)
  · intro entry s hs
    simp only []
    split
    · exact hs
    · split <;> exact hs
  · exact ⟨rfl, rfl⟩

/-- C11 (amended). `AppBuilder.RegisterModules` and `MM.RegisterServices` do not change the
ordering lists of the manager, and `MM.RegisterServices` does not change its module map.
`AppBuilder.RegisterModules` does change the module map, by adding: the input is split into
the entries `added`, visited before the first name that is registered already, and the rest.
The names of `added` differ from each other and none was registered before the call; the
rest is empty and the result nil, or the rest starts with an entry whose name is registered
(before the call or by an entry of `added`) and the result is the error of that name. The
map after the call is the map before it followed by `added`, whatever is returned, so no
module registered before the call is removed, replaced or reordered, and the entries added
before an error stay. Nothing is stated of the property checked at construction for the
modules that were added. -/
theorem registerModules_frame (IsPrint : Char → Bool) (a : AppBuilder σ)
    (mods : List (String × AppModule σ))
    (pc : Protocompat σ) (files : Files) (m : MM σ) (app : App σ) :
    (a.RegisterModules IsPrint mods).1.app.moduleManager.config = a.app.moduleManager.config ∧
    (∃ added rest, mods = added ++ rest ∧
      (a.RegisterModules IsPrint mods).1.app.moduleManager.modules =
        a.app.moduleManager.modules ++ added ∧
      (∀ x ∈ added, List.lookup x.1 a.app.moduleManager.modules = none) ∧
      (added.map Prod.fst).Nodup ∧
      (((a.RegisterModules IsPrint mods).2 = none ∧ rest = []) ∨
       (∃ e rest', rest = e :: rest' ∧
          (a.RegisterModules IsPrint mods).2 = some (errModuleExists IsPrint e.1) ∧
          (List.lookup e.1 (a.app.moduleManager.modules ++ added)).isSome = true))) ∧
    (∀ name v, List.lookup name a.app.moduleManager.modules = some v →
      List.lookup name (a.RegisterModules IsPrint mods).1.app.moduleManager.modules = some v) ∧
    (MM.RegisterServices pc files m app).1.1.modules = m.modules ∧
    (MM.RegisterServices pc files m app).1.1.config = m.config := by
  obtain ⟨hc, _, added, rest, hsplit, hmods, habs, hnd, hres⟩ := RegisterModules_loop IsPrint mods a
  refine ⟨hc, ⟨added, rest, hsplit, hmods, habs, hnd, hres⟩, ?_,
    RegisterServices_frame pc files m app⟩
  intro name v hv
  rw [hmods]
  exact lookup_append_left _ _ _ _ hv

/-- C11, witness: on the manager of X, Y, Z, an input whose first name X is registered
leaves the module map as it was, and the input W, X adds W before it stops at X with the
error of X; W stays in the map. -/
theorem registerModules_frame_witness :
    (builderXYZ.RegisterModules isPrintLatin1
      [("X", moduleW), ("W", moduleW)]).1.app.moduleManager.config = scenarioXYZ.config ∧
    (builderXYZ.RegisterModules isPrintLatin1
      [("X", moduleW), ("W", moduleW)]).1.app.moduleManager.modules.map Prod.fst =
        ["X", "Y", "Z"] ∧
    (builderXYZ.RegisterModules isPrintLatin1
      [("W", moduleW), ("X", moduleW)]).1.app.moduleManager.modules.map Prod.fst =
        ["X", "Y", "Z", "W"] ∧
    (builderXYZ.RegisterModules isPrintLatin1 [("W", moduleW), ("X", moduleW)]).2 =
      some (.New "module named \"X\" already exists") ∧
    ∃ added rest, [("W", moduleW), ("X", moduleW)] = added ++ rest ∧
      (builderXYZ.RegisterModules isPrintLatin1
        [("W", moduleW), ("X", moduleW)]).1.app.moduleManager.modules =
          builderXYZ.app.moduleManager.modules ++ added ∧
      (∀ x ∈ added, List.lookup x.1 builderXYZ.app.moduleManager.modules = none) ∧
      (added.map Prod.fst).Nodup ∧
      (((builderXYZ.RegisterModules isPrintLatin1 [("W", moduleW), ("X", moduleW)]).2 = none ∧
          rest = []) ∨
       (∃ e rest', rest = e :: rest' ∧
          (builderXYZ.RegisterModules isPrintLatin1 [("W", moduleW), ("X", moduleW)]).2 =
            some (errModuleExists isPrintLatin1 e.1) ∧
          (List.lookup e.1 (builderXYZ.app.moduleManager.modules ++ added)).isSome = true)) :=
  ⟨(registerModules_frame isPrintLatin1 builderXYZ [("X", moduleW), ("W", moduleW)] pcExample
      filesMsg scenarioXYZ appEmpty).1, by decide, by decide, by decide,
    (registerModules_frame isPrintLatin1 builderXYZ [("W", moduleW), ("X", moduleW)] pcExample
      filesMsg scenarioXYZ appEmpty).2.1⟩

/-- C11, counterexample. `NewModuleManager` returns the manager of X, Y, Z. The call of
`RegisterModules` with the begin-blocker W returns nil and the module map after the call has
the key W, which the map before the call has not. W implements `BeginBlock` and is not in
the begin-block order, so `validateConfig` no longer passes on the manager, and `BeginBlock`
calls Y and X only. -/
theorem registerModules_frame_counterexample :
    NewModuleManager id registrarOk scenarioXYZ.config scenarioXYZ.modules = .ok scenarioXYZ ∧
    builderXYZ.app.moduleManager.validateConfig = none ∧
    (builderXYZ.RegisterModules isPrintLatin1 [("W", moduleW)]).2 = none ∧
    builderXYZ.app.moduleManager.modules.map Prod.fst = ["X", "Y", "Z"] ∧
    (builderXYZ.RegisterModules isPrintLatin1 [("W", moduleW)]).1.app.moduleManager.modules.map Prod.fst =
      ["X", "Y", "Z", "W"] ∧
    (builderXYZ.RegisterModules isPrintLatin1 [("W", moduleW)]).1.app.moduleManager.hasBeginBlocker "W" = true ∧
    "W" ∉ (builderXYZ.RegisterModules isPrintLatin1 [("W", moduleW)]).1.app.moduleManager.config.BeginBlockers ∧
    (builderXYZ.RegisterModules isPrintLatin1 [("W", moduleW)]).1.app.moduleManager.validateConfig =
      some (errForgotten "BeginBlockers" ["W"]) ∧
    (exec0.newCalls ((builderXYZ.RegisterModules isPrintLatin1 [("W", moduleW)]).1.app.moduleManager.BeginBlock
      exec0).1).map Invocation.moduleName = ["Y", "X"] := by
  refine ⟨rfl, by decide, by decide, by decide, by decide, by decide, by decide, by decide,
    by decide⟩

/-- In a map without repeated key, the key of an entry is not a key of the entries before it. -/
theorem not_mem_keys_of_nodup_split {V : Type} (added rest : List (String × V))
    (e : String × V) (h : ((added ++ e :: rest).map Prod.fst).Nodup) :
    e.1 ∉ added.map Prod.fst := by
  rw [List.map_append, List.nodup_append] at h
  intro hmem
  exact h.2.2 hmem (by simp)

/-- C16. For an input map (no key repeated): `RegisterModules` returns an error if and only
if some name of the input is registered in the module manager before the call; the error is
"module named ... already exists" for such a name, written in the format `%q` (between
double quotes, with the escapes of `strconv.Quote`), and the module registered under that
name is not replaced; whatever it returns, every entry registered before the call is
unchanged; and when it returns nil the module map contains afterwards every input module
under its name. The result does not depend on the `Name()` of the modules: a mismatch with
the key only adds a warning. -/
theorem registerModules_collision (IsPrint : Char → Bool) (a : AppBuilder σ)
    (mods : List (String × AppModule σ)) (hmap : (mods.map Prod.fst).Nodup) :
    ((a.RegisterModules IsPrint mods).2 ≠ none ↔
      ∃ name ∈ mods.map Prod.fst,
        (List.lookup name a.app.moduleManager.modules).isSome = true) ∧
    (∀ err, (a.RegisterModules IsPrint mods).2 = some err →
      ∃ name ∈ mods.map Prod.fst,
        (List.lookup name a.app.moduleManager.modules).isSome = true ∧
        err = errModuleExists IsPrint name ∧
        err.Error = "module named " ++ fmtQ IsPrint name ++ " already exists" ∧
        List.lookup name (a.RegisterModules IsPrint mods).1.app.moduleManager.modules =
          List.lookup name a.app.moduleManager.modules) ∧
    (∀ name v, List.lookup name a.app.moduleManager.modules = some v →
      List.lookup name (a.RegisterModules IsPrint mods).1.app.moduleManager.modules = some v) ∧
    ((a.RegisterModules IsPrint mods).2 = none →
      ∀ e ∈ mods,
        List.lookup e.1 (a.RegisterModules IsPrint mods).1.app.moduleManager.modules = some e.2) := by
  obtain ⟨_, _, added, rest, hsplit, hmods, habs, _, hres⟩ :=
    RegisterModules_loop IsPrint mods a
  have hkeep : ∀ name v, List.lookup name a.app.moduleManager.modules = some v →
      List.lookup name (a.RegisterModules IsPrint mods).1.app.moduleManager.modules = some v := by
    intro name v hv
    rw [hmods]
    exact lookup_append_left _ _ _ _ hv
  have herr : ∀ err, (a.RegisterModules IsPrint mods).2 = some err →
      ∃ name ∈ mods.map Prod.fst,
        (List.lookup name a.app.moduleManager.modules).isSome = true ∧
        err = errModuleExists IsPrint name ∧
        err.Error = "module named " ++ fmtQ IsPrint name ++ " already exists" ∧
        List.lookup name (a.RegisterModules IsPrint mods).1.app.moduleManager.modules =
          List.lookup name a.app.moduleManager.modules := by
    intro err herr
    rcases hres with ⟨h, _⟩ | ⟨e, rest', hrest, h, hl⟩
    · rw [h] at herr; cases herr
    · rw [h] at herr
      injection herr with herr
      have hnot : e.1 ∉ added.map Prod.fst := by
        apply not_mem_keys_of_nodup_split added rest' e
        rw [← hrest, ← hsplit]; exact hmap
      cases hlo : List.lookup e.1 a.app.moduleManager.modules with
      | none =>
        rw [lookup_append_none _ _ _ hlo, lookup_none_of_not_mem _ _ hnot] at hl
        simp at hl
      | some v =>
        refine ⟨e.1, ?_, by rw [hlo]; rfl, herr.symm, by rw [← herr]; rfl, ?_⟩
        · rw [hsplit, hrest]; simp
        · rw [hkeep e.1 v hlo, hlo]
  refine ⟨⟨?_, ?_⟩, herr, hkeep, ?_⟩
  · intro hne
    cases hr : (a.RegisterModules IsPrint mods).2 with
    | none => exact absurd hr hne
    | some err =>
      obtain ⟨name, hmem, hsome, _, _, _⟩ := herr err hr
      exact ⟨name, hmem, hsome⟩
  · rintro ⟨name, hmem, hsome⟩ hnone
    rcases hres with ⟨_, hrest⟩ | ⟨e, rest', _, h, _⟩
    · subst hrest
      rw [List.append_nil] at hsplit
      subst hsplit
      obtain ⟨x, hx, hxn⟩ := List.mem_map.1 hmem
      have := habs x hx
      rw [← hxn, this] at hsome
      simp at hsome
    · rw [hnone] at h; cases h
  · intro hnone e he
    rcases hres with ⟨_, hrest⟩ | ⟨e', rest', _, h, _⟩
    · subst hrest
      rw [List.append_nil] at hsplit
      subst hsplit
      rw [hmods, lookup_append_none _ _ _ (habs e he)]
      exact lookup_of_mem_nodup _ hmap e he
    · rw [hnone] at h; cases h

/-- C16, witness: on the manager of X, Y, Z the input W, X fails with the error of X; the
input W alone, whose `Name()` is "other", returns nil and logs a warning; and a name with a
double quote, registered by a first call, is written with a backslash in the error of a
second call. -/
theorem registerModules_collision_witness :
    ([("W", moduleW), ("X", moduleW)].map Prod.fst).Nodup ∧
    (builderXYZ.RegisterModules isPrintLatin1 [("W", moduleW), ("X", moduleW)]).2 =
      some (.New "module named \"X\" already exists") ∧
    (builderXYZ.RegisterModules isPrintLatin1 [("W", moduleW)]).2 = none ∧
    (builderXYZ.RegisterModules isPrintLatin1 [("W", moduleW)]).1.app.logger =
      ["module name \"W\" does not match name returned by HasName: \"other\""] ∧
    ((builderXYZ.RegisterModules isPrintLatin1 [("q\"x", {})]).1.RegisterModules isPrintLatin1
        [("q\"x", {})]).2 = some (.New "module named \"q\\\"x\" already exists") ∧
    ((builderXYZ.RegisterModules isPrintLatin1 [("W", moduleW), ("X", moduleW)]).2 ≠ none ↔
      ∃ name ∈ [("W", moduleW), ("X", moduleW)].map Prod.fst,
        (List.lookup name builderXYZ.app.moduleManager.modules).isSome = true) :=
  ⟨by decide, by decide, by decide, by decide, by decide,
    (registerModules_collision isPrintLatin1 builderXYZ [("W", moduleW), ("X", moduleW)]
      (by decide)).1⟩

/-- Characters with the same code point are equal. -/
theorem char_eq_of_toNat {a b : Char} (h1 : ¬ a.toNat < b.toNat) (h2 : ¬ b.toNat < a.toNat) :
    a = b := by
  apply Char.ext
  have h : a.toNat = b.toNat := by omega
  have h' : a.val.toNat = b.val.toNat := h
  exact UInt32.ext h'

/-- The order of `sort.Strings` compares any two strings. -/
theorem lexLe_total (a b : List Char) : lexLe a b = true ∨ lexLe b a = true := by
  induction a generalizing b with
  | nil => left; cases b <;> rfl
  | cons x xs ih =>
    cases b with
    | nil => right; rfl
    | cons y ys =>
      by_cases h1 : x.toNat < y.toNat
      · left; simp [lexLe, h1]
      · by_cases h2 : y.toNat < x.toNat
        · right; simp [lexLe, h2]
        · rcases ih ys with h | h
          · left; simp [lexLe, h1, h2, h]
          · right; simp [lexLe, h1, h2, h]

/-- The order of `sort.Strings` is transitive. -/
theorem lexLe_trans (a b c : List Char) (hab : lexLe a b = true) (hbc : lexLe b c = true) :
    lexLe a c = true := by
  induction a generalizing b c with
  | nil => cases c <;> rfl
  | cons x xs ih =>
    cases b with
    | nil => simp [lexLe] at hab
    | cons y ys =>
      cases c with
      | nil => simp [lexLe] at hbc
      | cons z zs =>
        simp only [lexLe] at hab hbc ⊢
        by_cases h1 : x.toNat < y.toNat
        · by_cases h3 : y.toNat < z.toNat
          · have : x.toNat < z.toNat := by omega
            simp [this]
          · by_cases h4 : z.toNat < y.toNat
            · simp [h3, h4] at hbc
            · have : x.toNat < z.toNat := by omega
              simp [this]
        · by_cases h2 : y.toNat < x.toNat
          · simp [h1, h2] at hab
          · simp only [h1, h2, if_false] at hab
            by_cases h3 : y.toNat < z.toNat
            · have : x.toNat < z.toNat := by omega
              simp [this]
            · by_cases h4 : z.toNat < y.toNat
              · simp [h3, h4] at hbc
              · simp only [h3, h4, if_false] at hbc
                have e1 : ¬ x.toNat < z.toNat := by omega
                have e2 : ¬ z.toNat < x.toNat := by omega
                simp only [e1, e2, if_false]
                exact ih ys zs hab hbc

/-- Strings that are below each other in the order of `sort.Strings` are equal. -/
theorem lexLe_antisymm (a b : List Char) (hab : lexLe a b = true) (hba : lexLe b a = true) :
    a = b := by
  induction a generalizing b with
  | nil =>
    cases b with
    | nil => rfl
    | cons y ys => simp [lexLe] at hba
  | cons x xs ih =>
    cases b with
    | nil => simp [lexLe] at hab
    | cons y ys =>
      simp only [lexLe] at hab hba
      by_cases h1 : x.toNat < y.toNat
      · have h2 : ¬ y.toNat < x.toNat := by omega
        simp [h1, h2] at hba
      · by_cases h2 : y.toNat < x.toNat
        · simp [h1, h2] at hab
        · simp only [h1, h2, if_false] at hab hba
          rw [char_eq_of_toNat h1 h2, ih ys hab hba]

/-- A sorted slice is in ascending order. -/
theorem sortStrings_sorted (xs : List String) : List.Sorted strLe (sortStrings xs) := by
  haveI : IsTotal String strLe := ⟨fun a b => lexLe_total a.data b.data⟩
  haveI : IsTrans String strLe := ⟨fun a b c => lexLe_trans a.data b.data c.data⟩
  exact List.sorted_insertionSort strLe xs

/-- Sorting permutes the slice. -/
theorem sortStrings_perm (xs : List String) : (sortStrings xs).Perm xs :=
  List.perm_insertionSort strLe xs

/-- Sorting does not depend on the order of the slice it is given. -/
theorem sortStrings_congr {xs ys : List String} (h : xs.Perm ys) :
    sortStrings xs = sortStrings ys := by
  haveI : IsAntisymm String strLe :=
    ⟨fun a b h1 h2 => String.ext (lexLe_antisymm a.data b.data h1 h2)⟩
  exact List.eq_of_perm_of_sorted
    ((sortStrings_perm xs).trans (h.trans (sortStrings_perm ys).symm))
    (sortStrings_sorted xs) (sortStrings_sorted ys)

/-- A map access does not depend on the order in which the entries are listed. -/
theorem lookup_perm {V : Type} {l l' : List (String × V)} (hp : l'.Perm l)
    (hnd : (l.map Prod.fst).Nodup) (k : String) : List.lookup k l' = List.lookup k l := by
  have hnd' : (l'.map Prod.fst).Nodup := (hp.map Prod.fst).nodup_iff.2 hnd
  cases h : List.lookup k l with
  | some v =>
    have hm := hp.symm.subset (mem_keys_of_lookup k l v h)
    exact lookup_of_mem_nodup l' hnd' (k, v) hm
  | none =>
    cases h' : List.lookup k l' with
    | none => rfl
    | some v =>
      have hm := hp.subset (mem_keys_of_lookup k l' v h')
      have := lookup_of_mem_nodup l hnd (k, v) hm
      simp only at this
      rw [h] at this; cases this

/-- The module under a name does not depend on the enumeration order of the module map. -/
theorem module_perm {m m' : MM σ} (hp : m'.modules.Perm m.modules)
    (hnd : (m.modules.map Prod.fst).Nodup) (k : String) : m'.module k = m.module k :=
  lookup_perm hp hnd k

/-- The closure `pass` of a phase does not depend on the enumeration order of the module map. -/
theorem pass_perm {m m' : MM σ} (hp : m'.modules.Perm m.modules)
    (hnd : (m.modules.map Prod.fst).Nodup) (p : Phase) : p.pass m' = p.pass m := by
  funext k
  have h := module_perm hp hnd k
  cases p <;>
    simp [Phase.pass, MM.passPreBlockers, MM.passBeginBlockers, MM.passEndBlockers,
      MM.passTxValidation, MM.passGenesis, MM.hasPreBlocker, MM.hasBeginBlocker,
      MM.hasEndBlocker, MM.hasTxValidation, MM.hasGenesis, h]

/-- The slice `missing` for another enumeration order of the module map is a permutation. -/
theorem missing_perm {m m' : MM σ} (hp : m'.modules.Perm m.modules) (names : List String)
    (pass : Option (String → Bool)) : (m'.missing names pass).Perm (m.missing names pass) := by
  unfold MM.missing
  exact (hp.map Prod.fst).filter _

/-- The result of `assertNoForgottenModules` does not depend on the enumeration order of
the module map. -/
theorem assert_perm {m m' : MM σ} (hp : m'.modules.Perm m.modules) (fnName : String)
    (names : List String) (pass : Option (String → Bool)) :
    m'.assertNoForgottenModules fnName names pass =
      m.assertNoForgottenModules fnName names pass := by
  have hm := missing_perm hp names pass
  rw [assert_eq, assert_eq, sortStrings_congr hm]
  by_cases h : m.missing names pass = []
  · have h' : m'.missing names pass = [] := by
      rw [h] at hm; exact List.perm_nil.1 hm
    simp [h, h']
  · have h' : m'.missing names pass ≠ [] := by
      intro h0; rw [h0] at hm; exact h (List.perm_nil.1 hm.symm)
    simp [h, h']

/-- The message of the error of `assertNoForgottenModules` contains the name it was given. -/
theorem containsStr_errForgotten (fnName : String) (missing : List String) :
    containsStr (errForgotten fnName missing).Error fnName := by
  refine ⟨"all modules must be defined when setting ".data,
    (", missing: " ++ fmtStrings missing).data, ?_⟩
  simp [errForgotten, GoError.Error, String.data_append]

/-- C13. When `assertNoForgottenModules` fails for a phase (on a module map, which has no
repeated key), the error is "all modules must be defined when setting", the name of the
configuration list of the phase, and the list `missing`; that list consists of exactly the
registered module names that implement the capability of the phase and do not occur in the
supplied list, each once, in ascending lexicographic order; and the same error is returned
for every other enumeration order of the module map. -/
theorem assertNoForgottenModules_error (m : MM σ) (hmap : (m.modules.map Prod.fst).Nodup)
    (p : Phase) (err : GoError)
    (h : m.assertNoForgottenModules p.fnName (p.list m.config) (some (p.pass m)) = some err) :
    ∃ missing, err = errForgotten p.fnName missing ∧
      err.Error = "all modules must be defined when setting " ++ p.fnName ++ ", missing: "
        ++ fmtStrings missing ∧
      containsStr err.Error p.fnName ∧
      (∀ x, x ∈ missing ↔
        x ∈ m.modules.map Prod.fst ∧ p.has m x = true ∧ x ∉ p.list m.config) ∧
      missing.Nodup ∧
      List.Sorted strLe missing ∧
      ∀ m' : MM σ, m'.config = m.config → m'.modules.Perm m.modules →
        m'.assertNoForgottenModules p.fnName (p.list m'.config) (some (p.pass m')) =
          some err := by
  rw [assert_eq] at h
  by_cases hm : m.missing (p.list m.config) (some (p.pass m)) = []
  · simp [hm] at h
  · simp only [hm, if_false] at h
    injection h with h
    refine ⟨sortStrings (m.missingOf p), h.symm, ?_, ?_, ?_, ?_, sortStrings_sorted _, ?_⟩
    · rw [← h]; rfl
    · rw [← h]; exact containsStr_errForgotten _ _
    · intro x
      rw [mem_sortStrings, mem_missingOf]
    · refine (sortStrings_perm _).nodup_iff.2 ?_
      unfold MM.missingOf MM.missing
      exact hmap.filter _
    · intro m' hc hp
      rw [hc, pass_perm hp hmap p, assert_perm hp, assert_eq]
      simp only [hm, if_false]
      rw [h]

/-- C13, witness: of the pre-blockers zeta, alpha, mid the order names mid only; the error
lists alpha and zeta, in this order. -/
theorem assertNoForgottenModules_error_witness :
    (managerSort.modules.map Prod.fst).Nodup ∧
    managerSort.assertNoForgottenModules Phase.PreBlockers.fnName
        (Phase.PreBlockers.list managerSort.config) (some (Phase.PreBlockers.pass managerSort)) =
      some (.New "all modules must be defined when setting PreBlockers, missing: [alpha zeta]") ∧
    ∃ missing,
      GoError.New "all modules must be defined when setting PreBlockers, missing: [alpha zeta]" =
        errForgotten Phase.PreBlockers.fnName missing ∧
      (GoError.New
          "all modules must be defined when setting PreBlockers, missing: [alpha zeta]").Error =
        "all modules must be defined when setting " ++ Phase.PreBlockers.fnName ++ ", missing: "
          ++ fmtStrings missing ∧
      containsStr (GoError.New
          "all modules must be defined when setting PreBlockers, missing: [alpha zeta]").Error
        Phase.PreBlockers.fnName ∧
      (∀ x, x ∈ missing ↔
        x ∈ managerSort.modules.map Prod.fst ∧ Phase.PreBlockers.has managerSort x = true ∧
          x ∉ Phase.PreBlockers.list managerSort.config) ∧
      missing.Nodup ∧
      List.Sorted strLe missing ∧
      ∀ m' : MM Unit, m'.config = managerSort.config → m'.modules.Perm managerSort.modules →
        m'.assertNoForgottenModules Phase.PreBlockers.fnName (Phase.PreBlockers.list m'.config)
            (some (Phase.PreBlockers.pass m')) =
          some (.New
            "all modules must be defined when setting PreBlockers, missing: [alpha zeta]") :=
  ⟨by decide, by decide,
    assertNoForgottenModules_error managerSort (by decide) .PreBlockers _ (by decide)⟩

/-- The defaults replace an empty list by the names of the module map. -/
theorem list_defaultConfig_empty (D : List String → List String) (names : List String)
    (config : Config) (p : Phase) (h : p.list config = []) :
    p.list (defaultConfig D names config) = names := by
  cases p <;> simp only [Phase.list] at h ⊢ <;> simp [defaultConfig, h]

/-- When no phase has missing names, `validateConfig` returns the result of the check of the
migration order. -/
theorem validateConfig_all_pass (m : MM σ) (h : ∀ q : Phase, m.missingOf q = []) :
    m.validateConfig =
      m.assertNoForgottenModules "OrderMigrations" m.config.OrderMigrations none := by
  have h0 := assert_phase_none m .PreBlockers (h _)
  have h1 := assert_phase_none m .BeginBlockers (h _)
  have h2 := assert_phase_none m .EndBlockers (h _)
  have h3 := assert_phase_none m .TxValidation (h _)
  have h4 := assert_phase_none m .InitGenesis (h _)
  have h5 := assert_phase_none m .ExportGenesis (h _)
  simp only [Phase.fnName, Phase.list, Phase.pass] at h0 h1 h2 h3 h4 h5
  simp only [MM.validateConfig, h0, h1, h2, h3, h4, h5]

/-- An error of `validateConfig` is the error of a phase with missing names or that of the
migration order. -/
theorem validateConfig_error (m : MM σ) (e : GoError) (h : m.validateConfig = some e) :
    (∃ q : Phase, m.missingOf q ≠ [] ∧
      e = errForgotten q.fnName (sortStrings (m.missingOf q))) ∨
    e = errForgotten "OrderMigrations" (sortStrings (m.missing m.config.OrderMigrations none)) := by
  by_cases hall : ∀ q : Phase, m.missingOf q = []
  · right
    rw [validateConfig_all_pass m hall, assert_eq] at h
    by_cases hm : m.missing m.config.OrderMigrations none = []
    · simp [hm] at h
    · simp only [hm, if_false] at h
      injection h with h
      exact h.symm
  · left
    push_neg at hall
    obtain ⟨p, hp⟩ := hall
    obtain ⟨q, _, hq, hprev⟩ := first_failing_phase m p hp
    rw [validateConfig_first m q hq hprev] at h
    injection h with h
    exact ⟨q, hq, h.symm⟩

/-- A phase whose list was defaulted has no missing names. -/
theorem missingOf_default (D : List String → List String) (reg : MigrationRegistrar σ)
    (config : Config) (modules : List (String × AppModule σ)) (p : Phase)
    (hempty : p.list config = []) : (managerOf D reg config modules).missingOf p = [] := by
  rw [List.eq_nil_iff_forall_not_mem]
  intro x hx
  rw [mem_missingOf] at hx
  have hl : p.list (managerOf D reg config modules).config = modules.map Prod.fst :=
    list_defaultConfig_empty D _ config p hempty
  rw [hl] at hx
  exact hx.2.2 hx.1

/-- C14. For every module map (no repeated key) and every configuration in which the list
of a phase (PreBlockers, BeginBlockers, EndBlockers, TxValidation, InitGenesis,
ExportGenesis) is empty: the list of that phase in the manager `NewModuleManager` validates,
and returns when validation passes, is the list of the keys of the module map, so it contains
every registered name exactly once and no other name; the assertion of `validateConfig` for
that phase returns nil; and if `NewModuleManager` panics, the error is that of another phase
or of the migration order. -/
theorem default_list_covers (D : List String → List String) (reg : MigrationRegistrar σ)
    (config : Config) (modules : List (String × AppModule σ))
    (hmap : (modules.map Prod.fst).Nodup) (p : Phase) (hempty : p.list config = []) :
    p.list (managerOf D reg config modules).config = modules.map Prod.fst ∧
    (∀ x ∈ modules.map Prod.fst, (p.list (managerOf D reg config modules).config).count x = 1) ∧
    (∀ x ∈ p.list (managerOf D reg config modules).config, x ∈ modules.map Prod.fst) ∧
    (managerOf D reg config modules).assertNoForgottenModules p.fnName
      (p.list (managerOf D reg config modules).config)
      (some (p.pass (managerOf D reg config modules))) = none ∧
    (∀ m, NewModuleManager D reg config modules = .ok m →
      p.list m.config = modules.map Prod.fst) ∧
    (∀ e, NewModuleManager D reg config modules = .error e →
      (∃ q : Phase, q ≠ p ∧
        e = errForgotten q.fnName (sortStrings ((managerOf D reg config modules).missingOf q))) ∨
      e = errForgotten "OrderMigrations" (sortStrings ((managerOf D reg config modules).missing
        (managerOf D reg config modules).config.OrderMigrations none))) := by
  have hl : p.list (managerOf D reg config modules).config = modules.map Prod.fst :=
    list_defaultConfig_empty D _ config p hempty
  have hmiss := missingOf_default D reg config modules p hempty
  refine ⟨hl, ?_, ?_, assert_phase_none _ p hmiss, ?_, ?_⟩
  · intro x hx
    rw [hl]
    exact List.count_eq_one_of_mem hmap hx
  · intro x hx
    rw [hl] at hx
    exact hx
  · intro m hm
    obtain ⟨hmm, _⟩ := ok_of_NewModuleManager hm
    rw [hmm]
    exact hl
  · intro e he
    rw [NewModuleManager_eq] at he
    cases hv : (managerOf D reg config modules).validateConfig with
    | none => rw [hv] at he; cases he
    | some e' =>
      rw [hv] at he
      injection he with he
      subst he
      rcases validateConfig_error _ _ hv with ⟨q, hq, heq⟩ | heq
      · left
        refine ⟨q, ?_, heq⟩
        intro hqp
        rw [hqp] at hq
        exact hq hmiss
      · right
        exact heq

/-- C14, witness: with no list given, the begin-block order of the manager of a and b is
a, b and construction succeeds. -/
theorem default_list_covers_witness :
    (modulesDup.map Prod.fst).Nodup ∧
    Phase.BeginBlockers.list ({} : Config) = [] ∧
    Phase.BeginBlockers.list (managerOf sortStrings registrarOk {} modulesDup).config =
      ["a", "b"] ∧
    (NewModuleManager sortStrings registrarOk {} modulesDup).toOption.isSome = true ∧
    Phase.BeginBlockers.list (managerOf sortStrings registrarOk {} modulesDup).config =
      modulesDup.map Prod.fst :=
  ⟨by decide, by decide, by decide, by decide,
    (default_list_covers sortStrings registrarOk {} modulesDup (by decide) .BeginBlockers
      (by decide)).1⟩

/-- In a loop of `RunMigrations` that returns nil, the registrar returned nil for the
migration of every name of the order that is a key of `fromVM`. -/
theorem runMigrations_loop_accepted (m : MM σ) (fromVM : VersionMap) (names : List String)
    (s : VersionMap × Exec σ) (h : (forRange (m.runMigration fromVM) names s).2 = none) :
    ∀ n ∈ names, ∀ v, List.lookup n fromVM = some v →
      ∃ ctx, (m.migrationRegistrar.RunModuleMigrations ctx n v (m.toVersion n)).2 = none := by
  induction names generalizing s with
  | nil => intro n hn; cases hn
  | cons x xs ih =>
    cases hb : m.runMigration fromVM x s with
    | mk s1 r1 =>
      cases r1 with
      | some r => simp [forRange, hb] at h
      | none =>
        simp only [forRange, hb] at h
        intro n hn v hv
        rcases List.mem_cons.1 hn with hx | hx
        · subst hx
          refine ⟨s.2.ctx, ?_⟩
          have h2 : (m.runMigration fromVM n s).2 = none := by rw [hb]
          unfold MM.runMigration at h2
          simp only [hv] at h2
          cases hr : (m.migrationRegistrar.RunModuleMigrations s.2.ctx n v (m.toVersion n)).2 with
          | none => rfl
          | some e => simp [hr] at h2
        · exact ih s1 h n hx v hv

/-- C12 (amended). For every previous version map `fromVM` and every module name that is a
key of `fromVM` and of the map returned by a successful `RunMigrations`, the returned version
is the declared version of the module (0 when it declares none), and the registrar was asked
for the migration from `fromVM[name]` to that version and returned nil. `RunMigrations`
does not compare the two versions: the returned version is greater than or equal to
`fromVM[name]` when the registrar returns an error for every request whose to-version is
below its from-version. -/
theorem runMigrations_monotone (m : MM σ) (fromVM : VersionMap) (w : Exec σ) (vm : VersionMap)
    (h : (m.RunMigrations fromVM w).2 = (some vm, none)) (name : String) (v v' : Nat)
    (hf : List.lookup name fromVM = some v) (hr : List.lookup name vm = some v') :
    v' = m.toVersion name ∧
    (⟨name, .RunModuleMigrations v (m.toVersion name), [], none⟩ : Invocation) ∈
      w.newCalls (m.RunMigrations fromVM w).1 ∧
    ((∀ ctx n fromVersion toVersion, toVersion < fromVersion →
        (m.migrationRegistrar.RunModuleMigrations ctx n fromVersion toVersion).2 ≠ none) →
      v ≤ v') := by
  rw [RunMigrations_result] at h
  cases hres : (forRange (m.runMigration fromVM) m.config.OrderMigrations ([], w)).2 with
  | some err => simp [hres] at h
  | none =>
    simp only [hres] at h
    injection h with h1 _
    injection h1 with h1
    obtain ⟨hcalls, hin, hout⟩ :=
      runMigrations_loop_success m fromVM m.config.OrderMigrations ([], w) hres
    have hmem : name ∈ m.config.OrderMigrations := by
      by_contra hn
      have := hout name hn
      rw [h1, hr] at this
      simp at this
    have hv' : v' = m.toVersion name := by
      have := hin name hmem
      rw [h1, hr] at this
      injection this
    refine ⟨hv', ?_, ?_⟩
    · have hc : (m.RunMigrations fromVM w).1.calls =
          w.calls ++ m.config.OrderMigrations.flatMap (m.turnCalls fromVM) := by
        rw [RunMigrations_calls]; exact hcalls
      rw [newCalls_of_append hc, List.mem_flatMap]
      refine ⟨name, hmem, ?_⟩
      simp [MM.turnCalls, MM.migrationMethod, hf]
    · intro hreg
      obtain ⟨ctx, hctx⟩ :=
        runMigrations_loop_accepted m fromVM m.config.OrderMigrations ([], w) hres name hmem v hf
      by_contra hlt
      rw [hv'] at hlt
      exact hreg ctx name v (m.toVersion name) (by omega) hctx

/-- C12, witness: with `fromVM` = {A:1} and A declaring version 2 the returned version of A
is 2. -/
theorem runMigrations_monotone_witness :
    ((managerAB registrarOk ["A", "B"]).RunMigrations [("A", 1)] exec0).2 =
      (some [("A", 2), ("B", 1)], none) ∧
    List.lookup "A" [("A", 1)] = some 1 ∧
    List.lookup "A" [("A", 2), ("B", 1)] = some 2 ∧
    2 = (managerAB registrarOk ["A", "B"]).toVersion "A" :=
  ⟨by decide, by decide, by decide,
    (runMigrations_monotone (managerAB registrarOk ["A", "B"]) [("A", 1)] exec0
      [("A", 2), ("B", 1)] (by decide) "A" 1 2 (by decide) (by decide)).1⟩

/-- C12, counterexample. With `fromVM` = {A:5} and the module A declaring version 2, a
registrar that returns nil for the migration of A from 5 to 2 makes `RunMigrations` succeed
and return {A:2, B:1}: the version of A went from 5 to 2. This is so for the registrar of the
spec holding a handler keyed by A and from-version 5. -/
theorem runMigrations_monotone_counterexample :
    (((managerAB registrarOk ["A", "B"]).RunMigrations [("A", 5)] exec0).2 =
        (some [("A", 2), ("B", 1)], none) ∧
      List.lookup "A" [("A", 5)] = some 5 ∧
      List.lookup "A" [("A", 2), ("B", 1)] = some 2 ∧ ¬ (5 ≤ 2)) ∧
    ((managerAB (registrarOfHandlers [(("A", 5), hookOk)]) ["A", "B"]).RunMigrations
        [("A", 5)] exec0).2 = (some [("A", 2), ("B", 1)], none) := by
  refine ⟨⟨by decide, by decide, by decide, by decide⟩, by decide⟩

/-- A turn of `RunMigrations` that returns an error has made one call; the error is that of
the validator updates unless the call is no legacy ABCI `InitGenesis`. -/
theorem runMigration_stop (m : MM σ) (fromVM : VersionMap) (n : String)
    (s : VersionMap × Exec σ) (r : GoError) (h : (m.runMigration fromVM n s).2 = some r) :
    ∃ c, (m.runMigration fromVM n s).1.2.calls = s.2.calls ++ [c] ∧
      ((∀ d, c.method ≠ .ABCIInitGenesis d) ∨ r = errInitGenesisValUpdates) := by
  unfold MM.runMigration at h ⊢
  cases hf : List.lookup n fromVM with
  | some v =>
    simp only [hf] at h ⊢
    refine ⟨⟨n, .RunModuleMigrations v (m.toVersion n), [],
      (m.migrationRegistrar.RunModuleMigrations s.2.ctx n v (m.toVersion n)).2⟩, ?_,
      Or.inl (by simp)⟩
    cases hr : (m.migrationRegistrar.RunModuleMigrations s.2.ctx n v (m.toVersion n)).2 <;>
      simp [hr, Exec.record]
  | none =>
    simp only [hf] at h ⊢
    cases hg : (m.module n).map AppModule.Genesis with
    | none => simp [hg] at h
    | some g =>
      cases g with
      | absent => simp [hg] at h
      | HasGenesis d f =>
        refine ⟨⟨n, .InitGenesis d, [], (f s.2.ctx d).2⟩, ?_, Or.inl (by simp)⟩
        cases hr : (f s.2.ctx d).2 <;> simp [hr, Exec.record]
      | SdkHasGenesis d f => simp [hg] at h
      | HasABCIGenesis d f =>
        simp only [hg] at h ⊢
        refine ⟨⟨n, .ABCIInitGenesis d, (f s.2.ctx d).2, none⟩, ?_, Or.inr ?_⟩
        · split_ifs <;> simp [Exec.record]
        · by_cases hl : (f s.2.ctx d).2.length > 0
          · simp [hl] at h; exact h.symm
          · simp [hl] at h

/-- The calls of a turn that goes on returned no validator update. -/
theorem turnCalls_updates (m : MM σ) (fromVM : VersionMap) (n : String) :
    ∀ c ∈ m.turnCalls fromVM n, c.updates = [] := by
  intro c hc
  unfold MM.turnCalls at hc
  cases hm : m.migrationMethod fromVM n with
  | none => simp [hm] at hc
  | some meth => simp [hm] at hc; rw [hc]

/-- A loop of `RunMigrations` in which a legacy ABCI `InitGenesis` returned validator
updates returns the error of the validator updates. -/
theorem runMigrations_loop_abci (m : MM σ) (fromVM : VersionMap) (names : List String)
    (s : VersionMap × Exec σ) :
    ∃ new, (forRange (m.runMigration fromVM) names s).1.2.calls = s.2.calls ++ new ∧
      ∀ c ∈ new, ∀ d, c.method = .ABCIInitGenesis d → c.updates ≠ [] →
        (forRange (m.runMigration fromVM) names s).2 = some errInitGenesisValUpdates := by
  induction names generalizing s with
  | nil => exact ⟨[], by simp [forRange], by simp⟩
  | cons x xs ih =>
    cases hb : m.runMigration fromVM x s with
    | mk s1 r1 =>
      cases r1 with
      | some r =>
        obtain ⟨c, hc, hcase⟩ := runMigration_stop m fromVM x s r (by rw [hb])
        rw [hb] at hc
        refine ⟨[c], by simpa [forRange, hb] using hc, ?_⟩
        intro c' hc' d hd hu
        have : c' = c := by simpa using hc'
        subst this
        rcases hcase with hno | hr
        · exact absurd hd (hno d)
        · simp [forRange, hb, hr]
      | none =>
        obtain ⟨_, hcalls⟩ := runMigration_success m fromVM x s (by rw [hb])
        rw [hb] at hcalls
        obtain ⟨new, hnew, hall⟩ := ih s1
        refine ⟨m.turnCalls fromVM x ++ new, ?_, ?_⟩
        · simp only [forRange, hb]; rw [hnew, hcalls, List.append_assoc]
        · simp only [forRange, hb]
          intro c hc d hd hu
          rcases List.mem_append.1 hc with h | h
          · exact absurd (turnCalls_updates m fromVM x c h) hu
          · exact hall c h d hd hu

/-- C19. In `RunMigrations`, if the legacy ABCI `InitGenesis` of a module, which is called
only for a name absent from `fromVM`, returns a non-empty validator-update list, then
`RunMigrations` returns a nil map and the error "validator InitGenesis update is already set
by another module". In the turn of such a name, a non-empty list makes the turn return that
error, and an empty list makes the loop go on with the version of the module recorded; the
map of a run that succeeds holds the declared version of every module that was called. -/
theorem new_module_validator_updates (m : MM σ) (fromVM : VersionMap) (w : Exec σ) :
    (∀ c ∈ w.newCalls (m.RunMigrations fromVM w).1, ∀ d, c.method = .ABCIInitGenesis d →
      c.updates ≠ [] →
      (m.RunMigrations fromVM w).2 = (none, some errInitGenesisValUpdates)) ∧
    (∀ n s d f, List.lookup n fromVM = none →
      (m.module n).map AppModule.Genesis = some (.HasABCIGenesis d f) →
      ((f s.2.ctx d).2 ≠ [] → (m.runMigration fromVM n s).2 = some errInitGenesisValUpdates) ∧
      ((f s.2.ctx d).2 = [] → (m.runMigration fromVM n s).2 = none ∧
        (m.runMigration fromVM n s).1.1 = s.1.set n (m.toVersion n))) ∧
    (∀ c ∈ w.newCalls (m.RunMigrations fromVM w).1, ∀ vm,
      (m.RunMigrations fromVM w).2 = (some vm, none) →
      List.lookup c.moduleName vm = some (m.toVersion c.moduleName)) ∧
    errInitGenesisValUpdates =
      .New "validator InitGenesis update is already set by another module" := by
  refine ⟨?_, ?_, ?_, rfl⟩
  · obtain ⟨new, hnew, hall⟩ := runMigrations_loop_abci m fromVM m.config.OrderMigrations ([], w)
    have hc : (m.RunMigrations fromVM w).1.calls = w.calls ++ new := by
      rw [RunMigrations_calls]; exact hnew
    rw [newCalls_of_append hc]
    intro c hcm d hd hu
    rw [RunMigrations_result, hall c hcm d hd hu]
  · intro n s d f hf hg
    unfold MM.runMigration
    simp only [hf, hg]
    constructor
    · intro hne
      have hl : (f s.2.ctx d).2.length > 0 := List.length_pos.2 hne
      simp [hl]
    · intro he
      simp [he]
  · intro c hc vm h
    rw [RunMigrations_result] at h
    cases hres : (forRange (m.runMigration fromVM) m.config.OrderMigrations ([], w)).2 with
    | some err => simp [hres] at h
    | none =>
      simp only [hres] at h
      injection h with h1 _
      injection h1 with h1
      obtain ⟨hcalls, hin, _⟩ :=
        runMigrations_loop_success m fromVM m.config.OrderMigrations ([], w) hres
      have hcc : (m.RunMigrations fromVM w).1.calls =
          w.calls ++ m.config.OrderMigrations.flatMap (m.turnCalls fromVM) := by
        rw [RunMigrations_calls]; exact hcalls
      rw [newCalls_of_append hcc] at hc
      obtain ⟨n, hn, hcn⟩ := List.mem_flatMap.1 hc
      rw [turnCalls_name m fromVM n c hcn, ← h1]
      exact hin n hn

/-- C19, witness: the new module N returns one validator update and the run fails with the
error; when it returns none the run goes on and returns {N:3, P:1}. -/
theorem new_module_validator_updates_witness :
    ((⟨"N", .ABCIInitGenesis "{}", [update1], none⟩ : Invocation) ∈
        exec0.newCalls ((managerNP [update1]).RunMigrations [] exec0).1 ∧
      ((managerNP [update1]).RunMigrations [] exec0).2 =
        (none, some (.New "validator InitGenesis update is already set by another module"))) ∧
    ((managerNP []).RunMigrations [] exec0).2 = (some [("N", 3), ("P", 1)], none) ∧
    ((managerNP [update1]).RunMigrations [] exec0).2 =
      (none, some errInitGenesisValUpdates) :=
  ⟨⟨by decide, by decide⟩, by decide,
    (new_module_validator_updates (managerNP [update1]) [] exec0).1
      ⟨"N", .ABCIInitGenesis "{}", [update1], none⟩ (by decide) "{}" rfl (by decide)⟩

/-- C17. When `registerMethod` returns nil, the route table holds, under the request's
fully-qualified name, an entry that is the hybrid handler called on a new message of the
method's response type: for every context and request message the entry returns what one call
of the hybrid handler on that message and the new response message returns, the context after
the call, the response message and the error of the handler as they are. -/
theorem registerMethod_entry (pc : Protocompat σ) (stfRouter stfRouter' : MsgRouterBuilder σ)
    (sd : ServiceDesc) (md : MethodDesc) (ss : ServerImpl)
    (h : registerMethod pc stfRouter sd md ss = (stfRouter', none)) :
    ∃ requestName responseName hybridHandler responseV2Type,
      pc.RequestFullNameFromMethodDesc sd md = .ok requestName ∧
      pc.ResponseFullNameFromMethodDesc sd md = .ok responseName ∧
      pc.MakeHybridHandler sd md ss = .ok hybridHandler ∧
      pc.FindMessageByName responseName = .ok responseV2Type ∧
      ∃ entry, List.lookup requestName stfRouter'.handlers = some entry ∧
        ∀ ctx msg, entry ctx msg = hybridHandler ctx msg ⟨responseV2Type, []⟩ := by
  unfold registerMethod at h
  cases h1 : pc.RequestFullNameFromMethodDesc sd md with
  | error e => simp [h1] at h
  | ok requestName =>
    cases h2 : pc.ResponseFullNameFromMethodDesc sd md with
    | error e => simp [h1, h2] at h
    | ok responseName =>
      cases h3 : pc.MakeHybridHandler sd md ss with
      | error e => simp [h1, h2, h3] at h
      | ok hybridHandler =>
        cases h4 : pc.FindMessageByName responseName with
        | error e => simp [h1, h2, h3, h4] at h
        | ok responseV2Type =>
          simp only [h1, h2, h3, h4] at h
          unfold MsgRouterBuilder.RegisterHandler at h
          cases hl : List.lookup requestName stfRouter.handlers with
          | some old => simp [hl] at h
          | none =>
            simp only [hl, Option.isSome_none, Bool.false_eq_true, if_false] at h
            injection h with h _
            refine ⟨requestName, responseName, hybridHandler, responseV2Type, rfl, rfl, rfl, h4,
              dispatchEntry responseV2Type hybridHandler, ?_, fun _ _ => rfl⟩
            rw [← h]
            simp only []
            rw [lookup_append_none _ _ _ hl]
            simp [List.lookup]

/-- C17, witness: the entry of `pkg.Msg.Send` with a handler that counts its calls: one
call per dispatch, the response filled by the handler, and the handler's error `boom` on an
empty request. -/
theorem registerMethod_entry_witness :
    (registerMethod pcEcho ⟨[]⟩ sdMsg ⟨"Send"⟩ "server").2 = none ∧
    (∀ entry, List.lookup "pkg.Msg.Send"
        (registerMethod pcEcho ⟨[]⟩ sdMsg ⟨"Send"⟩ "server").1.handlers = some entry →
      entry 0 ⟨"pkg.Msg.Send", [7]⟩ = (1, (⟨"pkg.Msg.SendResponse", [7]⟩, none)) ∧
      entry 0 ⟨"pkg.Msg.Send", []⟩ = (1, (⟨"pkg.Msg.SendResponse", []⟩, some boom))) ∧
    ∃ requestName responseName hybridHandler responseV2Type,
      pcEcho.RequestFullNameFromMethodDesc sdMsg ⟨"Send"⟩ = .ok requestName ∧
      pcEcho.ResponseFullNameFromMethodDesc sdMsg ⟨"Send"⟩ = .ok responseName ∧
      pcEcho.MakeHybridHandler sdMsg ⟨"Send"⟩ "server" = .ok hybridHandler ∧
      pcEcho.FindMessageByName responseName = .ok responseV2Type ∧
      ∃ entry, List.lookup requestName
          (registerMethod pcEcho ⟨[]⟩ sdMsg ⟨"Send"⟩ "server").1.handlers = some entry ∧
        ∀ ctx msg, entry ctx msg = hybridHandler ctx msg ⟨responseV2Type, []⟩ :=
  ⟨rfl, by
    intro entry he
    have : entry = dispatchEntry "pkg.Msg.SendResponse" hybridEcho := by
      have h0 : List.lookup "pkg.Msg.Send"
          (registerMethod pcEcho ⟨[]⟩ sdMsg ⟨"Send"⟩ "server").1.handlers =
          some (dispatchEntry "pkg.Msg.SendResponse" hybridEcho) := rfl
      rw [h0] at he
      injection he with he
      exact he.symm
    subst this
    exact ⟨by decide, by decide⟩,
    registerMethod_entry pcEcho ⟨[]⟩ _ sdMsg ⟨"Send"⟩ "server" rfl⟩

/-- After the defaults of `Build`, the tx validator is the one of the builder, or the
module manager's when the builder has none. -/
theorem withDefaults_txValidator (a : AppBuilder σ) :
    a.withDefaults.txValidator =
      some (match a.txValidator with
        | some f => f
        | none => a.app.moduleManager.TxValidators) := by
  rcases a with ⟨⟨mm, mr, qr, lg, ir, am, br, db, stf, appm⟩, sb, tv, pte⟩
  cases br <;> cases tv <;> cases pte <;> rfl

/-- After the defaults of `Build`, the post-tx-exec hook is the one of the builder, or
the function that returns nil when the builder has none. -/
theorem withDefaults_postTxExec (a : AppBuilder σ) :
    a.withDefaults.postTxExec =
      some (match a.postTxExec with
        | some f => f
        | none => defaultPostTxExec) := by
  rcases a with ⟨⟨mm, mr, qr, lg, ir, am, br, db, stf, appm⟩, sb, tv, pte⟩
  cases br <;> cases tv <;> cases pte <;> rfl

/-- A `Build` that succeeds hands the state-transition function the tx validator and
the post-tx-exec hook the builder holds after the options and the defaults. -/
theorem Build_stf (env : BuildEnv σ) (a a' : AppBuilder σ) (opts : List (AppBuilderOption σ))
    (app : RuntimeApp σ) (h : a.Build env opts = (a', .ok app)) :
    ∃ args, app.stf = some args ∧
      some args.txValidator = (a.applyOpts opts).withDefaults.txValidator ∧
      some args.postTxExec = (a.applyOpts opts).withDefaults.postTxExec := by
  unfold AppBuilder.Build at h
  simp only [] at h
  have ht := withDefaults_txValidator (a.applyOpts opts)
  have hp := withDefaults_postTxExec (a.applyOpts opts)
  generalize (a.applyOpts opts).withDefaults = b at h ht hp ⊢
  cases hdb : b.app.db with
  | none => simp [hdb] at h
  | some db =>
    simp only [hdb] at h
    split at h
    · simp at h
    · split at h
      · simp at h
      · split at h
        · simp at h
        · simp only [Prod.mk.injEq, Except.ok.injEq] at h
          obtain ⟨_, h⟩ := h
          subst h
          refine ⟨_, rfl, ?_, ?_⟩
          · rw [ht]; simp [AppBuilder.stfArgs, ht]
          · rw [hp]; simp [AppBuilder.stfArgs, hp]

/-- Options are applied one after the other. -/
theorem applyOpts_append (a : AppBuilder σ) (xs ys : List (AppBuilderOption σ)) :
    a.applyOpts (xs ++ ys) = (a.applyOpts xs).applyOpts ys := by
  simp [AppBuilder.applyOpts, List.foldl_append]

/-- Options that leave a part of the builder as it is leave it so together. -/
theorem applyOpts_keeps {β : Type} (get : AppBuilder σ → β) (opts : List (AppBuilderOption σ))
    (hkeep : ∀ o ∈ opts, ∀ b, get (o b) = get b) (a : AppBuilder σ) :
    get (a.applyOpts opts) = get a := by
  induction opts generalizing a with
  | nil => rfl
  | cons o os ih =>
    have h1 : a.applyOpts (o :: os) = (o a).applyOpts os := rfl
    rw [h1, ih (fun o' ho' => hkeep o' (List.mem_cons_of_mem _ ho')) (o a)]
    exact hkeep o (List.mem_cons_self _ _) a

/-- C18 (amended). For every `Build` that succeeds, the options are applied in the order
given: the tx validator handed to the state-transition function is the `f` of the last
`AppBuilderWithTxValidator (some f)` (no later option changing the field), and the module
manager's validator when the field is nil after the options, as it is on a builder without
validator when no option sets it. The post-tx-exec hook is the `f` of the last
`AppBuilderWithPostTxExec (some f)`, and when the field is nil after the options it is a
function that returns nil, with the context as it was, for every input. -/
theorem build_hands_validator (env : BuildEnv σ) (a a' : AppBuilder σ)
    (opts : List (AppBuilderOption σ)) (app : RuntimeApp σ)
    (h : a.Build env opts = (a', .ok app)) :
    ∃ args, app.stf = some args ∧
      (∀ pre f post, opts = pre ++ AppBuilderWithTxValidator (some f) :: post →
        (∀ o ∈ post, ∀ b, (o b).txValidator = b.txValidator) → args.txValidator = f) ∧
      ((a.applyOpts opts).txValidator = none →
        args.txValidator = (a.applyOpts opts).app.moduleManager.TxValidators) ∧
      (a.txValidator = none →
        (∀ o ∈ opts, ∀ b, (o b).txValidator = b.txValidator) →
        (∀ o ∈ opts, ∀ b, (o b).app.moduleManager = b.app.moduleManager) →
        args.txValidator = a.app.moduleManager.TxValidators) ∧
      (∀ pre f post, opts = pre ++ AppBuilderWithPostTxExec (some f) :: post →
        (∀ o ∈ post, ∀ b, (o b).postTxExec = b.postTxExec) → args.postTxExec = f) ∧
      ((a.applyOpts opts).postTxExec = none →
        args.postTxExec = defaultPostTxExec ∧
        ∀ tx success w, args.postTxExec tx success w = (w, none)) := by
  obtain ⟨args, hstf, ht, hp⟩ := Build_stf env a a' opts app h
  rw [withDefaults_txValidator] at ht
  rw [withDefaults_postTxExec] at hp
  injection ht with ht
  injection hp with hp
  refine ⟨args, hstf, ?_, ?_, ?_, ?_, ?_⟩
  · intro pre f post hopts hkeep
    have : (a.applyOpts opts).txValidator = some f := by
      rw [hopts, applyOpts_append]
      have h1 : (a.applyOpts pre).applyOpts (AppBuilderWithTxValidator (some f) :: post) =
          (AppBuilderWithTxValidator (some f) (a.applyOpts pre)).applyOpts post := rfl
      rw [h1, applyOpts_keeps AppBuilder.txValidator post hkeep]
      rfl
    rw [ht, this]
  · intro hnone
    rw [ht, hnone]
  · intro hnone hk1 hk2
    have e1 : (a.applyOpts opts).txValidator = none := by
      rw [applyOpts_keeps AppBuilder.txValidator opts hk1]; exact hnone
    have e2 : (a.applyOpts opts).app.moduleManager = a.app.moduleManager :=
      applyOpts_keeps (fun b => b.app.moduleManager) opts hk2 a
    rw [ht, e1]
    simp only []
    rw [e2]
  · intro pre f post hopts hkeep
    have : (a.applyOpts opts).postTxExec = some f := by
      rw [hopts, applyOpts_append]
      have h1 : (a.applyOpts pre).applyOpts (AppBuilderWithPostTxExec (some f) :: post) =
          (AppBuilderWithPostTxExec (some f) (a.applyOpts pre)).applyOpts post := rfl
      rw [h1, applyOpts_keeps AppBuilder.postTxExec post hkeep]
      rfl
    rw [hp, this]
  · intro hnone
    have : args.postTxExec = defaultPostTxExec := by rw [hp, hnone]
    refine ⟨this, ?_⟩
    intro tx success w
    rw [this]
    rfl

/-- C18, witness: one option with a validator hands that validator and the nil
post-tx-exec hook; one option with a post-tx-exec hook hands that hook and the module
manager's validator. -/
theorem build_hands_validator_witness :
    (∃ a' app, builderDb.Build envOk [AppBuilderWithTxValidator (some customValidator)] =
        (a', .ok app) ∧
      ∃ args, app.stf = some args ∧ args.txValidator = customValidator ∧
        args.postTxExec = defaultPostTxExec) ∧
    (∃ a' app, builderDb.Build envOk [AppBuilderWithPostTxExec (some customPostTxExec)] =
        (a', .ok app) ∧
      ∃ args, app.stf = some args ∧ args.txValidator = scenarioXYZ.TxValidators ∧
        args.postTxExec = customPostTxExec) := by
  constructor
  · have h : ∃ a' app, builderDb.Build envOk
        [AppBuilderWithTxValidator (some customValidator)] = (a', Except.ok app) :=
      ⟨_, _, rfl⟩
    obtain ⟨a', app, h⟩ := h
    obtain ⟨args, hstf, h1, _, _, _, h5⟩ :=
      build_hands_validator envOk builderDb a' _ app h
    exact ⟨a', app, h, args, hstf, h1 [] customValidator [] rfl (by simp), (h5 rfl).1⟩
  · have h : ∃ a' app, builderDb.Build envOk
        [AppBuilderWithPostTxExec (some customPostTxExec)] = (a', Except.ok app) :=
      ⟨_, _, rfl⟩
    obtain ⟨a', app, h⟩ := h
    obtain ⟨args, hstf, _, h2, _, h4, _⟩ :=
      build_hands_validator envOk builderDb a' _ app h
    exact ⟨a', app, h, args, hstf, h2 rfl, h4 [] customPostTxExec [] rfl (by simp)⟩

/-- C18, counterexample: the options include `AppBuilderWithTxValidator` of
`customValidator`, and the validator handed to the state-transition function is another one,
the `customValidator2` of the later option, which rejects a transaction the first accepts. -/
theorem build_hands_validator_counterexample :
    ∃ a' app args,
      builderDb.Build envOk [AppBuilderWithTxValidator (some customValidator),
        AppBuilderWithTxValidator (some customValidator2)] = (a', .ok app) ∧
      app.stf = some args ∧
      args.txValidator = customValidator2 ∧
      args.txValidator [] exec0 = (exec0, some boom) ∧
      customValidator [] exec0 = (exec0, none) ∧
      args.txValidator ≠ customValidator :=
  ⟨_, _, _, rfl, rfl, rfl, rfl, rfl, by
    intro h
    have := congrFun (congrFun h []) exec0
    simp [customValidator, AppBuilder.stfArgs, AppBuilder.withDefaults, AppBuilder.applyOpts,
      AppBuilderWithTxValidator, customValidator2, builderDb] at this⟩

/-- An entry that does not report returns the empty list. -/
theorem updatesAt_nil_of_not_reports (s0 : σ) (e : String × AppModule σ)
    (h : reportsAt s0 e = false) : updatesAt s0 e = [] := by
  unfold reportsAt at h
  cases hu : updatesAt s0 e with
  | nil => rfl
  | cons a l => rw [hu] at h; simp at h

/-- A loop whose turns, in the contexts it reaches, are those of `UpdateStep` returns nil
exactly when no entry fails and at most one list, the accumulator included, is non-empty; the
accumulator is then followed by the lists of the entries. -/
theorem forRange_updates_char (c0 : σ)
    (body : String × AppModule σ → List ValidatorUpdate × Exec σ →
      (List ValidatorUpdate × Exec σ) × Option GoError)
    (pre es : List (String × AppModule σ))
    (hbody : ∀ p e q, pre ++ es = p ++ e :: q → ∀ s : List ValidatorUpdate × Exec σ,
      s.2.ctx = ctxAfter p c0 →
      UpdateStep c0 e s (body e s) ∧
      ((body e s).2 = none → (body e s).1.2.ctx = ctxAfter (p ++ [e]) c0))
    (s : List ValidatorUpdate × Exec σ) (hs : s.2.ctx = ctxAfter pre c0) :
    ((forRange body es s).2 = none ↔
      (∀ e ∈ es, failsAt c0 e = false) ∧ held s.1 + (es.filter (reportsAt c0)).length ≤ 1) ∧
    ((forRange body es s).2 = none →
      (forRange body es s).1.1 = s.1 ++ es.flatMap (updatesAt c0)) := by
  induction es generalizing pre s with
  | nil =>
    have := held_le_one s.1
    simp [forRange]
    omega
  | cons e es ih =>
    obtain ⟨hstep, hctx⟩ := hbody pre e es rfl s hs
    have ih' := ih (pre ++ [e]) (fun p x q hsplit => hbody p x q (by simpa using hsplit))
    have hle := held_le_one s.1
    cases hb : body e s with
    | mk s1 r1 =>
      rw [hb] at hstep hctx
      rcases hstep with ⟨hf, hr⟩ | ⟨hf, hrep, hr, hacc⟩ | ⟨hf, hrep, hne, hr⟩ |
        ⟨hf, hrep, he, hr, hacc⟩
      · simp only at hr
        cases r1 with
        | none => exact absurd rfl hr
        | some r => simp [forRange, hb, hf]
      · simp only at hr hacc
        subst hr
        obtain ⟨ih1, ih2⟩ := ih' s1 (hctx rfl)
        have hup := updatesAt_nil_of_not_reports c0 e hrep
        simp only [forRange, hb, List.mem_cons, forall_eq_or_imp, hf, true_and,
          List.filter_cons, hrep, Bool.false_eq_true, if_false, List.flatMap_cons, hup,
          List.nil_append]
        rw [← hacc]
        exact ⟨ih1, ih2⟩
      · simp only at hr
        have hh : held s.1 = 1 := by simp [held, hne]
        cases r1 with
        | none => exact absurd rfl hr
        | some r => simp [forRange, hb, List.filter_cons, hrep, hh]
      · simp only at hr hacc
        subst hr
        obtain ⟨ih1, ih2⟩ := ih' s1 (hctx rfl)
        have hne : updatesAt c0 e ≠ [] := by
          intro h0
          simp [reportsAt, h0] at hrep
        have hh1 : held s1.1 = 1 := by rw [hacc]; simp [held, hne]
        have hh0 : held s.1 = 0 := by simp [held, he]
        simp only [hh1] at ih1
        simp only [forRange, hb, List.mem_cons, forall_eq_or_imp, hf, true_and,
          List.filter_cons, hrep, if_true, List.length_cons, hh0, List.flatMap_cons]
        constructor
        · rw [ih1]
          constructor
          · rintro ⟨h1, h2⟩; exact ⟨h1, by omega⟩
          · rintro ⟨h1, h2⟩; exact ⟨h1, by omega⟩
        · intro hnone
          rw [ih2 hnone, hacc, he]
          simp

/-- The context after the calls of `p` and then of `e`. -/
theorem ctxAfter_snoc (p : List (String × AppModule σ)) (e : String × AppModule σ) (c0 : σ) :
    ctxAfter (p ++ [e]) c0 =
      match e.2.UpdateValidators with
      | some UpdateValidators => (UpdateValidators (ctxAfter p c0)).1
      | none => ctxAfter p c0 := by
  simp [ctxAfter, List.foldl_append]

/-- The loop of `valUpdateFunc` over a visiting order in which every module answers as in
the context of the start: it returns nil exactly when no module fails and at most one list,
the accumulator included, is non-empty, and the accumulator is then followed by the lists of
the modules. -/
theorem valUpdate_loop_char (m : MM σ) (s : List ValidatorUpdate × Exec σ)
    (hans : AnswersAsAt s.2.ctx m.modules) :
    ((MM.valUpdateFunc.loop m s).2 = none ↔
      (∀ e ∈ m.modules, failsAt s.2.ctx e = false) ∧
        held s.1 + (m.modules.filter (reportsAt s.2.ctx)).length ≤ 1) ∧
    ((MM.valUpdateFunc.loop m s).2 = none →
      (MM.valUpdateFunc.loop m s).1.1 = s.1 ++ m.modules.flatMap (updatesAt s.2.ctx)) := by
  generalize hc0 : s.2.ctx = c0 at hans ⊢
  refine forRange_updates_char c0 _ [] m.modules ?_ s hc0
  intro p e q hsplit t ht
  rw [ctxAfter_snoc]
  cases hu : e.2.UpdateValidators with
  | none =>
    refine ⟨Or.inr (Or.inl ?_), fun _ => ?_⟩
    · simp [failsAt, reportsAt, updatesAt, hu]
    · simpa [hu] using ht
  | some h =>
    have hsame : (h t.2.ctx).2 = (h c0).2 := by
      rw [ht]
      exact hans p e q hsplit h hu
    have hup : updatesAt c0 e = (h t.2.ctx).2.1 := by simp [updatesAt, hu, hsame]
    have hctx : (h (ctxAfter p c0)).1 = (h t.2.ctx).1 := by rw [ht]
    cases herr : (h t.2.ctx).2.2 with
    | some err =>
      refine ⟨Or.inl ?_, fun hn => ?_⟩
      · have : (h c0).2.2 = some err := by rw [← hsame]; exact herr
        simp [failsAt, hu, this, herr]
      · simp [hu, herr] at hn
    | none =>
      have hf : failsAt c0 e = false := by
        have : (h c0).2.2 = none := by rw [← hsame]; exact herr
        simp [failsAt, hu, this]
      by_cases hl : (h t.2.ctx).2.1.length > 0
      · have hne : (h t.2.ctx).2.1 ≠ [] := by
          intro h0; rw [h0] at hl; simp at hl
        have hr : reportsAt c0 e = true := by simp [reportsAt, hup, hne]
        by_cases ha : t.1.length > 0
        · refine ⟨Or.inr (Or.inr (Or.inl ?_)), fun hn => ?_⟩
          · have hs : t.1 ≠ [] := by intro h0; rw [h0] at ha; simp at ha
            simp [hf, hr, hs, hu, herr, hl, ha]
          · simp [hu, herr, hl, ha] at hn
        · refine ⟨Or.inr (Or.inr (Or.inr ?_)), fun _ => ?_⟩
          · have hs : t.1 = [] := by
              cases hs1 : t.1 with
              | nil => rfl
              | cons a l => rw [hs1] at ha; simp at ha
            simp [hf, hr, hs, hu, herr, hl, hup]
          · simp [hu, herr, hl, ha, Exec.record, hctx]
      · refine ⟨Or.inr (Or.inl ?_), fun _ => ?_⟩
        · have he0 : (h t.2.ctx).2.1 = [] := by
            cases hs1 : (h t.2.ctx).2.1 with
            | nil => rfl
            | cons a l => rw [hs1] at hl; simp at hl
          have hr : reportsAt c0 e = false := by simp [reportsAt, hup, he0]
          simp [hf, hr, hu, herr, hl]
        · simp [hu, herr, hl, Exec.record, hctx]

/-- Only the entries that report contribute to the lists of the entries. -/
theorem flatMap_updatesAt_filter (s0 : σ) (es : List (String × AppModule σ)) :
    es.flatMap (updatesAt s0) = (es.filter (reportsAt s0)).flatMap (updatesAt s0) := by
  induction es with
  | nil => rfl
  | cons e es ih =>
    cases hr : reportsAt s0 e with
    | false =>
      simp only [List.flatMap_cons, List.filter_cons, hr, Bool.false_eq_true, if_false,
        updatesAt_nil_of_not_reports s0 e hr, List.nil_append]
      exact ih
    | true =>
      simp only [List.flatMap_cons, List.filter_cons, hr, if_true]
      rw [ih]

/-- Two enumerations of at most one element are equal. -/
theorem eq_of_perm_of_length_le_one {α : Type} (l1 l2 : List α) (hperm : l1.Perm l2)
    (hlen : l1.length ≤ 1) : l1 = l2 := by
  match l1, hlen with
  | [], _ => exact (List.nil_perm.mp hperm).symm
  | [a], _ => exact List.singleton_perm.mp hperm

/-- With at most one reporting entry, the lists of the entries do not depend on the
order of the entries. -/
theorem flatMap_updatesAt_perm (s0 : σ) (es1 es2 : List (String × AppModule σ))
    (hperm : es1.Perm es2) (hlen : (es1.filter (reportsAt s0)).length ≤ 1) :
    es1.flatMap (updatesAt s0) = es2.flatMap (updatesAt s0) := by
  rw [flatMap_updatesAt_filter s0 es1, flatMap_updatesAt_filter s0 es2,
    eq_of_perm_of_length_le_one _ _ (hperm.filter (reportsAt s0)) hlen]

/-- The error of `valUpdateFunc` is the error of its loop. -/
theorem valUpdateFunc_err (m : MM σ) (s : List ValidatorUpdate × Exec σ) :
    (m.valUpdateFunc s).2.2 = (MM.valUpdateFunc.loop m s).2 := by
  unfold MM.valUpdateFunc
  cases h : (MM.valUpdateFunc.loop m s).2 <;> simp [h]

/-- The list of `valUpdateFunc` after a loop without error is the accumulator. -/
theorem valUpdateFunc_val (m : MM σ) (s : List ValidatorUpdate × Exec σ)
    (h : (MM.valUpdateFunc.loop m s).2 = none) :
    (m.valUpdateFunc s).2.1 = some (MM.valUpdateFunc.loop m s).1.1 := by
  unfold MM.valUpdateFunc
  simp [h]

/-- With at most one reporting entry, the lists of the entries are the list of the
entry that reports. -/
theorem flatMap_updatesAt_of_reports (s0 : σ) (es : List (String × AppModule σ))
    (hlen : (es.filter (reportsAt s0)).length ≤ 1) (e : String × AppModule σ) (he : e ∈ es)
    (hr : reportsAt s0 e = true) : es.flatMap (updatesAt s0) = updatesAt s0 e := by
  rw [flatMap_updatesAt_filter]
  have hmem : e ∈ es.filter (reportsAt s0) := List.mem_filter.mpr ⟨he, hr⟩
  cases hf : es.filter (reportsAt s0) with
  | nil => rw [hf] at hmem; exact absurd hmem (List.not_mem_nil e)
  | cons a l =>
    rw [hf] at hmem hlen
    cases l with
    | nil =>
      have hea : e = a := List.mem_singleton.mp hmem
      subst hea
      exact List.append_nil _
    | cons b l => simp at hlen

/-- Without a reporting entry, the lists of the entries are empty. -/
theorem flatMap_updatesAt_of_none (s0 : σ) (es : List (String × AppModule σ))
    (hnone : ∀ e ∈ es, reportsAt s0 e = false) : es.flatMap (updatesAt s0) = [] := by
  rw [flatMap_updatesAt_filter]
  have : es.filter (reportsAt s0) = [] := by
    rw [List.filter_eq_nil_iff]
    intro e he
    simp [hnone e he]
  rw [this]
  rfl

/-- Modules with distinct names of which none changes what another returns do not
interfere, whatever the context of the start. -/
theorem nonInterfering_of_preserves (c0 : σ) (es : List (String × AppModule σ))
    (hnd : (es.map Prod.fst).Nodup)
    (hp : ∀ e ∈ es, ∀ e' ∈ es, e'.1 ≠ e.1 → ∀ h h', e.2.UpdateValidators = some h →
      e'.2.UpdateValidators = some h' → ∀ s, (h (h' s).1).2 = (h s).2) :
    NonInterfering c0 es := by
  intro es' hperm pre e post hsplit h hu
  have hnd' : (es'.map Prod.fst).Nodup := ((hperm.map Prod.fst).nodup_iff).mpr hnd
  have he : e ∈ es := hperm.mem_iff.mp (by rw [hsplit]; simp)
  have hpre : ∀ x ∈ pre, x ∈ es ∧ x.1 ≠ e.1 := by
    intro x hx
    refine ⟨hperm.mem_iff.mp (by rw [hsplit]; simp [hx]), ?_⟩
    intro hxe
    rw [hsplit] at hnd'
    exact not_mem_keys_of_nodup_split pre post e hnd' (hxe ▸ List.mem_map_of_mem Prod.fst hx)
  clear hsplit hnd'
  induction pre generalizing c0 with
  | nil => rfl
  | cons x l ih =>
    have hx := hpre x (List.mem_cons_self _ _)
    have hl : ∀ y ∈ l, y ∈ es ∧ y.1 ≠ e.1 := fun y hy => hpre y (List.mem_cons_of_mem _ hy)
    cases hxu : x.2.UpdateValidators with
    | none =>
      have : ctxAfter (x :: l) c0 = ctxAfter l c0 := by simp [ctxAfter, hxu]
      rw [this]
      exact ih c0 hl
    | some h' =>
      have : ctxAfter (x :: l) c0 = ctxAfter l (h' c0).1 := by simp [ctxAfter, hxu]
      rw [this, ih (h' c0).1 hl]
      exact hp e he x hx.1 hx.2 h h' hu hxu c0

/-- C20 (amended). For modules that do not interfere (what the `UpdateValidators` of a
module returns is not changed by the `UpdateValidators` calls of the modules visited before
it, in any visiting order from the context of the start), the outcome of `valUpdateFunc` does
not depend on the iteration order of the module map: from the same accumulator contents and
the same context, two visiting orders of the same modules either both return an error or both
succeed with the same validator-update list. From an empty accumulator it succeeds exactly
when no module's `UpdateValidators` returns an error and at most one module reports a
non-empty list, and it then returns that module's list, or the empty list when no module
reports. -/
theorem valUpdateFunc_order_independent (m1 m2 : MM σ)
    (hperm : m1.modules.Perm m2.modules) (acc : List ValidatorUpdate) (w1 w2 : Exec σ)
    (hctx : w2.ctx = w1.ctx) (hni : NonInterfering w1.ctx m1.modules) :
    (((m1.valUpdateFunc (acc, w1)).2.2 ≠ none ∧ (m2.valUpdateFunc (acc, w2)).2.2 ≠ none) ∨
      ((m1.valUpdateFunc (acc, w1)).2.2 = none ∧ (m2.valUpdateFunc (acc, w2)).2.2 = none ∧
        (m1.valUpdateFunc (acc, w1)).2.1 = (m2.valUpdateFunc (acc, w2)).2.1)) ∧
    ((m1.valUpdateFunc ([], w1)).2.2 = none ↔
      (∀ e ∈ m1.modules, failsAt w1.ctx e = false) ∧
        (m1.modules.filter (reportsAt w1.ctx)).length ≤ 1) ∧
    ((m1.valUpdateFunc ([], w1)).2.2 = none →
      (∀ e ∈ m1.modules, reportsAt w1.ctx e = true →
        (m1.valUpdateFunc ([], w1)).2.1 = some (updatesAt w1.ctx e)) ∧
      ((∀ e ∈ m1.modules, reportsAt w1.ctx e = false) →
        (m1.valUpdateFunc ([], w1)).2.1 = some [])) := by
  have hans1 : AnswersAsAt w1.ctx m1.modules := hni _ (List.Perm.refl _)
  have hans2 : AnswersAsAt w2.ctx m2.modules := by rw [hctx]; exact hni _ hperm.symm
  obtain ⟨a1, a2⟩ := valUpdate_loop_char m1 (acc, w1) hans1
  obtain ⟨b1, b2⟩ := valUpdate_loop_char m2 (acc, w2) hans2
  obtain ⟨c1, c2⟩ := valUpdate_loop_char m1 ([], w1) hans1
  simp only [hctx] at b1 b2
  simp only [] at a1 a2 c1 c2
  have hcond : ((∀ e ∈ m1.modules, failsAt w1.ctx e = false) ∧
      held acc + (m1.modules.filter (reportsAt w1.ctx)).length ≤ 1) ↔
      ((∀ e ∈ m2.modules, failsAt w1.ctx e = false) ∧
      held acc + (m2.modules.filter (reportsAt w1.ctx)).length ≤ 1) := by
    rw [(hperm.filter (reportsAt w1.ctx)).length_eq]
    constructor
    · rintro ⟨h1, h2⟩; exact ⟨fun e he => h1 e (hperm.mem_iff.mpr he), h2⟩
    · rintro ⟨h1, h2⟩; exact ⟨fun e he => h1 e (hperm.mem_iff.mp he), h2⟩
  refine ⟨?_, ?_, ?_⟩
  · rw [valUpdateFunc_err, valUpdateFunc_err]
    by_cases h1 : (MM.valUpdateFunc.loop m1 (acc, w1)).2 = none
    · right
      have h2 : (MM.valUpdateFunc.loop m2 (acc, w2)).2 = none :=
        b1.mpr (hcond.mp (a1.mp h1))
      refine ⟨h1, h2, ?_⟩
      rw [valUpdateFunc_val m1 _ h1, valUpdateFunc_val m2 _ h2, a2 h1, b2 h2]
      have hlen : (m1.modules.filter (reportsAt w1.ctx)).length ≤ 1 := by
        have := (a1.mp h1).2
        omega
      rw [flatMap_updatesAt_perm w1.ctx _ _ hperm hlen]
    · left
      refine ⟨h1, fun h2 => h1 (a1.mpr (hcond.mpr (b1.mp h2)))⟩
  · rw [valUpdateFunc_err, c1]
    simp [held]
  · rw [valUpdateFunc_err]
    intro h
    have hlen : (m1.modules.filter (reportsAt w1.ctx)).length ≤ 1 := by
      have := (c1.mp h).2
      omega
    rw [valUpdateFunc_val m1 _ h, c2 h]
    refine ⟨fun e he hr => ?_, fun hno => ?_⟩
    · rw [flatMap_updatesAt_of_reports w1.ctx _ hlen e he hr]; rfl
    · rw [flatMap_updatesAt_of_none w1.ctx _ hno]; rfl

/-- C20, witness: a and b each read and write their own part of the context, so they do
not interfere; from the empty accumulator the orders a, b and b, a both succeed with the
update of a. A module alone, such as the one of `managerHeight` that reads the block height,
never interferes. -/
theorem valUpdateFunc_order_independent_witness :
    (managerApart modulesApart).modules.Perm (managerApart modulesApart.reverse).modules ∧
    NonInterfering ((0, 0) : Nat × Nat) (managerApart modulesApart).modules ∧
    NonInterfering (0 : Nat) managerHeight.modules ∧
    ((managerApart modulesApart).valUpdateFunc ([], ⟨(0, 0), []⟩)).2 =
      (some [update1], none) ∧
    ((managerApart modulesApart.reverse).valUpdateFunc ([], ⟨(0, 0), []⟩)).2 =
      (some [update1], none) ∧
    ((((managerApart modulesApart).valUpdateFunc ([], ⟨(0, 0), []⟩)).2.2 ≠ none ∧
        ((managerApart modulesApart.reverse).valUpdateFunc ([], ⟨(0, 0), []⟩)).2.2 ≠ none) ∨
      (((managerApart modulesApart).valUpdateFunc ([], ⟨(0, 0), []⟩)).2.2 = none ∧
        ((managerApart modulesApart.reverse).valUpdateFunc ([], ⟨(0, 0), []⟩)).2.2 = none ∧
        ((managerApart modulesApart).valUpdateFunc ([], ⟨(0, 0), []⟩)).2.1 =
          ((managerApart modulesApart.reverse).valUpdateFunc ([], ⟨(0, 0), []⟩)).2.1)) :=
  have hp : (managerApart modulesApart).modules.Perm
      (managerApart modulesApart.reverse).modules := (List.reverse_perm modulesApart).symm
  have hi : NonInterfering ((0, 0) : Nat × Nat) (managerApart modulesApart).modules := by
    apply nonInterfering_of_preserves
    · decide
    · intro e he e' he' hne h h' hu hu' s
      have he1 : e ∈ modulesApart := he
      have he2 : e' ∈ modulesApart := he'
      simp only [modulesApart, List.mem_cons, List.mem_singleton, List.not_mem_nil,
        or_false] at he1 he2
      rcases he1 with rfl | rfl <;> rcases he2 with rfl | rfl
      · exact absurd rfl hne
      · injection hu with hu
        injection hu' with hu'
        subst hu
        subst hu'
        rfl
      · injection hu with hu
        injection hu' with hu'
        subst hu
        subst hu'
        rfl
      · exact absurd rfl hne
  have hh : NonInterfering (0 : Nat) managerHeight.modules := by
    apply nonInterfering_of_preserves
    · decide
    · intro e he e' he' hne
      have he1 : e ∈ modulesHeight := he
      have he2 : e' ∈ modulesHeight := he'
      simp only [modulesHeight, List.mem_singleton] at he1 he2
      subst he1
      subst he2
      exact absurd rfl hne
  ⟨hp, hi, hh, by decide, by decide,
    (valUpdateFunc_order_independent (managerApart modulesApart)
      (managerApart modulesApart.reverse) hp [] ⟨(0, 0), []⟩ ⟨(0, 0), []⟩ rfl hi).1⟩

/-- C20, counterexample: a changes the context and b fails in a changed context, so what b
returns depends on whether a was visited before it; from the empty accumulator and the same
context the order a, b returns the error of b and the order b, a succeeds with the empty
list. -/
theorem valUpdateFunc_order_independent_counterexample :
    (managerOrder modulesOrder).modules.Perm (managerOrder modulesOrder.reverse).modules ∧
    ((managerOrder modulesOrder).valUpdateFunc ([], ⟨0, []⟩)).2 = (none, some boom) ∧
    ((managerOrder modulesOrder.reverse).valUpdateFunc ([], ⟨0, []⟩)).2 = (some [], none) ∧
    ¬ NonInterfering (0 : Nat) (managerOrder modulesOrder).modules :=
  ⟨(List.reverse_perm modulesOrder).symm, by decide, by decide, by
    intro h
    have := h modulesOrder (List.Perm.refl _)
      [("a", { UpdateValidators := some fun s => (s + 1, ([], none)) })]
      ("b", { UpdateValidators := some fun s => (s, ([], if s = 0 then none else some boom)) })
      [] rfl _ rfl
    simp [ctxAfter] at this⟩

/-- A key of a map is found in it. -/
theorem lookup_isSome_of_mem_keys {V : Type} (k : String) (l : List (String × V))
    (h : k ∈ l.map Prod.fst) : (List.lookup k l).isSome = true := by
  induction l with
  | nil => simp at h
  | cons e l ih =>
    obtain ⟨k', v'⟩ := e
    simp only [List.lookup_cons]
    cases hk : (k == k') with
    | true => rfl
    | false =>
      simp only [List.map_cons, List.mem_cons] at h
      rcases h with h | h
      · have : (k == k') = true := by simpa using h
        rw [this] at hk; cases hk
      · exact ih h

/-- The keys of a map after an assignment: the keys before it and the assigned key. -/
theorem mem_keys_set (vm : VersionMap) (k x : String) (v : Nat) :
    x ∈ (VersionMap.set vm k v).map Prod.fst ↔ x ∈ vm.map Prod.fst ∨ x = k := by
  induction vm with
  | nil => simp [VersionMap.set]
  | cons e vm ih =>
    obtain ⟨k', v'⟩ := e
    by_cases h : k' = k
    · subst h
      simp only [VersionMap.set, if_true, List.map_cons, List.mem_cons]
      tauto
    · simp only [VersionMap.set, h, if_false, List.map_cons, List.mem_cons, ih]
      tauto

/-- An assignment on a map without repeated key gives a map without repeated key. -/
theorem nodup_keys_set (vm : VersionMap) (k : String) (v : Nat)
    (h : (vm.map Prod.fst).Nodup) : ((VersionMap.set vm k v).map Prod.fst).Nodup := by
  induction vm with
  | nil => simp [VersionMap.set]
  | cons e vm ih =>
    obtain ⟨k', v'⟩ := e
    simp only [List.map_cons, List.nodup_cons] at h
    by_cases hk : k' = k
    · subst hk
      simp only [VersionMap.set, if_true, List.map_cons, List.nodup_cons]
      exact h
    · simp only [VersionMap.set, hk, if_false, List.map_cons, List.nodup_cons]
      refine ⟨?_, ih h.2⟩
      rw [mem_keys_set]
      rintro (h1 | h1)
      · exact h.1 h1
      · exact hk h1

/-- A loop of `RunMigrations` that returns nil leaves a map whose keys are the keys it
started from and the names of the order, none repeated. -/
theorem runMigrations_loop_keys (m : MM σ) (fromVM : VersionMap) (names : List String)
    (s : VersionMap × Exec σ) (h : (forRange (m.runMigration fromVM) names s).2 = none) :
    (∀ x, x ∈ (forRange (m.runMigration fromVM) names s).1.1.map Prod.fst ↔
      x ∈ s.1.map Prod.fst ∨ x ∈ names) ∧
    ((s.1.map Prod.fst).Nodup →
      ((forRange (m.runMigration fromVM) names s).1.1.map Prod.fst).Nodup) := by
  induction names generalizing s with
  | nil => simp [forRange]
  | cons n ns ih =>
    cases hb : m.runMigration fromVM n s with
    | mk s1 r1 =>
      cases r1 with
      | some r => simp [forRange, hb] at h
      | none =>
        have hstep := (runMigration_success m fromVM n s (by rw [hb])).1
        rw [hb] at hstep
        simp only at hstep
        simp only [forRange, hb] at h ⊢
        obtain ⟨ih1, ih2⟩ := ih s1 h
        refine ⟨fun x => ?_, fun hnd => ?_⟩
        · rw [ih1, hstep, mem_keys_set, List.mem_cons]
          tauto
        · apply ih2
          rw [hstep]
          exact nodup_keys_set _ _ _ hnd

/-- A configuration that passes `validateConfig` names every registered module in its
migration order. -/
theorem validateConfig_order (m : MM σ) (h : m.validateConfig = none) (x : String)
    (hx : x ∈ m.modules.map Prod.fst) : x ∈ m.config.OrderMigrations := by
  rw [validateConfig_all_pass m (validateConfig_none m h), assert_eq] at h
  by_cases hm : m.missing m.config.OrderMigrations none = []
  · by_contra hn
    have : x ∈ m.missing m.config.OrderMigrations none := by
      simp only [MM.missing, List.mem_filter]
      exact ⟨hx, by simpa using hn⟩
    rw [hm] at this
    exact absurd this (List.not_mem_nil x)
  · simp [hm] at h

/-- C21. For every manager that `NewModuleManager` returned and every `fromVM` for which
`RunMigrations` succeeds: the manager holds the given modules and its migration order is the
configured one (the default order when none is configured); the keys of the returned version
map are exactly the names of that migration order, each key once; so every registered module
is a key of the returned map; an entry of `fromVM` whose name is not in the migration order
is not in the returned map; and a listed name under which no module is registered is recorded
with version 0. -/
theorem runMigrations_keys (D : List String → List String) (reg : MigrationRegistrar σ)
    (config : Config) (modules : List (String × AppModule σ)) (m : MM σ)
    (hm : NewModuleManager D reg config modules = .ok m)
    (fromVM : VersionMap) (w : Exec σ) (vm : VersionMap)
    (h : (m.RunMigrations fromVM w).2 = (some vm, none)) :
    m.modules = modules ∧
    m.config.OrderMigrations =
      (if config.OrderMigrations.length = 0 then D (modules.map Prod.fst)
        else config.OrderMigrations) ∧
    (∀ x, x ∈ vm.map Prod.fst ↔ x ∈ m.config.OrderMigrations) ∧
    (vm.map Prod.fst).Nodup ∧
    (∀ x ∈ modules.map Prod.fst, x ∈ vm.map Prod.fst) ∧
    (∀ x ∈ fromVM.map Prod.fst, x ∉ m.config.OrderMigrations →
      x ∉ vm.map Prod.fst ∧ List.lookup x vm = none) ∧
    (∀ x ∈ m.config.OrderMigrations, x ∉ modules.map Prod.fst →
      List.lookup x vm = some 0) := by
  obtain ⟨hmo, hval⟩ := ok_of_NewModuleManager hm
  have hmods : m.modules = modules := by rw [hmo]; rfl
  have hord : m.config.OrderMigrations =
      (if config.OrderMigrations.length = 0 then D (modules.map Prod.fst)
        else config.OrderMigrations) := by rw [hmo]; rfl
  rw [RunMigrations_result] at h
  cases hr : (forRange (m.runMigration fromVM) m.config.OrderMigrations ([], w)).2 with
  | some err => simp [hr] at h
  | none =>
    simp only [hr, Prod.mk.injEq, Option.some.injEq, and_true] at h
    obtain ⟨hk, hnd⟩ := runMigrations_loop_keys m fromVM m.config.OrderMigrations ([], w) hr
    obtain ⟨_, hin, _⟩ :=
      runMigrations_loop_success m fromVM m.config.OrderMigrations ([], w) hr
    rw [h] at hk hnd hin
    have hkeys : ∀ x, x ∈ vm.map Prod.fst ↔ x ∈ m.config.OrderMigrations := by
      intro x
      rw [hk x]
      simp
    have hnot : ∀ x, x ∉ m.config.OrderMigrations → x ∉ vm.map Prod.fst :=
      fun x hx hmem => hx ((hkeys x).mp hmem)
    refine ⟨hmods, hord, hkeys, hnd (by simp), ?_, ?_, ?_⟩
    · intro x hx
      rw [hkeys]
      exact validateConfig_order m hval x (by rw [hmods]; exact hx)
    · intro x _ hx
      exact ⟨hnot x hx, lookup_none_of_not_mem x vm (hnot x hx)⟩
    · intro x hx hreg
      rw [hin x hx]
      have : m.module x = none := by
        unfold MM.module
        rw [hmods]
        exact lookup_none_of_not_mem x modules hreg
      simp [MM.toVersion, this]

/-- C21, witness: the manager of A, B, C with the migration order A, B, C, ghost is
returned by the constructor; from `fromVM` = {A:1, old:7} the run returns
{A:2, B:1, C:0, ghost:0}: every module and the unregistered name ghost, the latter with
version 0, and not the entry old of `fromVM`. -/
theorem runMigrations_keys_witness :
    NewModuleManager id registrarOk configGhost managerGhost.modules = .ok managerGhost ∧
    (managerGhost.RunMigrations [("A", 1), ("old", 7)] exec0).2 =
      (some [("A", 2), ("B", 1), ("C", 0), ("ghost", 0)], none) ∧
    (∀ x, x ∈ [("A", 2), ("B", 1), ("C", 0), ("ghost", 0)].map Prod.fst ↔
      x ∈ managerGhost.config.OrderMigrations) ∧
    (∀ x ∈ managerGhost.modules.map Prod.fst,
      x ∈ [("A", 2), ("B", 1), ("C", 0), ("ghost", 0)].map Prod.fst) ∧
    ("old" ∉ [("A", 2), ("B", 1), ("C", 0), ("ghost", 0)].map Prod.fst ∧
      List.lookup "old" [("A", 2), ("B", 1), ("C", 0), ("ghost", 0)] = none) ∧
    List.lookup "ghost" [("A", 2), ("B", 1), ("C", 0), ("ghost", 0)] = some 0 :=
  have hm : NewModuleManager id registrarOk configGhost managerGhost.modules =
      .ok managerGhost := rfl
  have h : (managerGhost.RunMigrations [("A", 1), ("old", 7)] exec0).2 =
      (some [("A", 2), ("B", 1), ("C", 0), ("ghost", 0)], none) := by decide
  have t := runMigrations_keys id registrarOk configGhost managerGhost.modules managerGhost hm
    [("A", 1), ("old", 7)] exec0 [("A", 2), ("B", 1), ("C", 0), ("ghost", 0)] h
  ⟨hm, h, t.2.2.1, t.2.2.2.2.1,
    t.2.2.2.2.2.1 "old" (by decide) (by decide),
    t.2.2.2.2.2.2 "ghost" (by decide) (by decide)⟩

end Proofs

end runtime
